import Mathlib

/-!
# GraphicEngine: scene-graph node hierarchy, world matrix and scripted movement

A shallow embedding of `Eng::Node` (`src/engine/node.h`, `src/engine/node.cpp`).

* A `glm::mat4` is embedded as a mathematical 4x4 matrix over an arbitrary
  commutative ring `R` of exact numbers.  GLM stores matrices column-major and
  `m[c]` is column `c`; the embedding writes `M r c` for row `r`, column `c`, so
  that the C++ product `a * b` is the ordinary matrix product.
* A `Node*` is an address (`Nat`), `nullptr` is `none`.  The heap maps every
  address to the node object stored there.
* The private vectors `m_stepMatrix` and `m_steps` are only ever pushed, erased
  and cleared together (`move`, `calculateMove`, `resetMove`), so they are kept
  as one list of `(step matrix, remaining steps)` pairs.
-/

namespace Eng

/-- A `glm::mat4` with exact entries: row `r`, column `c` is `M r c`. -/
abbrev Mat4 (R : Type) := Matrix (Fin 4) (Fin 4) R

/-- A `glm::vec3`. -/
abbrev Vec3 (R : Type) := Fin 3 → R

/-- The GLM conversion `glm::vec3(m[3])`: the x, y, z entries of the fourth
column of a matrix. -/
def column3 {R : Type} (m : Mat4 R) : Vec3 R :=
  ![m 0 3, m 1 3, m 2 3]

/-- The GLM function `glm::translate(m, v)`: the result is `m` with its fourth
column replaced by `m[0] * v[0] + m[1] * v[1] + m[2] * v[2] + m[3]`. -/
def translate {R : Type} [CommRing R] (m : Mat4 R) (v : Vec3 R) : Mat4 R :=
  Matrix.of fun r c =>
    if c = 3 then m r 0 * v 0 + m r 1 * v 1 + m r 2 * v 2 + m r 3 else m r c

/-- The fields of `Eng::Node` (with the name inherited from `Eng::Object`). -/
structure Node (R : Type) where
  /-- the name held by the `Object` base class -/
  name : String
  /-- `m_parent`, `none` for `nullptr` -/
  m_parent : Option Nat
  /-- `m_children` -/
  m_children : List Nat
  /-- `m_matrix`, the local matrix -/
  m_matrix : Mat4 R
  /-- `m_isMoving` -/
  m_isMoving : Bool
  /-- `m_destinationMatrix` -/
  m_destinationMatrix : Mat4 R
  /-- `m_stepMatrix[i]` paired with `m_steps[i]` -/
  m_pending : List (Mat4 R × Int)

/-- The constructor `Node::Node(name, matrix)`. -/
def Node.new {R : Type} (name : String) (matrix : Mat4 R) : Node R :=
  { name := name
    m_parent := none
    m_children := []
    m_matrix := matrix
    m_isMoving := false
    m_destinationMatrix := matrix
    m_pending := [] }

/-- The heap: the node object stored at every address. -/
abbrev Heap (R : Type) := Nat → Node R

section Hierarchy

variable {R : Type}

/-- `Node::getParent`. -/
def getParent (h : Heap R) (x : Nat) : Option Nat := (h x).m_parent

/-- `Node::getChildren`. -/
def getChildren (h : Heap R) (x : Nat) : List Nat := (h x).m_children

/-- `Node::getNumberOfChildren`. -/
def getNumberOfChildren (h : Heap R) (x : Nat) : Nat := (h x).m_children.length

/-- `Node::getMatrix`. -/
def getMatrix (h : Heap R) (x : Nat) : Mat4 R := (h x).m_matrix

/-- `Node::isMoving`. -/
def isMoving (h : Heap R) (x : Nat) : Bool := (h x).m_isMoving

/-- `Node::setParent` called on the node at address `x`. -/
def setParent (h : Heap R) (x : Nat) (newParent : Option Nat) : Heap R :=
  Function.update h x { h x with m_parent := newParent }

/-- The loop of `Node::removeChild(Node*)` over `m_children`: the first entry
equal to `child` is erased and the call returns true (`some` of the new
vector); when no entry is equal the call returns false (`none`). -/
def removeChildLoop (child : Option Nat) : List Nat → Option (List Nat)
  | [] => none
  | x :: xs =>
    if some x = child then some xs
    else (removeChildLoop child xs).map (fun ys => x :: ys)

/-- `Node::removeChild(Node* child)` called on the node at address `p`. -/
def removeChildNode (h : Heap R) (p : Nat) (child : Option Nat) : Bool × Heap R :=
  match removeChildLoop child (h p).m_children with
  | some cs => (true, Function.update h p { h p with m_children := cs })
  | none => (false, h)

/-- `Node::removeChild(unsigned int n)` called on the node at address `p`. -/
def removeChild (h : Heap R) (p : Nat) (n : Nat) : Bool × Heap R :=
  if hn : n ≥ (h p).m_children.length then (false, h)
  else
    let c := (h p).m_children.get ⟨n, Nat.lt_of_not_ge hn⟩
    let h1 := if (h c).m_parent = some p then setParent h c none else h
    (true, Function.update h1 p
      { h1 p with m_children := (h1 p).m_children.eraseIdx n })

/-- `Node::addChild(Node* child)` called on the node at address `p`. -/
def addChild (h : Heap R) (p : Nat) (child : Option Nat) : Bool × Heap R :=
  match child with
  | none => (false, h)
  | some c =>
    if c ∈ (h p).m_children then (false, h)
    else
      let h1 := match (h c).m_parent with
        | some q => (removeChildNode h q (some c)).2
        | none => h
      let h2 := Function.update h1 p
        { h1 p with m_children := (h1 p).m_children ++ [c] }
      (true, setParent h2 c (some p))

/-- `Node::getWorldCoordinateMatrix` called on the node at address `x`.  The
recursion follows parent pointers; `fuel` bounds its depth and `none` means the
bound was reached. -/
def getWorldCoordinateMatrix [CommRing R] : Nat → Heap R → Nat → Option (Mat4 R)
  | 0, _, _ => none
  | fuel + 1, h, x =>
    match (h x).m_parent with
    | none => some (getMatrix h x)
    | some q =>
      match getWorldCoordinateMatrix fuel h q with
      | none => none
      | some w =>
        let parentTranslation := column3 w
        let parentTranslationMatrix := translate (1 : Mat4 R) parentTranslation
        some (parentTranslationMatrix * (h x).m_matrix)

/-- The list `as` is the chain of proper ancestors of `x`, nearest first: the
parent of `x`, then its parent, and so on up to a parentless node. -/
def AncestorChain (h : Heap R) : Nat → List Nat → Prop
  | x, [] => (h x).m_parent = none
  | x, a :: as => (h x).m_parent = some a ∧ AncestorChain h a as

instance AncestorChain.decidable (h : Heap R) :
    (x : Nat) → (as : List Nat) → Decidable (AncestorChain h x as)
  | x, [] => inferInstanceAs (Decidable ((h x).m_parent = none))
  | x, a :: as =>
    haveI := AncestorChain.decidable h a as
    inferInstanceAs (Decidable ((h x).m_parent = some a ∧ AncestorChain h a as))

/-- The sum of the translation components (x, y, z of the fourth column) of the
local matrices of the nodes `as`. -/
def translationSum [CommRing R] (h : Heap R) (as : List Nat) : Vec3 R :=
  fun i => (as.map (fun a => column3 (h a).m_matrix i)).sum

/-- The hierarchy invariant: every node listed in the children of `p` has `p`
as its parent, and no children vector lists a node twice. -/
structure WellFormed (h : Heap R) : Prop where
  /-- every node listed in `p`'s children has `getParent() == p` -/
  parent_of_child : ∀ p c, c ∈ (h p).m_children → (h c).m_parent = some p
  /-- no node appears twice in one children vector -/
  nodup_children : ∀ p, (h p).m_children.Nodup

/-- A heap of freshly constructed nodes: no node has a parent or a child. -/
def Fresh (h : Heap R) : Prop :=
  ∀ x, (h x).m_parent = none ∧ (h x).m_children = []

/-- A call of one of the three hierarchy-changing methods on the node at
address `p`. -/
inductive HierarchyCall where
  /-- `p->addChild(child)` -/
  | addChild (p : Nat) (child : Option Nat)
  /-- `p->removeChild(n)` with an index -/
  | removeChild (p : Nat) (n : Nat)
  /-- `p->removeChild(child)` with a node pointer -/
  | removeChildNode (p : Nat) (child : Option Nat)

/-- The heap after one hierarchy call. -/
def HierarchyCall.run (h : Heap R) : HierarchyCall → Heap R
  | .addChild p child => (Eng.addChild h p child).2
  | .removeChild p n => (Eng.removeChild h p n).2
  | .removeChildNode p child => (Eng.removeChildNode h p child).2

/-- The heap after a sequence of hierarchy calls, executed left to right. -/
def runCalls (h : Heap R) (calls : List HierarchyCall) : Heap R :=
  calls.foldl HierarchyCall.run h

end Hierarchy

section Movement

variable {R : Type}

/-- `Node::setMatrix`. -/
def Node.setMatrix (nd : Node R) (matrix : Mat4 R) : Node R :=
  { nd with m_matrix := matrix }

/-- `Node::resetMove`. -/
def Node.resetMove (nd : Node R) : Node R :=
  { nd with m_pending := [], m_isMoving := false }

/-- `Node::stopMove`. -/
def Node.stopMove (nd : Node R) : Node R :=
  { nd with m_isMoving := false }

/-- `Node::resumeMove`. -/
def Node.resumeMove (nd : Node R) : Node R :=
  { nd with m_isMoving := true }

/-- The first loop of `Node::move`: `m_destinationMatrix` is pre-multiplied by
the step matrix once per iteration. -/
def destinationLoop [CommRing R] (stepMatrix : Mat4 R) : Nat → Mat4 R → Mat4 R
  | 0, d => d
  | k + 1, d => destinationLoop stepMatrix k (stepMatrix * d)

/-- `Node::move(stepMatrix, steps)`. -/
def Node.move [CommRing R] [DecidableEq R] (nd : Node R) (stepMatrix : Mat4 R)
    (steps : Int) : Node R :=
  let dest :=
    if steps ≥ 0 then destinationLoop stepMatrix steps.toNat nd.m_destinationMatrix
    else nd.m_destinationMatrix
  if nd.m_pending.any (fun e => decide (e.1 = stepMatrix ∧ e.2 = -1)) then
    { nd with m_destinationMatrix := dest, m_isMoving := true }
  else
    { nd with
      m_destinationMatrix := dest
      m_pending := nd.m_pending ++ [(stepMatrix, steps)]
      m_isMoving := true }

/-- The variables of the loop of `Node::calculateMove`: the local matrix, the
pending entries and the local counter `count`. -/
structure MoveLoop (R : Type) where
  /-- `m_matrix` -/
  matrix : Mat4 R
  /-- `m_stepMatrix` and `m_steps` -/
  pending : List (Mat4 R × Int)
  /-- `count` -/
  count : Nat

/-- One iteration of the loop of `Node::calculateMove` at index `i`, where
`e` is the entry read at index `i` on entry to the iteration. -/
def calculateMoveBody [CommRing R] (i : Nat) (e : Mat4 R × Int) (st : MoveLoop R) :
    MoveLoop R :=
  let st1 : MoveLoop R :=
    if e.2 > 0 then
      { st with matrix := e.1 * st.matrix, pending := st.pending.set i (e.1, e.2 - 1) }
    else st
  let s1 : Int := if e.2 > 0 then e.2 - 1 else e.2
  if s1 = 0 then
    { st1 with pending := st1.pending.eraseIdx i }
  else if s1 = -1 then
    { st1 with count := st1.count + 1, matrix := e.1 * st1.matrix }
  else st1

/-- The loop `for (i = 0; i < m_stepMatrix.size(); i++)` of
`Node::calculateMove`, entered at index `i`. -/
def calculateMoveLoop [CommRing R] (i : Nat) (st : MoveLoop R) : MoveLoop R :=
  if hi : i < st.pending.length then
    calculateMoveLoop (i + 1) (calculateMoveBody i (st.pending.get ⟨i, hi⟩) st)
  else st
termination_by st.pending.length - i
decreasing_by
  have hlen : (calculateMoveBody i (st.pending.get ⟨i, hi⟩) st).pending.length ≤
      st.pending.length := by
    simp only [calculateMoveBody]
    split_ifs <;> simp [List.length_eraseIdx] <;> split_ifs <;> omega
  omega

/-- `Node::calculateMove`. -/
def Node.calculateMove [CommRing R] (nd : Node R) : Node R :=
  if nd.m_pending.length > 0 then
    let st := calculateMoveLoop 0
      { matrix := nd.m_matrix, pending := nd.m_pending, count := 0 }
    { nd with
      m_matrix := st.matrix
      m_pending := st.pending
      m_isMoving := if st.pending.length = st.count then false else nd.m_isMoving }
  else
    { nd with m_isMoving := false }

/-- A closed form of the loop of `Node::calculateMove` used in the proofs (the
theorem `calculateMoveLoop_eq_tickFrom` shows that the loop computes it): the
effect of the loop on the entries from the current index on, given the local
matrix `m` and the counter `c`.  An entry whose count is 0 after the optional
decrement is erased and, because the index still advances, the entry that
follows it is passed over untouched. -/
def tickFrom [CommRing R] : Mat4 R → Nat → List (Mat4 R × Int) → MoveLoop R
  | m, c, [] => ⟨m, [], c⟩
  | m, c, e :: rest =>
    let m1 := if e.2 > 0 then e.1 * m else m
    let s1 := if e.2 > 0 then e.2 - 1 else e.2
    if s1 = 0 then
      match rest with
      | [] => ⟨m1, [], c⟩
      | e' :: rest' =>
        let r := tickFrom m1 c rest'
        ⟨r.matrix, e' :: r.pending, r.count⟩
    else if s1 = -1 then
      let r := tickFrom (e.1 * m1) (c + 1) rest
      ⟨r.matrix, (e.1, s1) :: r.pending, r.count⟩
    else
      let r := tickFrom m1 c rest
      ⟨r.matrix, (e.1, s1) :: r.pending, r.count⟩

/-- The node after `k` consecutive calls of `calculateMove`. -/
def Node.ticks [CommRing R] : Nat → Node R → Node R
  | 0, nd => nd
  | k + 1, nd => (Node.ticks k nd).calculateMove

end Movement

/-! ## Example scenes -/

section WorldMatrixExample

/-- The scene of `testNodeWorldCoordinates`: a root at address 0, a parent at
address 1 translated by (10,0,0) and a child at address 2 translated by
(5,0,0), attached with `root->addChild(parent); parent->addChild(child)`. -/
def worldTestHeap : Heap ℤ :=
  let h0 : Heap ℤ := fun a =>
    if a = 1 then Node.new "Parent" (translate 1 ![10, 0, 0])
    else if a = 2 then Node.new "Child" (translate 1 ![5, 0, 0])
    else Node.new "ROORORO" 1
  let h1 := (addChild h0 0 (some 1)).2
  (addChild h1 1 (some 2)).2

end WorldMatrixExample

/-- A heap of freshly constructed nodes `Node()`. -/
def freshHeap : Heap ℤ := fun _ => Node.new "" 1

/-- The heap after `n0->addChild(n2)` on fresh nodes: node 2 is the only child
of node 0. -/
def oneChildHeap : Heap ℤ := (addChild freshHeap 0 (some 2)).2

/-- The heap of `testNodeRemoval` after the three `addChild` calls: node 0 has
the children 1, 2, 3. -/
def removalTestHeap : Heap ℤ :=
  runCalls freshHeap [.addChild 0 (some 1), .addChild 0 (some 2), .addChild 0 (some 3)]

/-- A step matrix: the translation by (1,0,0). -/
def stepX : Mat4 ℤ := translate 1 ![1, 0, 0]

/-- A step matrix: the translation by (0,1,0). -/
def stepY : Mat4 ℤ := translate 1 ![0, 1, 0]

/-- The node of `testNodeMovement` before `move`: a new node with the identity
as local matrix. -/
def animNode : Node ℤ := Node.new "AnimNode" 1

/-- A new node after `move(stepX, 1)` and `move(stepY, 2)`. -/
def twoMovesNode : Node ℤ := ((Node.new "" 1).move stepX 1).move stepY 2

/-- A new node after `move(stepX, -1)`, a continuous movement. -/
def spinNode : Node ℤ := (Node.new "" 1).move stepX (-1)

/-! ## Draining, pausing and continuous movement -/

section MovementMore

variable {R : Type}

/-- The client's drain loop `while (n->isMoving()) n->calculateMove();`
(`src/client/main.cpp`).  `fuel` bounds the number of loop tests and `none`
means the bound was reached before `isMoving()` answered false. -/
def drain [CommRing R] : Nat → Node R → Option (Node R)
  | 0, _ => none
  | fuel + 1, nd => if nd.m_isMoving then drain fuel nd.calculateMove else some nd

/-- The work left in a pending list: every entry with a non-negative count `s`
weighs `s + 1`, the other entries weigh nothing. -/
def pendingWork (l : List (Mat4 R × Int)) : Nat :=
  (l.map (fun e => if 0 ≤ e.2 then e.2.toNat + 1 else 0)).sum

/-- What one tick is meant to do to the local matrix according to the words of
the specification: every pending entry whose count is positive or the infinite
sentinel -1 is applied once, in list order. -/
def applyEntries [CommRing R] : List (Mat4 R × Int) → Mat4 R → Mat4 R
  | [], m => m
  | e :: rest, m => applyEntries rest (if 0 < e.2 ∨ e.2 = -1 then e.1 * m else m)

end MovementMore

/-- The node of the camera after `move(stepX, 10)` and `stopMove()`: a paused
movement. -/
def pausedNode : Node ℤ := ((Node.new "" 1).move stepX 10).stopMove

/-- A new node after `move(stepX, -2)`. -/
def deadEntryNode : Node ℤ := (Node.new "" 1).move stepX (-2)

/-- A new node after `move(stepX, 2)`, `move(stepY, -1)` and `move(stepX, 0)`. -/
def drainNode : Node ℤ := (((Node.new "" 1).move stepX 2).move stepY (-1)).move stepX 0

/-! ## Object ids and light slots -/

section Ids

/-- The fields of `Eng::Object`. -/
structure Object where
  /-- `uid` -/
  uid : Nat
  /-- `name` -/
  name : String
deriving DecidableEq

/-- The process-wide state of `Eng::Object`: the static counter `next_uid`
(an `unsigned int`, kept below `2^32`) and every object constructed so far, in
construction order, each with a flag telling whether it is still alive. -/
structure ObjectWorld where
  /-- `Object::next_uid` -/
  next_uid : Nat
  /-- the objects ever constructed, oldest first, with their alive flag -/
  objects : List (Object × Bool)

/-- The state at program start: `unsigned int Eng::Object::next_uid = 1`. -/
def ObjectWorld.init : ObjectWorld := { next_uid := 1, objects := [] }

/-- Replace the entry at position `i` of a list by its image under `f`. -/
def modifyAt {α : Type} (f : α → α) : Nat → List α → List α
  | _, [] => []
  | 0, x :: xs => f x :: xs
  | i + 1, x :: xs => x :: modifyAt f i xs

/-- A call on the object model: a construction, the destruction of the `i`-th
constructed object, or `setName` on the `i`-th constructed object. -/
inductive ObjectCall where
  /-- `new Object(name)` (through any derived class) -/
  | construct (name : String)
  /-- `delete` of the `i`-th constructed object -/
  | destroy (i : Nat)
  /-- `setName(newName)` on the `i`-th constructed object -/
  | setName (i : Nat) (newName : String)

/-- `Object::Object` (`uid{next_uid++}`, the increment wrapping at `2^32`),
`Object::~Object` (which touches neither the counter nor any id) and
`Object::setName`. -/
def ObjectWorld.step (w : ObjectWorld) : ObjectCall → ObjectWorld
  | .construct name =>
    { next_uid := (w.next_uid + 1) % 2 ^ 32
      objects := w.objects ++ [({ uid := w.next_uid, name := name }, true)] }
  | .destroy i =>
    { w with objects := modifyAt (fun o => (o.1, false)) i w.objects }
  | .setName i newName =>
    { w with objects := modifyAt (fun o => ({ o.1 with name := newName }, o.2)) i w.objects }

/-- The state after a sequence of calls from program start. -/
def ObjectWorld.run (calls : List ObjectCall) : ObjectWorld :=
  calls.foldl ObjectWorld.step ObjectWorld.init

/-- `getId()` of every object ever constructed, in construction order. -/
def ObjectWorld.ids (w : ObjectWorld) : List Nat := w.objects.map (fun o => o.1.uid)

/-- The process-wide state of `Eng::Light`: the static counter `ligthCounter`
and, for every live light in construction order, its `lightId` (`none` when the
constructor returned before assigning it). -/
structure LightWorld where
  /-- `Light::ligthCounter` -/
  ligthCounter : Int
  /-- `lightId` of the live lights -/
  live : List (Option Int)
deriving DecidableEq

/-- The state at program start: `int Eng::Light::ligthCounter = 1`. -/
def LightWorld.init : LightWorld := { ligthCounter := 1, live := [] }

/-- A light construction, or the destruction of the `i`-th live light. -/
inductive LightCall where
  /-- `new Light(...)` (through any derived class) -/
  | construct
  /-- `delete` of the `i`-th live light -/
  | destroy (i : Nat)

/-- `Light::Light` and `Light::~Light`. -/
def LightWorld.step (w : LightWorld) : LightCall → LightWorld
  | .construct =>
    if w.ligthCounter > 6 then { w with live := w.live ++ [none] }
    else { ligthCounter := w.ligthCounter + 1, live := w.live ++ [some w.ligthCounter] }
  | .destroy i =>
    if i < w.live.length then
      { ligthCounter := w.ligthCounter - 1, live := w.live.eraseIdx i }
    else w

/-- The state after a sequence of calls from program start. -/
def LightWorld.run (calls : List LightCall) : LightWorld :=
  calls.foldl LightWorld.step LightWorld.init

/-- The slot ids held by the live lights that were allocated one. -/
def LightWorld.slots (w : LightWorld) : List Int := w.live.filterMap id

end Ids

/-- The number of constructions in a sequence of object calls. -/
def constructions (calls : List ObjectCall) : Nat :=
  calls.countP (fun c => match c with
    | .construct _ => true
    | _ => false)

/-! ## Trees: search by name, render-list pass and destruction -/

section Trees

variable {R : Type}

/-- The subtree hanging below `x` through the children vectors is finite, of
height at most `d` (a node without children has height 1). -/
def HeightLe (h : Heap R) : Nat → Nat → Prop
  | 0, _ => False
  | d + 1, x => ∀ c ∈ (h x).m_children, HeightLe h d c

instance HeightLe.decidable (h : Heap R) : (d x : Nat) → Decidable (HeightLe h d x)
  | 0, _ => inferInstanceAs (Decidable False)
  | d + 1, x =>
    haveI : ∀ c, Decidable (HeightLe h d c) := fun c => HeightLe.decidable h d c
    inferInstanceAs (Decidable (∀ c ∈ (h x).m_children, HeightLe h d c))

/-- The node `x` is a proper descendant of `p`: it is reached from `p` by one
or more steps through children vectors. -/
inductive Descendant (h : Heap R) : Nat → Nat → Prop where
  /-- a listed child -/
  | child {p c : Nat} : c ∈ (h p).m_children → Descendant h p c
  /-- a proper descendant of a listed child -/
  | step {p c x : Nat} : c ∈ (h p).m_children → Descendant h c x → Descendant h p x

/-- The first loop of `Node::getChild(std::string)`: the first listed child
whose name equals `name`, or `none` when the loop ends without a match. -/
def getChildDirect (h : Heap R) (name : String) : List Nat → Option Nat
  | [] => none
  | c :: cs => if (h c).name = name then some c else getChildDirect h name cs

/-- The second loop of `Node::getChild(std::string)`, where `rec c` is the
result of `m_children[i]->getChild(name)` (`none` while that call has not
returned): the first result that is not `nullptr`, or `nullptr`. -/
def getChildRecurse (rec : Nat → Option (Option Nat)) : List Nat → Option (Option Nat)
  | [] => some none
  | c :: cs =>
    match rec c with
    | none => none
    | some (some r) => some (some r)
    | some none => getChildRecurse rec cs

/-- `Node::getChild(std::string name)` called on the node at address `p`.
`fuel` bounds the depth of the recursion; the outer `none` means the bound was
reached, the inner `none` is `nullptr`. -/
def getChild : Nat → Heap R → Nat → String → Option (Option Nat)
  | 0, _, _, _ => none
  | fuel + 1, h, p, name =>
    match getChildDirect h name (h p).m_children with
    | some c => some (some c)
    | none => getChildRecurse (fun c => getChild fuel h c name) (h p).m_children

/-- The result of `getChild(name)` in the words of the specification, given
the results `sub c` of `getChild(name)` on the children: the first direct child
with that name if there is one, else the first non-null result on the children
in child order. -/
def getChildSpec (h : Heap R) (name : String) (sub : Nat → Option Nat) (p : Nat) :
    Option Nat :=
  match (h p).m_children.find? (fun c => decide ((h c).name = name)) with
  | some c => some c
  | none => (h p).m_children.findSome? sub

end Trees

/-- The scene of `testComplexSceneGraph`: SceneRoot (0) lists Environment (1)
and Characters (2); Environment lists Ground (3), Sky (4) and Sun (7);
Characters lists Player (5) and Enemy (6); Player lists Torch (8). -/
def sceneHeap : Heap ℤ :=
  runCalls
    (fun a =>
      Node.new
        (match a with
          | 0 => "SceneRoot" | 1 => "Environment" | 2 => "Characters" | 3 => "Ground"
          | 4 => "Sky" | 5 => "Player" | 6 => "Enemy" | 7 => "Sun" | 8 => "Torch"
          | _ => "")
        1)
    [.addChild 0 (some 1), .addChild 0 (some 2), .addChild 1 (some 3), .addChild 1 (some 4),
      .addChild 1 (some 7), .addChild 2 (some 5), .addChild 2 (some 6), .addChild 5 (some 8)]

/-- A tree in which the first child of the root (node 1, "A") has a child named
"X" (node 3) and the second child of the root (node 2) is itself named "X". -/
def shadowedNameHeap : Heap ℤ :=
  runCalls
    (fun a =>
      Node.new (match a with
        | 0 => "Root" | 1 => "A" | 2 => "X" | 3 => "X" | _ => "") 1)
    [.addChild 0 (some 1), .addChild 0 (some 2), .addChild 1 (some 3)]

section RenderPass

variable {R : Type}

/-- The dynamic class of a scene-graph object. -/
inductive NodeKind where
  /-- `Eng::Node` -/
  | node
  /-- `Eng::Mesh` -/
  | mesh
  /-- `Eng::Light` -/
  | light
  /-- `Eng::OmniLight` -/
  | omniLight
  /-- `Eng::SpotLight` -/
  | spotLight
  /-- `Eng::InfiniteLight` -/
  | infiniteLight
  /-- `Eng::Camera` -/
  | camera
  /-- `Eng::PerspectiveCamera` -/
  | perspectiveCamera
  /-- `Eng::OrthoCamera` -/
  | orthoCamera
deriving DecidableEq

/-- Whether `dynamic_cast<Light *>` succeeds: the class is `Light` or derives
from it. -/
def NodeKind.isLight : NodeKind → Bool
  | .light | .omniLight | .spotLight | .infiniteLight => true
  | _ => false

/-- Whether `dynamic_cast<Mesh *>` succeeds. -/
def NodeKind.isMesh : NodeKind → Bool
  | .mesh => true
  | _ => false

/-- `List::Instance`: a node pointer and its world matrix. -/
structure Instance (R : Type) where
  /-- `node` -/
  node : Nat
  /-- `nodeWorldMatrix` -/
  nodeWorldMatrix : Mat4 R

/-- The three lists of `Eng::List`. -/
structure RenderList (R : Type) where
  /-- `list`, the master list -/
  list : List (Instance R)
  /-- `lightList` -/
  lightList : List (Instance R)
  /-- `meshList` -/
  meshList : List (Instance R)

/-- A new or cleared Render List. -/
def RenderList.empty : RenderList R := { list := [], lightList := [], meshList := [] }

/-- What `List::pass` reads and writes: the heap of nodes (it calls
`calculateMove` on every visited node) and the three lists. -/
structure PassState (R : Type) where
  /-- the nodes -/
  heap : Heap R
  /-- the lists of the `List` object -/
  lists : RenderList R

/-- The loop `for (Node *child : root->getChildren()) this->pass(child, matrix)`,
where `rec c st` is the recursive call on child `c` from state `st`. -/
def passChildren (rec : Nat → PassState R → Option (PassState R)) :
    List Nat → PassState R → Option (PassState R)
  | [], st => some st
  | c :: cs, st =>
    match rec c st with
    | none => none
    | some st1 => passChildren rec cs st1

/-- `List::pass(root, matrix)`.  `kind` gives the dynamic class of the object at
each address; `wfuel` bounds the recursion of `getWorldCoordinateMatrix` and
`fuel` the depth of the recursion of `pass`; `none` means a bound was
reached. -/
def pass [CommRing R] (kind : Nat → NodeKind) (wfuel : Nat) :
    Nat → PassState R → Nat → Mat4 R → Option (PassState R)
  | 0, _, _, _ => none
  | fuel + 1, st, root, matrix =>
    let matrix1 := matrix * getMatrix st.heap root
    let heap1 := Function.update st.heap root (st.heap root).calculateMove
    match getWorldCoordinateMatrix wfuel heap1 root with
    | none => none
    | some world =>
      let inst : Instance R := { node := root, nodeWorldMatrix := world }
      let lists1 : RenderList R :=
        if (kind root).isLight then
          { st.lists with
            list := inst :: st.lists.list
            lightList := st.lists.lightList ++ [inst] }
        else if (kind root).isMesh then
          { st.lists with
            list := st.lists.list ++ [inst]
            meshList := st.lists.meshList ++ [inst] }
        else st.lists
      passChildren (fun c s => pass kind wfuel fuel s c matrix1) (getChildren heap1 root)
        { heap := heap1, lists := lists1 }

/-- The pre-order sequences of the subtrees below the nodes of a list, one
after the other, where `rec c` is the pre-order sequence below `c`. -/
def preorderForest (rec : Nat → List Nat) : List Nat → List Nat
  | [] => []
  | c :: cs => rec c ++ preorderForest rec cs

/-- The nodes of the subtree below `x` in pre-order (a node before its
children, children in child order), explored to depth `d`. -/
def preorder : Nat → Heap R → Nat → List Nat
  | 0, _, _ => []
  | d + 1, h, x => x :: preorderForest (preorder d h) (h x).m_children

/-- Two heaps with the same hierarchy: every node has the same parent and the
same children in both. -/
def SameShape (h h' : Heap R) : Prop :=
  ∀ x, (h' x).m_parent = (h x).m_parent ∧ (h' x).m_children = (h x).m_children

end RenderPass

section Destruction

variable {R : Type}

/-- The loop `for (i ...) delete m_children[i];` of `Node::~Node`, where
`rec c` lists the nodes destroyed by `delete` on child `c` (`none` while that
call has not returned). -/
def deleteChildren (rec : Nat → Option (List Nat)) : List Nat → Option (List Nat)
  | [] => some []
  | c :: cs =>
    match rec c with
    | none => none
    | some dead =>
      match deleteChildren rec cs with
      | none => none
      | some dead' => some (dead ++ dead')

/-- The expression `delete x`: `Node::~Node` runs on the node at address `x`,
deleting every listed child, and then the node itself is gone.  The result
lists the destroyed nodes in the order in which their destruction completes.
The final `m_parent = nullptr` writes into the dying object and is not
modelled.  `fuel` bounds the depth of the recursion. -/
def deleteNode : Nat → Heap R → Nat → Option (List Nat)
  | 0, _, _ => none
  | fuel + 1, h, x =>
    match deleteChildren (fun c => deleteNode fuel h c) (h x).m_children with
    | none => none
    | some dead => some (dead ++ [x])

/-- The set of live nodes after `delete x`, given the live nodes before. -/
def liveAfterDelete (fuel : Nat) (h : Heap R) (live : List Nat) (x : Nat) :
    Option (List Nat) :=
  (deleteNode fuel h x).map (fun dead => live.filter (fun y => decide (y ∉ dead)))

end Destruction

section RenderPassSpec

variable {R : Type}

/-- The outcome of a traversal that visits the nodes `seq` in this order from
the heap `h` and the lists `L`: it returns, the hierarchy is unchanged, the
light list gained one instance per light of `seq` in order, the mesh list one
instance per mesh of `seq` in order, and the master list gained the new light
instances reversed in front and the new mesh instances at the back. -/
def PassAcc (kind : Nat → NodeKind) (seq : List Nat) (h : Heap R) (L : RenderList R)
    (result : Option (PassState R)) : Prop :=
  ∃ (h' : Heap R) (lights meshes : List (Instance R)),
    result = some
      { heap := h'
        lists :=
          { list := lights.reverse ++ L.list ++ meshes
            lightList := L.lightList ++ lights
            meshList := L.meshList ++ meshes } } ∧
    SameShape h h' ∧
    lights.map Instance.node = seq.filter (fun x => (kind x).isLight) ∧
    meshes.map Instance.node = seq.filter (fun x => (kind x).isMesh)

end RenderPassSpec

/-- The dynamic classes in the scene of `testComplexSceneGraph`: Ground, Sky,
Player and Enemy are meshes, Sun is an `OmniLight`, Torch a `SpotLight`, the
other objects plain nodes. -/
def sceneKind : Nat → NodeKind
  | 3 | 4 | 5 | 6 => .mesh
  | 7 => .omniLight
  | 8 => .spotLight
  | _ => .node

/-! ## Shadow matrix, cameras and spot light -/

section Numeric

/-- A `glm::vec4` with exact entries: x, y, z, w are the entries 0, 1, 2, 3. -/
abbrev Vec4 (R : Type) := Fin 4 → R

/-- `List::createShadowMatrix(lightPos, planeEquation)`.  The source assigns
`shadowMat[c][r]`, column `c` and row `r`; here row `r` lists the entries
`shadowMat[0][r]`, `shadowMat[1][r]`, `shadowMat[2][r]`, `shadowMat[3][r]`. -/
def createShadowMatrix {R : Type} [CommRing R] (lightPos planeEquation : Vec4 R) : Mat4 R :=
  let dot := planeEquation 0 * lightPos 0 + planeEquation 1 * lightPos 1 +
    planeEquation 2 * lightPos 2 + planeEquation 3 * lightPos 3
  Matrix.of ![
    ![dot - lightPos 0 * planeEquation 0, 0 - lightPos 0 * planeEquation 1,
      0 - lightPos 0 * planeEquation 2, 0 - lightPos 0 * planeEquation 3],
    ![0 - lightPos 1 * planeEquation 0, dot - lightPos 1 * planeEquation 1,
      0 - lightPos 1 * planeEquation 2, 0 - lightPos 1 * planeEquation 3],
    ![0 - lightPos 2 * planeEquation 0, 0 - lightPos 2 * planeEquation 1,
      dot - lightPos 2 * planeEquation 2, 0 - lightPos 2 * planeEquation 3],
    ![0 - lightPos 3 * planeEquation 0, 0 - lightPos 3 * planeEquation 1,
      0 - lightPos 3 * planeEquation 2, dot - lightPos 3 * planeEquation 3]]

variable {K : Type} [LinearOrderedField K]

/-- The projection parameters of an `Eng::OrthoCamera` (with the near and far
planes of `Eng::Camera`); the projection matrix itself is not part of the
model. -/
structure OrthoCamera (K : Type) where
  /-- `m_left` -/
  m_left : K
  /-- `m_right` -/
  m_right : K
  /-- `m_bottom` -/
  m_bottom : K
  /-- `m_top` -/
  m_top : K
  /-- `m_near_plane` -/
  m_near_plane : K
  /-- `m_far_plane` -/
  m_far_plane : K

/-- `OrthoCamera::setCameraParams(left, right, bottom, top, near_plane,
far_plane)`: each inverted pair is swapped, then the six values are stored. -/
def OrthoCamera.setCameraParams (_cam : OrthoCamera K)
    (left right bottom top near_plane far_plane : K) : OrthoCamera K :=
  let lr : K × K := if right < left then (right, left) else (left, right)
  let bt : K × K := if top < bottom then (top, bottom) else (bottom, top)
  let nf : K × K := if far_plane < near_plane then (far_plane, near_plane)
    else (near_plane, far_plane)
  { m_left := lr.1, m_right := lr.2, m_bottom := bt.1, m_top := bt.2,
    m_near_plane := nf.1, m_far_plane := nf.2 }

/-- `OrthoCamera::setCameraParams(int width, int heigth, near_plane,
far_plane)`. -/
def OrthoCamera.setCameraParamsSize (cam : OrthoCamera K) (width heigth : Int)
    (near_plane far_plane : K) : OrthoCamera K :=
  let halfWidth : K := (width : K) / 2
  let halfHeight : K := (heigth : K) / 2
  cam.setCameraParams (-halfWidth) halfWidth (-halfHeight) halfHeight near_plane far_plane

/-- The projection parameters of an `Eng::PerspectiveCamera`. -/
structure PerspectiveCamera (K : Type) where
  /-- `m_fov` -/
  m_fov : K
  /-- `m_ratio` -/
  m_ratio : K
  /-- `m_near_plane` -/
  m_near_plane : K
  /-- `m_far_plane` -/
  m_far_plane : K

/-- `PerspectiveCamera::setCameraParams(fov, ratio, near_plane, far_plane)`. -/
def PerspectiveCamera.setCameraParams (_cam : PerspectiveCamera K)
    (fov ratio near_plane far_plane : K) : PerspectiveCamera K :=
  let fov1 : K := if fov < 0 then 100 else fov
  let ratio1 : K := if ratio < 0 then 16 / 9 else ratio
  let nf : K × K := if far_plane < near_plane then (far_plane, near_plane)
    else (near_plane, far_plane)
  { m_fov := fov1, m_ratio := ratio1, m_near_plane := nf.1, m_far_plane := nf.2 }

/-- `SpotLight::setCutoff(cutoff_)`: the value stored in `cutoff`, which
`getCutoff()` returns. -/
def SpotLight.setCutoff (cutoff_ : K) : K :=
  if cutoff_ < 0 ∨ cutoff_ > 90 then 0 else cutoff_

end Numeric

/-- A parent (node 0) whose local matrix scales x, y, z by 2, with a child
(node 1) translated by (1,0,0), attached with `addChild`. -/
def scaledParentHeap : Heap ℤ :=
  (addChild
    (fun a =>
      if a = 0 then Node.new "Parent" (Matrix.diagonal ![2, 2, 2, 1])
      else Node.new "Child" (translate 1 ![1, 0, 0]))
    0 (some 1)).2

section PassVisits

variable {R : Type}

/-- The visits made by the children loop of `List::pass`, where `rec c h` gives
the visits of the recursive call on child `c` from heap `h` and the heap it
leaves. -/
def visitChildren (rec : Nat → Heap R → Option (List (Nat × Heap R) × Heap R)) :
    List Nat → Heap R → Option (List (Nat × Heap R) × Heap R)
  | [], h => some ([], h)
  | c :: cs, h =>
    match rec c h with
    | none => none
    | some (vs, h1) =>
      match visitChildren rec cs h1 with
      | none => none
      | some (vs', h2) => some (vs ++ vs', h2)

/-- The visits of `List::pass` from heap `h` at `root`, in the order in which
they happen: every visited node paired with the heap right after its own
`calculateMove()` tick, together with the heap left at the end. -/
def visits [CommRing R] : Nat → Heap R → Nat → Option (List (Nat × Heap R) × Heap R)
  | 0, _, _ => none
  | fuel + 1, h, root =>
    match visitChildren (fun c s => visits fuel s c)
        (getChildren (Function.update h root (h root).calculateMove) root)
        (Function.update h root (h root).calculateMove) with
    | none => none
    | some (vs, h') => some ((root, Function.update h root (h root).calculateMove) :: vs, h')

/-- The instance `inst` was stored at the visit `v`: it points to the visited
node and its world matrix is what `getWorldCoordinateMatrix()` returns on that
node in the heap right after the node's own tick. -/
def StoredAt [CommRing R] (wfuel : Nat) (inst : Instance R) (v : Nat × Heap R) : Prop :=
  inst.node = v.1 ∧ getWorldCoordinateMatrix wfuel v.2 v.1 = some inst.nodeWorldMatrix

/-- A traversal result agrees with the record of visits `vres`: when it
returns, the visits are recorded, the final heaps coincide, and the instances
added to the light and mesh lists were stored at the visits of the lights and
of the meshes, in order. -/
def PassTrace [CommRing R] (kind : Nat → NodeKind) (wfuel : Nat)
    (vres : Option (List (Nat × Heap R) × Heap R)) (L : RenderList R)
    (result : Option (PassState R)) : Prop :=
  ∀ st', result = some st' →
    ∃ (vs : List (Nat × Heap R)) (lights meshes : List (Instance R)),
      vres = some (vs, st'.heap) ∧
      st'.lists =
        { list := lights.reverse ++ L.list ++ meshes
          lightList := L.lightList ++ lights
          meshList := L.meshList ++ meshes } ∧
      List.Forall₂ (StoredAt wfuel) lights (vs.filter (fun v => (kind v.1).isLight)) ∧
      List.Forall₂ (StoredAt wfuel) meshes (vs.filter (fun v => (kind v.1).isMesh))

end PassVisits

/-! ## Scheduled movement and the accumulated destination -/

section Accumulated

variable {R : Type}

/-- The transform that a pending list still has to apply: the product of
`T ^ n` over its entries `(T, n)`, in list order. -/
def remaining [CommRing R] (l : List (Mat4 R × Int)) : Mat4 R :=
  (l.map (fun e => e.1 ^ e.2.toNat)).prod

/-- A sequence of calls `move(T_i, n_i)` on one node, in call order. -/
def Node.moves [CommRing R] [DecidableEq R] (nd : Node R) (calls : List (Mat4 R × Int)) :
    Node R :=
  calls.foldl (fun n e => n.move e.1 e.2) nd

/-- A node whose pending entries all have non-negative counts and pairwise
commuting step matrices, and on which the pending work applied to the local
matrix gives `target`, the destination matrix being `dest`. -/
structure Scheduled [CommRing R] (target dest : Mat4 R) (nd : Node R) : Prop where
  /-- every pending count is non-negative -/
  nonneg : ∀ e ∈ nd.m_pending, 0 ≤ e.2
  /-- the step matrices commute pairwise -/
  comm : ∀ a ∈ nd.m_pending, ∀ b ∈ nd.m_pending, Commute a.1 b.1
  /-- what is left to apply, applied to the local matrix, is the target -/
  product : remaining nd.m_pending * nd.m_matrix = target
  /-- the destination matrix -/
  destination : nd.m_destinationMatrix = dest

end Accumulated

/-- The scenario of the skipped entry: `move(stepX, 1)` then `move(stepY, 2)`
on a node constructed with the identity. -/
def skipCalls : List (Mat4 ℤ × Int) := [(stepX, 1), (stepY, 2)]

/-! ## Acyclicity of the hierarchy -/

section Acyclicity

variable {R : Type}

/-- The condition on one hierarchy call: `p->addChild(c)` with a non-null `c`
is made only when following `getParent()` from `p` ends at a parentless node
and `c` is neither `p` nor one of the nodes met on the way; the other calls
are unrestricted. -/
def HierarchyCall.Guarded (h : Heap R) : HierarchyCall → Prop
  | .addChild p (some c) => ∃ as, AncestorChain h p as ∧ c ≠ p ∧ c ∉ as
  | _ => True

/-- Every call of the sequence satisfies the condition in the state in which
it is made. -/
def GuardedCalls (h : Heap R) : List HierarchyCall → Prop
  | [] => True
  | call :: rest => HierarchyCall.Guarded h call ∧ GuardedCalls (HierarchyCall.run h call) rest

/-- Following `getParent()` from any node ends at a parentless node after at
most `N` steps. -/
def Chains (h : Heap R) (N : Nat) : Prop :=
  ∀ x, ∃ as, AncestorChain h x as ∧ as.length ≤ N

end Acyclicity

/-- The heap after `n0->addChild(n0)` on fresh nodes. -/
def selfLoopHeap : Heap ℤ := runCalls freshHeap [.addChild 0 (some 0)]

/-- The heap after `n0->addChild(n1); n1->addChild(n0)` on fresh nodes. -/
def mutualHeap : Heap ℤ := runCalls freshHeap [.addChild 0 (some 1), .addChild 1 (some 0)]

/-- A sequence of calls that builds the chain 0 → 1 → 2, detaches 1 from
the children of 0 by pointer and then attaches 3 below 2. -/
def guardedCallsExample : List HierarchyCall :=
  [.addChild 0 (some 1), .addChild 1 (some 2), .removeChildNode 0 (some 1),
    .addChild 2 (some 3)]

/-! ## The Tower-of-Hanoi client (`src/client/main.cpp`) -/

section ClientGame

/-- The game globals of the client.  A disk is the address of its node; the
scene-graph side of the handlers (matrices, reparenting, the glowing disk) is
not part of this state. -/
structure Client where
  /-- `m`: for every peg the disks on it, bottom first -/
  m : List (List Nat)
  /-- `memento` -/
  memento : List (List (List Nat))
  /-- `move` -/
  move : Int
  /-- `move_selector` -/
  move_selector : Int
  /-- `selector` -/
  selector : Int
  /-- `selected_Disk`, `none` for `nullptr` -/
  selected_Disk : Option Nat
  /-- `gameWin` -/
  gameWin : Bool
deriving DecidableEq

/-- `v[i]` on a `std::vector` with an `int` index: `none` when the index is
outside the vector. -/
def vectorAt {α : Type} (v : List α) (i : Int) : Option α :=
  if i < 0 then none else v.get? i.toNat

/-- `sizes` as filled by `main`: the disk at position `i` of `disks_a` (address
`i`) has dimension `disks_a.size() - i`. -/
def sizes : List (Nat × Int) :=
  [(0, 7), (1, 6), (2, 5), (3, 4), (4, 3), (5, 2), (6, 1)]

/-- The loop of `getDiskDim` over the entries of `sizes`. -/
def getDiskDimLoop (node : Nat) : List (Nat × Int) → Int
  | [] => 99
  | s :: rest => if s.1 = node then s.2 else getDiskDimLoop node rest

/-- `getDiskDim(node)`. -/
def getDiskDim (node : Nat) : Int := getDiskDimLoop node sizes

/-- `checkselectorVal(selector)`. -/
def checkselectorVal (selector : Int) : Bool := decide (selector ≥ 0 ∧ selector ≤ 2)

/-- `checkMementoMove(move)`. -/
def checkMementoMove (s : Client) (move : Int) : Bool :=
  decide (move ≥ 0 ∧ move < s.memento.length)

/-- `addMove()`. -/
def addMove (s : Client) : Client :=
  { s with
    memento := s.memento ++ [s.m]
    move := s.move + 1
    move_selector := s.move_selector + 1 }

/-- `applyMemento(config)`. -/
def applyMemento (s : Client) (config : List (List Nat)) : Client :=
  { s with selected_Disk := none, m := config }

/-- `resetGame()`; `none` when `memento[move]` is outside the vector. -/
def resetGame (s : Client) : Option Client :=
  let s1 := { s with move := 0 }
  match vectorAt s1.memento s1.move with
  | none => none
  | some config => some { applyMemento s1 config with memento := [] }

/-- `checkForWin()`; `none` when a peg it reads is outside `m`. -/
def checkForWin (s : Client) : Option Bool :=
  match vectorAt s.m 0 with
  | none => none
  | some p0 =>
    if ¬ p0.isEmpty then some false
    else
      match vectorAt s.m 1 with
      | none => none
      | some p1 =>
        if p1.isEmpty then some true
        else
          match vectorAt s.m 2 with
          | none => none
          | some p2 => some p2.isEmpty

/-- `resetAndStartNewTunr()`. -/
def resetAndStartNewTunr (s : Client) : Option Client :=
  resetGame { s with gameWin := false }

/-- `moveDiskHorizzontally(spot, direction)`. -/
def moveDiskHorizzontally (s : Client) (direction : Bool) : Client :=
  { s with selector := s.selector + (if direction then 1 else -1) }

/-- `putSelectedDiskDown()`; `none` when `selected_Disk` is null or
`m[selector]` is outside `m`. -/
def putSelectedDiskDown (s : Client) : Option Client :=
  match s.selected_Disk with
  | none => none
  | some d =>
    match vectorAt s.m s.selector with
    | none => none
    | some peg =>
      let s1 : Client :=
        { s with m := s.m.set s.selector.toNat (peg ++ [d]), selected_Disk := none }
      match checkForWin s1 with
      | none => none
      | some win => some (addMove (if win then { s1 with gameWin := true } else s1))

/-- `selectDisk(spot)`; `none` when `m[selector]` is outside `m` or the peg is
empty (`m[selector][last]` with `last = -1`). -/
def selectDisk (s : Client) : Option Client :=
  match vectorAt s.m s.selector with
  | none => none
  | some peg =>
    match peg.getLast? with
    | none => none
    | some d =>
      some { s with selected_Disk := some d, m := s.m.set s.selector.toNat peg.dropLast }

/-- The special keys that `onSpecialPressedCallback` tells apart. -/
inductive SpecialKey where
  /-- `ENGINE_KEY_UP`: pick up -/
  | up
  /-- `ENGINE_KEY_DOWN`: put down -/
  | down
  /-- `ENGINE_KEY_LEFT` -/
  | left
  /-- `ENGINE_KEY_RIGHT` -/
  | right
  /-- any other special key (the camera keys included) -/
  | other
deriving DecidableEq

/-- `onSpecialPressedCallback(key, ...)`, where `spot` tells whether
`root->getChild("Spot")` is non-null. -/
def onSpecialPressedCallback (s : Client) (key : SpecialKey) (spot : Bool) : Option Client :=
  if s.gameWin then resetAndStartNewTunr s
  else if spot then
    match key with
    | .up =>
      match s.selected_Disk with
      | some _ => some s
      | none =>
        match vectorAt s.m s.selector with
        | none => none
        | some peg => if peg.length > 0 then selectDisk s else some s
    | .down =>
      match s.selected_Disk with
      | none => some s
      | some d =>
        match vectorAt s.m s.selector with
        | none => none
        | some peg =>
          match peg.getLast? with
          | none => putSelectedDiskDown s
          | some top =>
            if getDiskDim d < getDiskDim top then putSelectedDiskDown s else some s
    | .left =>
      if checkselectorVal (s.selector - 1) then some (moveDiskHorizzontally s false)
      else some s
    | .right =>
      if checkselectorVal (s.selector + 1) then some (moveDiskHorizzontally s true)
      else some s
    | .other => some s
  else some s

/-- `onKeyboardPressedCallback(key, ...)`; the camera and wireframe keys do not
change the game globals. -/
def onKeyboardPressedCallback (s : Client) (key : Char) : Option Client :=
  if s.gameWin then resetAndStartNewTunr s
  else
    match (if key = 'l' then resetGame s else some s) with
    | none => none
    | some s1 =>
      if key = 'i' then
        match s1.selected_Disk with
        | some _ => some s1
        | none =>
          if checkMementoMove s1 (s1.move - 1) then
            let s2 := { s1 with move := s1.move - 1 }
            (vectorAt s2.memento s2.move).map (applyMemento s2)
          else some s1
      else if key = 'o' then
        match s1.selected_Disk with
        | some _ => some s1
        | none =>
          if checkMementoMove s1 (s1.move + 1) then
            let s2 := { s1 with move := s1.move + 1 }
            (vectorAt s2.memento s2.move).map (applyMemento s2)
          else some s1
      else some s1

/-- A key press delivered to the client. -/
inductive Event where
  /-- a special key, with whether the scene has a node named "Spot" -/
  | special (key : SpecialKey) (spot : Bool)
  /-- a character key -/
  | keyboard (key : Char)
deriving DecidableEq

/-- The handler run for one key press. -/
def Client.step (s : Client) : Event → Option Client
  | .special key spot => onSpecialPressedCallback s key spot
  | .keyboard key => onKeyboardPressedCallback s key

/-- The handlers run for a sequence of key presses; `none` when one of them
reads outside a vector. -/
def Client.run (s : Client) : List Event → Option Client
  | [] => some s
  | e :: es =>
    match s.step e with
    | none => none
    | some s1 => s1.run es

/-- The globals as `main` leaves them before the first key press: the seven
disks on the first peg, largest at the bottom, and that configuration as the
only memento. -/
def Client.initial : Client :=
  { m := [[0, 1, 2, 3, 4, 5, 6], [], []]
    memento := [[[0, 1, 2, 3, 4, 5, 6], [], []]]
    move := 0
    move_selector := 0
    selector := 0
    selected_Disk := none
    gameWin := false }

/-- A peg is strictly decreasing in disk size from bottom to top. -/
def Decreasing (peg : List Nat) : Prop :=
  peg.Pairwise (fun lower upper => getDiskDim upper < getDiskDim lower)

/-- The invariant of the game globals. -/
structure GameInv (s : Client) : Prop where
  /-- there are three pegs -/
  pegs : s.m.length = 3
  /-- the selector points at a peg -/
  selector_lo : 0 ≤ s.selector
  /-- the selector points at a peg -/
  selector_hi : s.selector ≤ 2
  /-- every peg is strictly decreasing -/
  sorted : ∀ peg ∈ s.m, Decreasing peg
  /-- every stored configuration has three strictly decreasing pegs -/
  stored : ∀ config ∈ s.memento, config.length = 3 ∧ ∀ peg ∈ config, Decreasing peg
  /-- a won game has at least one stored configuration -/
  won : s.gameWin = true → s.memento ≠ []

end ClientGame

/-- The first legal move of a game: pick up the top disk of the first peg,
go one peg to the right and put the disk down. -/
def firstMoveKeys : List Event :=
  [.special .up true, .special .right true, .special .down true]

/-! ## What a tick and a drain apply -/

section EraseLast

variable {R : Type}

/-- Whether one pass of the loop of `calculateMove()` over the list erases the
last entry of the list, so that an entry following the list would be passed
over in that call. -/
def erasesLast : List (Mat4 R × Int) → Bool
  | [] => false
  | e :: rest =>
    if e.2 = 0 ∨ e.2 = 1 then
      match rest with
      | [] => true
      | _ :: rest' => erasesLast rest'
    else erasesLast rest

end EraseLast

section CompletionDefs

variable {R : Type}

/-- The applications that the finite entries of a pending list stand for: the
step matrix of every entry, as many times as its count (an entry with a
negative count stands for none). -/
def scheduled : List (Mat4 R × Int) → List (Mat4 R)
  | [] => []
  | e :: rest => List.replicate e.2.toNat e.1 ++ scheduled rest

/-- The step matrices of a log of applications that belong to finite entries
(those tagged `true`). -/
def finiteApplications (log : List (Mat4 R × Bool)) : List (Mat4 R) :=
  (log.filter (fun x => x.2)).map Prod.fst

/-- The node `cur` is what the applications of `log` (latest first) make of the
node `start`: its local matrix is their product times the local matrix of
`start`; the applications tagged `true` together with what the finite entries
still pending on `cur` stand for are, up to order, what the finite entries of
`start` stand for; and the applications tagged `false` are of infinite entries
of `start`. -/
structure Progress [CommRing R] (start cur : Node R) (log : List (Mat4 R × Bool)) : Prop where
  /-- every pending count is non-negative or -1 -/
  valid : ∀ e ∈ cur.m_pending, 0 ≤ e.2 ∨ e.2 = -1
  /-- the local matrix -/
  matrix : cur.m_matrix = (log.map Prod.fst).prod * start.m_matrix
  /-- the finite applications made and left are those scheduled -/
  finite : (finiteApplications log ++ scheduled cur.m_pending).Perm (scheduled start.m_pending)
  /-- the other applications are of infinite entries -/
  infinite : ∀ x ∈ log, x.2 = false → (x.1, (-1 : Int)) ∈ start.m_pending
  /-- the infinite entries pending are entries of `start` -/
  kept : ∀ T : Mat4 R, (T, (-1 : Int)) ∈ cur.m_pending → (T, (-1 : Int)) ∈ start.m_pending

end CompletionDefs

/-! # Theorems -/

/-! ## Hierarchy -/

section HierarchyLemmas

variable {R : Type}

theorem removeChildLoop_none (l : List Nat) : removeChildLoop none l = none := by
  induction l with
  | nil => rfl
  | cons x xs ih => simp [removeChildLoop, ih]

theorem removeChildLoop_some (c : Nat) (l : List Nat) :
    removeChildLoop (some c) l = if c ∈ l then some (l.erase c) else none := by
  induction l with
  | nil => simp [removeChildLoop]
  | cons x xs ih =>
    by_cases hx : x = c
    · subst hx
      simp [removeChildLoop]
    · have hx' : c ≠ x := fun e => hx e.symm
      by_cases hm : c ∈ xs
      · simp [removeChildLoop, hx, hx', ih, hm, List.erase_cons_tail]
      · simp [removeChildLoop, hx, hx', ih, hm]

theorem removeChildNode_fst (h : Heap R) (p : Nat) (c : Nat) :
    (removeChildNode h p (some c)).1 = decide (c ∈ (h p).m_children) := by
  unfold removeChildNode
  rw [removeChildLoop_some]
  split_ifs with hm <;> simp [hm]

theorem removeChildNode_none (h : Heap R) (p : Nat) :
    removeChildNode h p none = (false, h) := by
  unfold removeChildNode
  rw [removeChildLoop_none]

theorem removeChildNode_children (h : Heap R) (p : Nat) (c : Nat) (y : Nat) :
    ((removeChildNode h p (some c)).2 y).m_children =
      if y = p then (h p).m_children.erase c else (h y).m_children := by
  unfold removeChildNode
  rw [removeChildLoop_some]
  by_cases hm : c ∈ (h p).m_children
  · by_cases hy : y = p
    · subst hy; simp [hm]
    · simp [hm, hy]
  · by_cases hy : y = p
    · subst hy; simp [hm, List.erase_of_not_mem hm]
    · simp [hm, hy]

theorem removeChildNode_parent (h : Heap R) (p : Nat) (child : Option Nat) (y : Nat) :
    ((removeChildNode h p child).2 y).m_parent = (h y).m_parent := by
  unfold removeChildNode
  split
  · by_cases hy : y = p
    · subst hy; simp
    · simp [hy]
  · rfl

theorem setParent_children (h : Heap R) (x : Nat) (q : Option Nat) (y : Nat) :
    ((setParent h x q) y).m_children = (h y).m_children := by
  unfold setParent
  by_cases hy : y = x
  · subst hy; simp
  · simp [hy]

theorem setParent_parent (h : Heap R) (x : Nat) (q : Option Nat) (y : Nat) :
    ((setParent h x q) y).m_parent = if y = x then q else (h y).m_parent := by
  unfold setParent
  by_cases hy : y = x
  · subst hy; simp
  · simp [hy]

theorem addChild_fst (h : Heap R) (p : Nat) (child : Option Nat) :
    (addChild h p child).1 = false ↔
      child = none ∨ ∃ c, child = some c ∧ c ∈ (h p).m_children := by
  cases child with
  | none => simp [addChild]
  | some c =>
    by_cases hc : c ∈ (h p).m_children <;> simp [addChild, hc]

theorem addChild_snd_of_false (h : Heap R) (p : Nat) (child : Option Nat)
    (hret : (addChild h p child).1 = false) : (addChild h p child).2 = h := by
  cases child with
  | none => simp [addChild]
  | some c =>
    by_cases hc : c ∈ (h p).m_children
    · simp [addChild, hc]
    · simp [addChild, hc] at hret

/-- The heap that `addChild` reaches after detaching `c` from its old parent. -/
theorem detach_children (h : Heap R) (c : Nat) (y : Nat) :
    ((match (h c).m_parent with
        | some q => (removeChildNode h q (some c)).2
        | none => h) y).m_children =
      if (h c).m_parent = some y then (h y).m_children.erase c else (h y).m_children := by
  cases hp : (h c).m_parent with
  | none => simp
  | some q =>
    simp only [removeChildNode_children, Option.some.injEq]
    by_cases hy : y = q
    · subst hy; simp
    · have hy' : ¬ q = y := fun e => hy e.symm
      simp [hy, hy']

theorem detach_parent (h : Heap R) (c : Nat) (y : Nat) :
    ((match (h c).m_parent with
        | some q => (removeChildNode h q (some c)).2
        | none => h) y).m_parent = (h y).m_parent := by
  cases hp : (h c).m_parent with
  | none => simp
  | some q => simp only [removeChildNode_parent]

theorem addChild_children (h : Heap R) (p c : Nat) (hc : c ∉ (h p).m_children) (y : Nat) :
    ((addChild h p (some c)).2 y).m_children =
      if y = p then (h p).m_children ++ [c]
      else if (h c).m_parent = some y then (h y).m_children.erase c
      else (h y).m_children := by
  simp only [addChild, hc, if_false, setParent_children]
  by_cases hy : y = p
  · subst hy
    simp only [Function.update_same, if_true, detach_children]
    split_ifs
    · rw [List.erase_of_not_mem hc]
    · rfl
  · simp only [Function.update_noteq hy, hy, if_false, detach_children]

theorem addChild_parent (h : Heap R) (p c : Nat) (hc : c ∉ (h p).m_children) (y : Nat) :
    ((addChild h p (some c)).2 y).m_parent =
      if y = c then some p else (h y).m_parent := by
  simp only [addChild, hc, if_false, setParent_parent]
  by_cases hy : y = c
  · simp [hy]
  · simp only [hy, if_false]
    by_cases hyp : y = p
    · subst hyp
      simp only [Function.update_same, detach_parent]
    · simp only [Function.update_noteq hyp, detach_parent]

theorem removeChild_fst (h : Heap R) (p n : Nat) :
    (removeChild h p n).1 = decide (n < (h p).m_children.length) := by
  unfold removeChild
  split_ifs with hn
  · simp; omega
  · simp; omega

theorem removeChild_snd_of_ge (h : Heap R) (p n : Nat) (hn : (h p).m_children.length ≤ n) :
    (removeChild h p n).2 = h := by
  unfold removeChild
  simp [hn]

theorem removeChild_children (h : Heap R) (p n : Nat) (y : Nat) :
    ((removeChild h p n).2 y).m_children =
      if y = p then (h p).m_children.eraseIdx n else (h y).m_children := by
  unfold removeChild
  split_ifs with hn hy hy
  · subst hy
    rw [List.eraseIdx_of_length_le hn]
  · rfl
  · subst hy
    simp only [Function.update_same]
    split_ifs
    · rw [setParent_children]
    · rfl
  · simp only [Function.update_noteq hy]
    split_ifs
    · rw [setParent_children]
    · rfl

theorem update_children_parent (g : Heap R) (p : Nat) (cs : List Nat) (y : Nat) :
    (Function.update g p { g p with m_children := cs } y).m_parent = (g y).m_parent := by
  by_cases hy : y = p
  · subst hy; simp
  · simp [hy]

theorem removeChild_parent (h : Heap R) (p n : Nat) (hn : n < (h p).m_children.length)
    (y : Nat) :
    ((removeChild h p n).2 y).m_parent =
      if y = (h p).m_children.get ⟨n, hn⟩ ∧ (h y).m_parent = some p then none
      else (h y).m_parent := by
  unfold removeChild
  have hn' : ¬ n ≥ (h p).m_children.length := by omega
  simp only [hn', dite_false, update_children_parent]
  generalize (h p).m_children.get ⟨n, hn⟩ = c
  by_cases h1 : (h c).m_parent = some p
  · simp only [h1, if_true, setParent_parent]
    by_cases h3 : y = c
    · subst h3; simp [h1]
    · simp [h3]
  · simp only [h1, if_false]
    by_cases h3 : y = c
    · subst h3; simp [h1]
    · simp [h3]

theorem WellFormed.of_fresh {h : Heap R} (hf : Fresh h) : WellFormed h where
  parent_of_child := by
    intro p c hc
    rw [(hf p).2] at hc
    simp at hc
  nodup_children := by
    intro p
    rw [(hf p).2]
    exact List.nodup_nil

theorem WellFormed.addChild {h : Heap R} (hwf : WellFormed h) (p : Nat) (child : Option Nat) :
    WellFormed (addChild h p child).2 := by
  cases child with
  | none => simpa [Eng.addChild] using hwf
  | some c =>
    by_cases hc : c ∈ (h p).m_children
    · simpa [Eng.addChild, hc] using hwf
    · constructor
      · intro q x hx
        rw [addChild_children h p c hc] at hx
        rw [addChild_parent h p c hc]
        by_cases hq : q = p
        · subst hq
          rw [if_pos rfl] at hx
          rcases List.mem_append.1 hx with hx | hx
          · have hne : x ≠ c := fun e => hc (e ▸ hx)
            rw [if_neg hne]
            exact hwf.parent_of_child q x hx
          · rw [if_pos (List.mem_singleton.1 hx)]
        · rw [if_neg hq] at hx
          by_cases hpc : (h c).m_parent = some q
          · rw [if_pos hpc] at hx
            have hmem := ((hwf.nodup_children q).mem_erase_iff).1 hx
            rw [if_neg hmem.1]
            exact hwf.parent_of_child q x hmem.2
          · rw [if_neg hpc] at hx
            have hne : x ≠ c := fun e => hpc (e ▸ hwf.parent_of_child q x hx)
            rw [if_neg hne]
            exact hwf.parent_of_child q x hx
      · intro q
        rw [addChild_children h p c hc]
        split_ifs
        · subst q
          exact List.Nodup.append (hwf.nodup_children p) (List.nodup_singleton c)
            (by simpa using hc)
        · exact (hwf.nodup_children q).erase c
        · exact hwf.nodup_children q

theorem WellFormed.removeChild {h : Heap R} (hwf : WellFormed h) (p n : Nat) :
    WellFormed (removeChild h p n).2 := by
  by_cases hn : n < (h p).m_children.length
  · constructor
    · intro q x hx
      rw [removeChild_children] at hx
      rw [removeChild_parent h p n hn]
      by_cases hq : q = p
      · subst hq
        rw [if_pos rfl] at hx
        have hnd := hwf.nodup_children q
        rw [← hnd.erase_get ⟨n, hn⟩] at hx
        have hmem := (hnd.mem_erase_iff).1 hx
        rw [if_neg (fun hh => hmem.1 hh.1)]
        exact hwf.parent_of_child q x hmem.2
      · rw [if_neg hq] at hx
        have hpx := hwf.parent_of_child q x hx
        have hne : ¬ (x = (h p).m_children.get ⟨n, hn⟩ ∧ (h x).m_parent = some p) := by
          rintro ⟨-, h2⟩
          rw [hpx] at h2
          exact hq (Option.some.inj h2)
        rw [if_neg hne]
        exact hpx
    · intro q
      rw [removeChild_children]
      split_ifs
      · exact (hwf.nodup_children p).eraseIdx n
      · exact hwf.nodup_children q
  · rw [removeChild_snd_of_ge h p n (by omega)]
    exact hwf

theorem WellFormed.removeChildNode {h : Heap R} (hwf : WellFormed h) (p : Nat)
    (child : Option Nat) : WellFormed (removeChildNode h p child).2 := by
  cases child with
  | none => rw [removeChildNode_none]; exact hwf
  | some c =>
    constructor
    · intro q x hx
      rw [removeChildNode_children] at hx
      rw [removeChildNode_parent]
      split_ifs at hx with hq
      · subst hq
        exact hwf.parent_of_child q x (List.mem_of_mem_erase hx)
      · exact hwf.parent_of_child q x hx
    · intro q
      rw [removeChildNode_children]
      split_ifs
      · exact (hwf.nodup_children p).erase c
      · exact hwf.nodup_children q

theorem WellFormed.run {h : Heap R} (hwf : WellFormed h) (call : HierarchyCall) :
    WellFormed (call.run h) := by
  cases call with
  | addChild p child => exact hwf.addChild p child
  | removeChild p n => exact hwf.removeChild p n
  | removeChildNode p child => exact hwf.removeChildNode p child

theorem WellFormed.runCalls {h : Heap R} (hwf : WellFormed h) (calls : List HierarchyCall) :
    WellFormed (runCalls h calls) := by
  induction calls generalizing h with
  | nil => exact hwf
  | cons call calls ih => exact ih (hwf.run call)

end HierarchyLemmas

section HierarchyClaims

variable {R : Type}

/-- C2: whenever `addChild(c)` on `p` returns true, the children of `p`
afterwards are its previous children followed by `c` and the parent of `c` is
`p`; and, in a heap satisfying the hierarchy invariant (every state that the
hierarchy calls reach), if `c` was a child of a different node `q`, then `c` is
no longer among the children of `q`, whose other children keep their order. -/
theorem addChild_true_effect (h : Heap R) (p : Nat) (child : Option Nat)
    (hret : (addChild h p child).1 = true) :
    ∃ c, child = some c ∧
      getChildren (addChild h p child).2 p = getChildren h p ++ [c] ∧
      getParent (addChild h p child).2 c = some p ∧
      (WellFormed h → ∀ q, q ≠ p → c ∈ getChildren h q →
        c ∉ getChildren (addChild h p child).2 q ∧
        getChildren (addChild h p child).2 q =
          (getChildren h q).filter (fun x => x != c)) := by
  cases child with
  | none => simp [addChild] at hret
  | some c =>
    have hc : c ∉ (h p).m_children := by
      intro hm
      simp [addChild, hm] at hret
    refine ⟨c, rfl, ?_, ?_, ?_⟩
    · simp only [getChildren]
      rw [addChild_children h p c hc, if_pos rfl]
    · simp only [getParent]
      rw [addChild_parent h p c hc, if_pos rfl]
    · intro hwf q hq hmem
      simp only [getChildren] at hmem ⊢
      have hpar := hwf.parent_of_child q c hmem
      rw [addChild_children h p c hc, if_neg hq, if_pos hpar]
      exact ⟨(hwf.nodup_children q).not_mem_erase,
        (hwf.nodup_children q).erase_eq_filter c⟩

/-- C3: `addChild(c)` on `p` returns false exactly when `c` is null or already
a child of `p`; when it returns false the whole heap (so the children of `p`
and every parent reference) is unchanged; after a successful `addChild(c)` a
second `addChild(c)` returns false and leaves the child count unchanged. -/
theorem addChild_false_iff (h : Heap R) (p : Nat) (child : Option Nat) :
    ((addChild h p child).1 = false ↔
        child = none ∨ ∃ c, child = some c ∧ c ∈ getChildren h p) ∧
      ((addChild h p child).1 = false →
        (addChild h p child).2 = h ∧
        getChildren (addChild h p child).2 p = getChildren h p ∧
        ∀ x, getParent (addChild h p child).2 x = getParent h x) ∧
      ((addChild h p child).1 = true →
        (addChild (addChild h p child).2 p child).1 = false ∧
        getNumberOfChildren (addChild (addChild h p child).2 p child).2 p =
          getNumberOfChildren (addChild h p child).2 p) := by
  refine ⟨addChild_fst h p child, ?_, ?_⟩
  · intro hret
    have := addChild_snd_of_false h p child hret
    exact ⟨this, by rw [this], fun x => by rw [this]⟩
  · intro hret
    cases child with
    | none => simp [addChild] at hret
    | some c =>
      have hc : c ∉ (h p).m_children := by
        intro hm
        simp [addChild, hm] at hret
      have hmem : c ∈ ((addChild h p (some c)).2 p).m_children := by
        rw [addChild_children h p c hc, if_pos rfl]
        simp
      have hfalse : (addChild (addChild h p (some c)).2 p (some c)).1 = false :=
        (addChild_fst _ p (some c)).2 (Or.inr ⟨c, rfl, hmem⟩)
      exact ⟨hfalse, by rw [addChild_snd_of_false _ p (some c) hfalse]⟩

/-- C4: in every state reached from freshly constructed nodes by any sequence of
`addChild`, `removeChild(index)` and `removeChild(node)` calls, no node is
listed in the children of two different nodes, no node is listed twice in one
children vector, and every node listed in the children of `p` has parent `p`. -/
theorem hierarchy_invariant (h0 : Heap R) (hfresh : Fresh h0) (calls : List HierarchyCall) :
    (∀ p q c, c ∈ getChildren (runCalls h0 calls) p →
        c ∈ getChildren (runCalls h0 calls) q → p = q) ∧
      (∀ p, (getChildren (runCalls h0 calls) p).Nodup) ∧
      (∀ p c, c ∈ getChildren (runCalls h0 calls) p →
        getParent (runCalls h0 calls) c = some p) := by
  have hwf := (WellFormed.of_fresh hfresh).runCalls calls
  refine ⟨?_, hwf.nodup_children, hwf.parent_of_child⟩
  intro p q c hp hq
  have h1 := hwf.parent_of_child p c hp
  have h2 := hwf.parent_of_child q c hq
  rw [h1] at h2
  exact Option.some.inj h2

/-- C5: for a node `p` all of whose listed children have `p` as parent (as
after attaching them with `addChild`): `removeChild(n)` with `n` at least the
number of children returns false and changes nothing; otherwise it returns
true, the children of `p` become the old children with position `n` erased (one
fewer, the others in order), and the removed node's parent becomes null. -/
theorem removeChild_index_effect (h : Heap R) (p n : Nat)
    (hattached : ∀ c ∈ getChildren h p, getParent h c = some p) :
    (n ≥ getNumberOfChildren h p →
        (removeChild h p n).1 = false ∧ (removeChild h p n).2 = h) ∧
      (∀ hn : n < (getChildren h p).length,
        (removeChild h p n).1 = true ∧
        getChildren (removeChild h p n).2 p = (getChildren h p).eraseIdx n ∧
        getNumberOfChildren (removeChild h p n).2 p + 1 = getNumberOfChildren h p ∧
        getParent (removeChild h p n).2 ((getChildren h p).get ⟨n, hn⟩) = none) := by
  constructor
  · intro hn
    simp only [getNumberOfChildren] at hn
    refine ⟨?_, removeChild_snd_of_ge h p n hn⟩
    rw [removeChild_fst]
    simp
    omega
  · intro hn
    simp only [getChildren] at hn
    refine ⟨?_, ?_, ?_, ?_⟩
    · rw [removeChild_fst]; simpa using hn
    · simp only [getChildren]
      rw [removeChild_children, if_pos rfl]
    · simp only [getNumberOfChildren]
      rw [removeChild_children, if_pos rfl, List.length_eraseIdx_of_lt hn]
      omega
    · simp only [getParent, getChildren]
      rw [removeChild_parent h p n hn]
      have := hattached _ (List.get_mem (h p).m_children n hn)
      simp only [getParent, getChildren] at this
      rw [if_pos ⟨rfl, this⟩]

/-- C6: `removeChild(c)` with a node pointer on `p` returns true exactly when
`c` is listed in the children of `p`; then the first entry equal to `c` is
erased from the children of `p` (when the children are duplicate-free, `c` is
no longer listed and all other children keep their order); when it returns
false the children of `p` are unchanged; other nodes' children never change. -/
theorem removeChildNode_effect (h : Heap R) (p : Nat) (child : Option Nat) :
    ((removeChildNode h p child).1 = true ↔
        ∃ c, child = some c ∧ c ∈ getChildren h p) ∧
      (∀ c, child = some c → c ∈ getChildren h p →
        getChildren (removeChildNode h p child).2 p = (getChildren h p).erase c ∧
        ((getChildren h p).Nodup →
          c ∉ getChildren (removeChildNode h p child).2 p ∧
          getChildren (removeChildNode h p child).2 p =
            (getChildren h p).filter (fun x => x != c))) ∧
      ((removeChildNode h p child).1 = false →
        getChildren (removeChildNode h p child).2 p = getChildren h p) ∧
      (∀ y, y ≠ p → getChildren (removeChildNode h p child).2 y = getChildren h y) := by
  cases child with
  | none =>
    rw [removeChildNode_none]
    simp
  | some c =>
    simp only [getChildren]
    refine ⟨?_, ?_, ?_, ?_⟩
    · rw [removeChildNode_fst]
      simp
    · intro c' hc' _
      cases hc'
      rw [removeChildNode_children, if_pos rfl]
      exact ⟨rfl, fun hnd => ⟨hnd.not_mem_erase, hnd.erase_eq_filter c⟩⟩
    · intro hret
      rw [removeChildNode_fst] at hret
      rw [removeChildNode_children, if_pos rfl, List.erase_of_not_mem (by simpa using hret)]
    · intro y hy
      rw [removeChildNode_children, if_neg hy]

end HierarchyClaims

section HierarchyWitnesses

theorem freshHeap_fresh : Fresh freshHeap := fun _ => ⟨rfl, rfl⟩

theorem oneChildHeap_wellFormed : WellFormed oneChildHeap :=
  (WellFormed.of_fresh freshHeap_fresh).addChild 0 (some 2)

/-- Witness for C2: node 2, a child of node 0, is re-parented to node 1. -/
theorem addChild_true_effect_witness :
    WellFormed oneChildHeap ∧ (addChild oneChildHeap 1 (some 2)).1 = true ∧
      getChildren oneChildHeap 0 = [2] ∧
      getChildren (addChild oneChildHeap 1 (some 2)).2 1 = [2] ∧
      getParent (addChild oneChildHeap 1 (some 2)).2 2 = some 1 ∧
      2 ∉ getChildren (addChild oneChildHeap 1 (some 2)).2 0 := by
  have hret : (addChild oneChildHeap 1 (some 2)).1 = true := by decide
  obtain ⟨c, hc, h1, h2, h3⟩ := addChild_true_effect oneChildHeap 1 (some 2) hret
  cases hc
  have h0 : getChildren oneChildHeap 0 = [2] := by decide
  refine ⟨oneChildHeap_wellFormed, hret, h0, ?_, h2, ?_⟩
  · rw [h1]; decide
  · exact (h3 oneChildHeap_wellFormed 0 (by decide) (by decide)).1

/-- Witness for C3 on the first steps of `testNodeHierarchy`: the first
`addChild` succeeds, the repeated one fails and keeps the count at 1. -/
theorem addChild_false_iff_witness :
    (addChild freshHeap 0 (some 2)).1 = true ∧
      (addChild oneChildHeap 0 (some 2)).1 = false ∧
      getNumberOfChildren (addChild oneChildHeap 0 (some 2)).2 0 = 1 ∧
      (addChild freshHeap 0 none).1 = false ∧
      (addChild freshHeap 0 none).2 = freshHeap := by
  have hret : (addChild freshHeap 0 (some 2)).1 = true := by decide
  have h2 := (addChild_false_iff freshHeap 0 (some 2)).2.2 hret
  have h3 := (addChild_false_iff freshHeap 0 none).1.2 (Or.inl rfl)
  refine ⟨hret, h2.1, ?_, h3, ((addChild_false_iff freshHeap 0 none).2.1 h3).1⟩
  rw [show oneChildHeap = (addChild freshHeap 0 (some 2)).2 from rfl, h2.2]
  decide

/-- Witness for C4: attach 1 and 2 under 0, re-parent 2 under 1, remove by
pointer and by index. -/
theorem hierarchy_invariant_witness :
    Fresh freshHeap ∧
      (∀ p c, c ∈ getChildren (runCalls freshHeap
          [.addChild 0 (some 1), .addChild 0 (some 2), .addChild 1 (some 2),
            .removeChildNode 1 (some 2), .addChild 2 (some 1), .removeChild 2 0]) p →
        getParent (runCalls freshHeap
          [.addChild 0 (some 1), .addChild 0 (some 2), .addChild 1 (some 2),
            .removeChildNode 1 (some 2), .addChild 2 (some 1), .removeChild 2 0]) c = some p) :=
  ⟨freshHeap_fresh, (hierarchy_invariant freshHeap freshHeap_fresh _).2.2⟩

theorem removalTestHeap_attached :
    ∀ c ∈ getChildren removalTestHeap 0, getParent removalTestHeap c = some 0 := by
  intro c hc
  have hmem : c ∈ [1, 2, 3] := hc
  simp at hmem
  rcases hmem with rfl | rfl | rfl <;> decide

/-- Witness for C5 on `testNodeRemoval`: with children 1, 2, 3, `removeChild(1)`
returns true, leaves 1, 3 and clears the parent of node 2; `removeChild(3)` is
out of bounds. -/
theorem removeChild_index_effect_witness :
    (∀ c ∈ getChildren removalTestHeap 0, getParent removalTestHeap c = some 0) ∧
      (removeChild removalTestHeap 0 1).1 = true ∧
      getChildren (removeChild removalTestHeap 0 1).2 0 = [1, 3] ∧
      getParent (removeChild removalTestHeap 0 1).2 2 = none ∧
      (removeChild removalTestHeap 0 3).1 = false ∧
      (removeChild removalTestHeap 0 3).2 = removalTestHeap := by
  have key := removeChild_index_effect removalTestHeap 0 1 removalTestHeap_attached
  have key3 := removeChild_index_effect removalTestHeap 0 3 removalTestHeap_attached
  have hlt : 1 < (getChildren removalTestHeap 0).length := by decide
  obtain ⟨h1, h2, -, h4⟩ := key.2 hlt
  obtain ⟨h5, h6⟩ := key3.1 (by decide)
  exact ⟨removalTestHeap_attached, h1, h2, h4, h5, h6⟩

/-- Witness for C6 on `testNodeRemoval`: removing child 3 by pointer succeeds
and leaves 1, 2; removing the absent node 4 fails. -/
theorem removeChildNode_effect_witness :
    (removeChildNode removalTestHeap 0 (some 3)).1 = true ∧
      getChildren (removeChildNode removalTestHeap 0 (some 3)).2 0 = [1, 2] ∧
      (removeChildNode removalTestHeap 0 (some 4)).1 = false ∧
      getChildren (removeChildNode removalTestHeap 0 (some 4)).2 0 = [1, 2, 3] := by
  have key := removeChildNode_effect removalTestHeap 0 (some 3)
  have key4 := removeChildNode_effect removalTestHeap 0 (some 4)
  have hmem : 3 ∈ getChildren removalTestHeap 0 := by decide
  have hret4 : (removeChildNode removalTestHeap 0 (some 4)).1 = false := by decide
  refine ⟨key.1.2 ⟨3, rfl, hmem⟩, ?_, hret4, ?_⟩
  · rw [(key.2.1 3 rfl hmem).1]; decide
  · rw [key4.2.2.1 hret4]; decide

/-- C7 fails on the code: after `n0->addChild(n2)`, the call
`n0->removeChild(n2)` with the node pointer returns true and erases node 2 from
the children of node 0, but `n2->getParent()` still answers node 0, not null. -/
theorem removeChildNode_keeps_parent :
    getParent oneChildHeap 2 = some 0 ∧
      (removeChildNode oneChildHeap 0 (some 2)).1 = true ∧
      getChildren (removeChildNode oneChildHeap 0 (some 2)).2 0 = [] ∧
      getParent (removeChildNode oneChildHeap 0 (some 2)).2 2 = some 0 := by
  decide

end HierarchyWitnesses

/-! ## World matrix -/

section WorldMatrix

variable {R : Type} [CommRing R]

theorem translate_one_apply (v : Vec3 R) (r c : Fin 4) :
    translate (1 : Mat4 R) v r c =
      if c = 3 then (1 : Mat4 R) r 0 * v 0 + (1 : Mat4 R) r 1 * v 1
        + (1 : Mat4 R) r 2 * v 2 + (1 : Mat4 R) r 3
      else (1 : Mat4 R) r c := rfl

theorem translate_one_zero : translate (1 : Mat4 R) (fun _ => 0) = 1 := by
  ext r c
  rw [translate_one_apply]
  split_ifs with hc
  · subst hc; simp
  · rfl

theorem column3_translate_mul (v : Vec3 R) (m : Mat4 R) (i : Fin 3) :
    column3 (translate (1 : Mat4 R) v * m) i = column3 m i + v i * m 3 3 := by
  fin_cases i <;>
    simp [column3, Matrix.mul_apply, Fin.sum_univ_four, translate_one_apply,
      Matrix.one_apply]

theorem translationSum_nil (h : Heap R) : translationSum h [] = fun _ => 0 := by
  funext i
  simp [translationSum]

theorem translationSum_cons (h : Heap R) (a : Nat) (as : List Nat) (i : Fin 3) :
    translationSum h (a :: as) i = column3 (h a).m_matrix i + translationSum h as i := by
  simp [translationSum]

theorem world_of_chain (h : Heap R) :
    ∀ (as : List Nat) (x : Nat), AncestorChain h x as →
      (∀ a ∈ as, (h a).m_matrix 3 3 = 1) →
      ∀ fuel, as.length < fuel →
        getWorldCoordinateMatrix fuel h x =
          some (translate 1 (translationSum h as) * (h x).m_matrix) := by
  intro as
  induction as with
  | nil =>
    intro x hchain _ fuel hfuel
    obtain ⟨f, rfl⟩ : ∃ f, fuel = f + 1 := ⟨fuel - 1, by simp at hfuel; omega⟩
    have hp : (h x).m_parent = none := hchain
    simp [getWorldCoordinateMatrix, hp, getMatrix, translationSum_nil, translate_one_zero]
  | cons a as ih =>
    intro x hchain hw fuel hfuel
    obtain ⟨f, rfl⟩ : ∃ f, fuel = f + 1 := ⟨fuel - 1, by simp at hfuel; omega⟩
    have hp : (h x).m_parent = some a := hchain.1
    have hrec := ih a hchain.2 (fun b hb => hw b (List.mem_cons_of_mem a hb)) f
      (by simp at hfuel; omega)
    have hcol : column3 (translate 1 (translationSum h as) * (h a).m_matrix) =
        translationSum h (a :: as) := by
      funext i
      rw [column3_translate_mul, translationSum_cons, hw a (List.mem_cons_self a as), mul_one]
    simp [getWorldCoordinateMatrix, hp, hrec, hcol]

theorem translationSum_congr (h h' : Heap R) (as : List Nat)
    (hcol : ∀ a ∈ as, column3 (h' a).m_matrix = column3 (h a).m_matrix) :
    translationSum h' as = translationSum h as := by
  funext i
  simp only [translationSum]
  congr 1
  apply List.map_congr_left
  intro a ha
  rw [hcol a ha]

/-- C1: for a node `x` whose proper ancestors are the chain `as` (so the parent
pointers above `x` end at a parentless node) and all have 1 as the bottom-right
entry of their local matrix, `getWorldCoordinateMatrix` returns, once the
recursion depth exceeds the length of the chain, `Translate(s) * local(x)`
where `s` sums the translation components of the ancestors' local matrices.
Hence a parentless node's world matrix is its local matrix, and the world
matrix does not change when the ancestors' local matrices change while keeping
their translation components (so no ancestor rotation or scale reaches `x`). -/
theorem getWorldCoordinateMatrix_eq_translate (h : Heap R) (x : Nat) (as : List Nat)
    (hchain : AncestorChain h x as) (hw : ∀ a ∈ as, (h a).m_matrix 3 3 = 1)
    (fuel : Nat) (hfuel : as.length < fuel) :
    getWorldCoordinateMatrix fuel h x =
        some (translate 1 (translationSum h as) * getMatrix h x) ∧
      (as = [] → getWorldCoordinateMatrix fuel h x = some (getMatrix h x)) ∧
      (∀ h' : Heap R, AncestorChain h' x as → (∀ a ∈ as, (h' a).m_matrix 3 3 = 1) →
        (∀ a ∈ as, column3 (h' a).m_matrix = column3 (h a).m_matrix) →
        getMatrix h' x = getMatrix h x →
        getWorldCoordinateMatrix fuel h' x = getWorldCoordinateMatrix fuel h x) := by
  refine ⟨world_of_chain h as x hchain hw fuel hfuel, ?_, ?_⟩
  · intro hnil
    subst hnil
    rw [world_of_chain h [] x hchain hw fuel hfuel, translationSum_nil, translate_one_zero,
      one_mul, getMatrix]
  · intro h' hchain' hw' hcol hloc
    simp only [getMatrix] at hloc
    rw [world_of_chain h as x hchain hw fuel hfuel,
      world_of_chain h' as x hchain' hw' fuel hfuel, translationSum_congr h h' as hcol, hloc]

end WorldMatrix

section WorldMatrixWitness

theorem worldTestHeap_bottom_right :
    ∀ a ∈ [1, 0], (worldTestHeap a).m_matrix 3 3 = 1 := by
  intro a ha
  simp at ha
  rcases ha with rfl | rfl <;>
    simp [worldTestHeap, addChild, Node.new, setParent, removeChildNode, Function.update,
      translate_one_apply]

theorem worldTestHeap_translationSum :
    translationSum worldTestHeap [1, 0] = ![10, 0, 0] := by
  funext i
  fin_cases i <;>
    simp [translationSum, column3, worldTestHeap, addChild, Node.new, setParent,
      removeChildNode, Function.update, translate_one_apply]

theorem worldTestHeap_child_matrix :
    getMatrix worldTestHeap 2 = translate 1 ![5, 0, 0] := by
  simp [getMatrix, worldTestHeap, addChild, Node.new, setParent, removeChildNode,
    Function.update]

/-- Witness for C1 on the scene of `testNodeWorldCoordinates`: the child
translated by (5,0,0) under the parent translated by (10,0,0) has world
translation (15,0,0). -/
theorem getWorldCoordinateMatrix_eq_translate_witness :
    AncestorChain worldTestHeap 2 [1, 0] ∧
      (∀ a ∈ [1, 0], (worldTestHeap a).m_matrix 3 3 = 1) ∧
      getWorldCoordinateMatrix 3 worldTestHeap 2 =
        some (translate 1 (translationSum worldTestHeap [1, 0]) * getMatrix worldTestHeap 2) ∧
      (getWorldCoordinateMatrix 3 worldTestHeap 2).map column3 = some ![15, 0, 0] := by
  have hc : AncestorChain worldTestHeap 2 [1, 0] := by decide
  have key := getWorldCoordinateMatrix_eq_translate worldTestHeap 2 [1, 0] hc
    worldTestHeap_bottom_right 3 (by decide)
  refine ⟨hc, worldTestHeap_bottom_right, key.1, ?_⟩
  rw [key.1, worldTestHeap_translationSum, worldTestHeap_child_matrix, Option.map_some']
  refine congrArg some ?_
  funext i
  rw [column3_translate_mul]
  fin_cases i <;> simp [column3, translate_one_apply]

end WorldMatrixWitness


/-! ## Scripted movement -/

section MovementLemmas

variable {R : Type} [CommRing R]

theorem set_append_cons {α : Type} (pre : List α) (e x : α) (tl : List α) :
    (pre ++ e :: tl).set pre.length x = pre ++ x :: tl := by
  induction pre with
  | nil => rfl
  | cons a pre ih => simp [ih]

theorem eraseIdx_append_cons {α : Type} (pre : List α) (e : α) (tl : List α) :
    (pre ++ e :: tl).eraseIdx pre.length = pre ++ tl := by
  induction pre with
  | nil => rfl
  | cons a pre ih => simp [ih]

theorem get_append_cons {α : Type} (pre : List α) (e : α) (tl : List α)
    (hi : pre.length < (pre ++ e :: tl).length) :
    (pre ++ e :: tl).get ⟨pre.length, hi⟩ = e := by
  induction pre with
  | nil => rfl
  | cons a pre ih => simpa using ih (by simp)

theorem calculateMoveBody_append (pre : List (Mat4 R × Int)) (e : Mat4 R × Int)
    (tl : List (Mat4 R × Int)) (m : Mat4 R) (c : Nat) :
    calculateMoveBody pre.length e ⟨m, pre ++ e :: tl, c⟩ =
      (if (if e.2 > 0 then e.2 - 1 else e.2) = 0 then
        ⟨if e.2 > 0 then e.1 * m else m, pre ++ tl, c⟩
      else if (if e.2 > 0 then e.2 - 1 else e.2) = -1 then
        ⟨e.1 * (if e.2 > 0 then e.1 * m else m),
          pre ++ (e.1, if e.2 > 0 then e.2 - 1 else e.2) :: tl, c + 1⟩
      else
        ⟨if e.2 > 0 then e.1 * m else m,
          pre ++ (e.1, if e.2 > 0 then e.2 - 1 else e.2) :: tl, c⟩) := by
  obtain ⟨T, s⟩ := e
  simp only [calculateMoveBody]
  by_cases hs : s > 0
  · simp only [hs, if_true, set_append_cons, eraseIdx_append_cons]
  · simp only [hs, if_false, eraseIdx_append_cons]

theorem calculateMoveLoop_exit (i : Nat) (st : MoveLoop R) (hi : st.pending.length ≤ i) :
    calculateMoveLoop i st = st := by
  rw [calculateMoveLoop, dif_neg (by omega)]

theorem calculateMoveLoop_step (pre : List (Mat4 R × Int)) (e : Mat4 R × Int)
    (tl : List (Mat4 R × Int)) (m : Mat4 R) (c : Nat) :
    calculateMoveLoop pre.length ⟨m, pre ++ e :: tl, c⟩ =
      calculateMoveLoop (pre.length + 1)
        (calculateMoveBody pre.length e ⟨m, pre ++ e :: tl, c⟩) := by
  have hi : pre.length < (pre ++ e :: tl).length := by simp
  rw [calculateMoveLoop, dif_pos hi, get_append_cons]

theorem tickFrom_cons (m : Mat4 R) (c : Nat) (e : Mat4 R × Int)
    (rest : List (Mat4 R × Int)) :
    tickFrom m c (e :: rest) =
      if (if e.2 > 0 then e.2 - 1 else e.2) = 0 then
        match rest with
        | [] => ⟨if e.2 > 0 then e.1 * m else m, [], c⟩
        | e' :: rest' =>
          ⟨(tickFrom (if e.2 > 0 then e.1 * m else m) c rest').matrix,
            e' :: (tickFrom (if e.2 > 0 then e.1 * m else m) c rest').pending,
            (tickFrom (if e.2 > 0 then e.1 * m else m) c rest').count⟩
      else if (if e.2 > 0 then e.2 - 1 else e.2) = -1 then
        ⟨(tickFrom (e.1 * (if e.2 > 0 then e.1 * m else m)) (c + 1) rest).matrix,
          (e.1, if e.2 > 0 then e.2 - 1 else e.2) ::
            (tickFrom (e.1 * (if e.2 > 0 then e.1 * m else m)) (c + 1) rest).pending,
          (tickFrom (e.1 * (if e.2 > 0 then e.1 * m else m)) (c + 1) rest).count⟩
      else
        ⟨(tickFrom (if e.2 > 0 then e.1 * m else m) c rest).matrix,
          (e.1, if e.2 > 0 then e.2 - 1 else e.2) ::
            (tickFrom (if e.2 > 0 then e.1 * m else m) c rest).pending,
          (tickFrom (if e.2 > 0 then e.1 * m else m) c rest).count⟩ := by
  cases rest <;> rfl

theorem calculateMoveLoop_eq_tickFrom :
    ∀ (n : Nat) (rest : List (Mat4 R × Int)), rest.length = n →
      ∀ (pre : List (Mat4 R × Int)) (m : Mat4 R) (c : Nat),
        calculateMoveLoop pre.length ⟨m, pre ++ rest, c⟩ =
          ⟨(tickFrom m c rest).matrix, pre ++ (tickFrom m c rest).pending,
            (tickFrom m c rest).count⟩ := by
  intro n
  induction n using Nat.strong_induction_on with
  | _ n ih =>
    intro rest hlen pre m c
    cases rest with
    | nil =>
      rw [calculateMoveLoop_exit _ _ (by simp)]
      simp [tickFrom]
    | cons e tl =>
      rw [calculateMoveLoop_step, calculateMoveBody_append]
      simp only [List.length_cons] at hlen
      by_cases h0 : (if e.2 > 0 then e.2 - 1 else e.2) = 0
      · rw [if_pos h0]
        cases tl with
        | nil =>
          rw [calculateMoveLoop_exit _ _ (by simp), tickFrom_cons, if_pos h0]
        | cons e' tl' =>
          have hpre : pre ++ e' :: tl' = (pre ++ [e']) ++ tl' := by simp
          have hl : pre.length + 1 = (pre ++ [e']).length := by simp
          rw [hpre, hl, ih tl'.length (by simp at hlen; omega) tl' rfl, tickFrom_cons,
            if_pos h0]
          simp
      · rw [if_neg h0]
        by_cases h1 : (if e.2 > 0 then e.2 - 1 else e.2) = -1
        · rw [if_pos h1]
          have hpre : pre ++ (e.1, (if e.2 > 0 then e.2 - 1 else e.2)) :: tl =
              (pre ++ [(e.1, (if e.2 > 0 then e.2 - 1 else e.2))]) ++ tl := by simp
          have hl : pre.length + 1 =
              (pre ++ [(e.1, (if e.2 > 0 then e.2 - 1 else e.2))]).length := by simp
          rw [hpre, hl, ih tl.length (by omega) tl rfl, tickFrom_cons, if_neg h0, if_pos h1]
          simp
        · rw [if_neg h1]
          have hpre : pre ++ (e.1, (if e.2 > 0 then e.2 - 1 else e.2)) :: tl =
              (pre ++ [(e.1, (if e.2 > 0 then e.2 - 1 else e.2))]) ++ tl := by simp
          have hl : pre.length + 1 =
              (pre ++ [(e.1, (if e.2 > 0 then e.2 - 1 else e.2))]).length := by simp
          rw [hpre, hl, ih tl.length (by omega) tl rfl, tickFrom_cons, if_neg h0, if_neg h1]
          simp

/-- The loop of `calculateMove`, entered at index 0, computes `tickFrom`. -/
theorem calculateMoveLoop_zero (m : Mat4 R) (pending : List (Mat4 R × Int)) :
    calculateMoveLoop 0 ⟨m, pending, 0⟩ = tickFrom m 0 pending := by
  have := calculateMoveLoop_eq_tickFrom pending.length pending rfl [] m 0
  simpa using this

/-- `calculateMove` in terms of the closed form of its loop. -/
theorem calculateMove_eq (nd : Node R) :
    nd.calculateMove =
      if nd.m_pending.length > 0 then
        { nd with
          m_matrix := (tickFrom nd.m_matrix 0 nd.m_pending).matrix
          m_pending := (tickFrom nd.m_matrix 0 nd.m_pending).pending
          m_isMoving :=
            if (tickFrom nd.m_matrix 0 nd.m_pending).pending.length =
                (tickFrom nd.m_matrix 0 nd.m_pending).count then false
            else nd.m_isMoving }
      else { nd with m_isMoving := false } := by
  simp only [Node.calculateMove, calculateMoveLoop_zero]

/-- One tick of a node whose only pending entry is finite with a positive
count. -/
theorem calculateMove_single (nd : Node R) (T : Mat4 R) (s : Int) (hs : 0 < s)
    (hp : nd.m_pending = [(T, s)]) :
    nd.calculateMove.m_matrix = T * nd.m_matrix ∧
      nd.calculateMove.m_pending = (if s = 1 then [] else [(T, s - 1)]) ∧
      nd.calculateMove.m_isMoving = (if s = 1 then false else nd.m_isMoving) := by
  have hne : ¬ (s - 1 = -1) := by omega
  rw [calculateMove_eq, hp]
  simp only [List.length_singleton, gt_iff_lt, Nat.lt_one_iff, Nat.pos_of_ne_zero, if_true,
    tickFrom_cons, hs, zero_lt_one]
  by_cases h1 : s = 1
  · have h0 : s - 1 = 0 := by omega
    simp [h0, h1]
  · have h0 : ¬ (s - 1 = 0) := by omega
    simp [h0, h1, hne, tickFrom]

theorem ticks_single (T : Mat4 R) (n : Int) :
    ∀ (k : Nat) (nd : Node R), nd.m_pending = [(T, n)] → nd.m_isMoving = true →
      (k : Int) ≤ n → 1 ≤ n →
      (Node.ticks k nd).m_matrix = T ^ k * nd.m_matrix ∧
        (Node.ticks k nd).m_pending = (if (k : Int) < n then [(T, n - k)] else []) ∧
        (Node.ticks k nd).m_isMoving = decide ((k : Int) < n) := by
  intro k
  induction k with
  | zero =>
    intro nd hp hm _ hn
    have : (0 : Int) < n := by omega
    simp [Node.ticks, hp, hm, this]
  | succ k ih =>
    intro nd hp hm hk hn
    have hk' : (k : Int) < n := by push_cast at hk; omega
    obtain ⟨h1, h2, h3⟩ := ih nd hp hm (by omega) hn
    rw [if_pos hk'] at h2
    have hs : (0 : Int) < n - k := by omega
    obtain ⟨g1, g2, g3⟩ := calculateMove_single (Node.ticks k nd) T (n - k) hs h2
    simp only [Node.ticks]
    refine ⟨?_, ?_, ?_⟩
    · rw [g1, h1, pow_succ', mul_assoc]
    · rw [g2]
      by_cases hlast : n - (k : Int) = 1
      · have : ¬ (((k + 1 : Nat) : Int) < n) := by push_cast; omega
        rw [if_pos hlast, if_neg this]
      · have : (((k + 1 : Nat) : Int) < n) := by push_cast; omega
        rw [if_neg hlast, if_pos this]
        push_cast
        congr 2
        ring
    · rw [g3, h3]
      by_cases hlast : n - (k : Int) = 1
      · have : ¬ (((k + 1 : Nat) : Int) < n) := by push_cast; omega
        rw [if_pos hlast, decide_eq_false this]
      · have : (((k + 1 : Nat) : Int) < n) := by push_cast; omega
        rw [if_neg hlast, decide_eq_true hk', decide_eq_true this]

theorem move_of_no_pending [DecidableEq R] (nd : Node R) (T : Mat4 R) (n : Int)
    (hp : nd.m_pending = []) :
    (nd.move T n).m_pending = [(T, n)] ∧ (nd.move T n).m_isMoving = true ∧
      (nd.move T n).m_matrix = nd.m_matrix := by
  simp [Node.move, hp]

/-- Among the entries left by the loop, at least `count - c` are infinite. -/
theorem tickFrom_count_le :
    ∀ (n : Nat) (l : List (Mat4 R × Int)), l.length = n → ∀ (m : Mat4 R) (c : Nat),
      (tickFrom m c l).count ≤
        c + (tickFrom m c l).pending.countP (fun e => decide (e.2 = -1)) := by
  intro n
  induction n using Nat.strong_induction_on with
  | _ n ih =>
    intro l hlen m c
    cases l with
    | nil => simp [tickFrom]
    | cons e tl =>
      simp only [List.length_cons] at hlen
      rw [tickFrom_cons]
      by_cases h0 : (if e.2 > 0 then e.2 - 1 else e.2) = 0
      · rw [if_pos h0]
        cases tl with
        | nil => simp
        | cons e' tl' =>
          have := ih tl'.length (by simp at hlen; omega) tl' rfl
            (if e.2 > 0 then e.1 * m else m) c
          simp only [List.countP_cons]
          omega
      · rw [if_neg h0]
        by_cases h1 : (if e.2 > 0 then e.2 - 1 else e.2) = -1
        · rw [if_pos h1]
          have := ih tl.length (by omega) tl rfl
            (e.1 * (if e.2 > 0 then e.1 * m else m)) (c + 1)
          simp only [List.countP_cons, h1, decide_True, if_true]
          omega
        · rw [if_neg h1]
          have := ih tl.length (by omega) tl rfl (if e.2 > 0 then e.1 * m else m) c
          simp only [List.countP_cons]
          omega

end MovementLemmas

section MovementClaims

variable {R : Type} [CommRing R]

/-- C8: for a node with no pending steps and local matrix `M0`, after
`move(T, n)` with `n >= 1` and then `k <= n` calls of `calculateMove`, the local
matrix is `T^k * M0` and `isMoving()` is true exactly when `k < n`. -/
theorem move_then_ticks [DecidableEq R] (nd : Node R) (T : Mat4 R) (n : Int) (k : Nat)
    (hpending : nd.m_pending = []) (hn : 1 ≤ n) (hk : (k : Int) ≤ n) :
    (Node.ticks k (nd.move T n)).m_matrix = T ^ k * nd.m_matrix ∧
      ((Node.ticks k (nd.move T n)).m_isMoving = true ↔ (k : Int) < n) := by
  obtain ⟨h1, h2, h3⟩ := move_of_no_pending nd T n hpending
  obtain ⟨g1, -, g3⟩ := ticks_single T n k (nd.move T n) h1 h2 hk hn
  refine ⟨by rw [g1, h3], ?_⟩
  rw [g3]
  simp

/-- C10 (amended): if `isMoving()` is true before a `calculateMove()` call and
false after it, then no finite entry remains pending after the call: every
entry still pending is an infinite entry, with count -1. -/
theorem calculateMove_stops_only_infinite (nd : Node R) (hbefore : nd.m_isMoving = true)
    (hafter : nd.calculateMove.m_isMoving = false) :
    ∀ e ∈ nd.calculateMove.m_pending, e.2 = -1 := by
  rw [calculateMove_eq] at hafter ⊢
  by_cases hlen : nd.m_pending.length > 0
  · rw [if_pos hlen] at hafter ⊢
    simp only at hafter ⊢
    have hle := tickFrom_count_le nd.m_pending.length nd.m_pending rfl nd.m_matrix 0
    by_cases heq : (tickFrom nd.m_matrix 0 nd.m_pending).pending.length =
        (tickFrom nd.m_matrix 0 nd.m_pending).count
    · have hcount : (tickFrom nd.m_matrix 0 nd.m_pending).pending.countP
          (fun e => decide (e.2 = -1)) =
          (tickFrom nd.m_matrix 0 nd.m_pending).pending.length := by
        have := List.countP_le_length (fun e : Mat4 R × Int => decide (e.2 = -1))
          (l := (tickFrom nd.m_matrix 0 nd.m_pending).pending)
        omega
      intro e he
      have := (List.countP_eq_length (p := fun e : Mat4 R × Int => decide (e.2 = -1))).1
        hcount e he
      simpa using this
    · rw [if_neg heq, hbefore] at hafter
      cases hafter
  · rw [if_neg hlen]
    intro e he
    simp only [gt_iff_lt, List.length_pos, ne_eq, not_not] at hlen
    simp [hlen] at he

end MovementClaims

section MovementWitnesses

/-- Witness for C8 on `testNodeMovement`: after `move(step, 10)` the node is
still moving after 5 ticks, with local matrix `step^5 * M0`, and no longer
moving after 10 ticks. -/
theorem move_then_ticks_witness :
    animNode.m_pending = [] ∧
      (Node.ticks 5 (animNode.move stepX 10)).m_matrix = stepX ^ 5 * animNode.m_matrix ∧
      (Node.ticks 5 (animNode.move stepX 10)).m_isMoving = true ∧
      (Node.ticks 10 (animNode.move stepX 10)).m_matrix = stepX ^ 10 * animNode.m_matrix ∧
      (Node.ticks 10 (animNode.move stepX 10)).m_isMoving = false := by
  have h5 := move_then_ticks animNode stepX 10 5 rfl (by decide) (by decide)
  have h10 := move_then_ticks animNode stepX 10 10 rfl (by decide) (by decide)
  refine ⟨rfl, h5.1, h5.2.2 (by decide), h10.1, ?_⟩
  cases hm : (Node.ticks 10 (animNode.move stepX 10)).m_isMoving with
  | false => rfl
  | true => exact absurd (h10.2.1 hm) (by decide)

theorem twoMovesNode_pending :
    twoMovesNode.m_pending = [(stepX, 1), (stepY, 2)] := by
  simp [twoMovesNode, Node.move, Node.new]

theorem twoMovesNode_matrix : twoMovesNode.m_matrix = 1 := by
  simp [twoMovesNode, Node.move, Node.new]

/-- C9 fails on the code: with the pending entries `(stepX, 1), (stepY, 2)`
queued by two `move` calls, one `calculateMove()` applies `stepX`, erases its
entry, and passes over the `stepY` entry: `stepY` is not applied and its count
stays 2. -/
theorem calculateMove_skips_entry_after_erase :
    twoMovesNode.m_pending = [(stepX, 1), (stepY, 2)] ∧
      twoMovesNode.calculateMove.m_pending = [(stepY, 2)] ∧
      twoMovesNode.calculateMove.m_matrix = stepX * twoMovesNode.m_matrix ∧
      twoMovesNode.calculateMove.m_matrix ≠ stepY * (stepX * twoMovesNode.m_matrix) := by
  have hm : twoMovesNode.calculateMove.m_matrix = stepX * twoMovesNode.m_matrix := by
    rw [calculateMove_eq, twoMovesNode_pending]
    simp [tickFrom]
  refine ⟨twoMovesNode_pending, ?_, hm, ?_⟩
  · rw [calculateMove_eq, twoMovesNode_pending]
    simp [tickFrom]
  · rw [hm, twoMovesNode_matrix]
    intro h
    have := congrFun (congrFun h 1) 3
    simp [stepX, stepY, translate_one_apply, Matrix.mul_apply, Fin.sum_univ_four] at this

theorem spinNode_pending : spinNode.m_pending = [(stepX, -1)] := by
  simp [spinNode, Node.move, Node.new]

theorem spinNode_isMoving : spinNode.m_isMoving = true := by
  simp [spinNode, Node.move, Node.new]

theorem spinNode_tick_pending : spinNode.calculateMove.m_pending = [(stepX, -1)] := by
  rw [calculateMove_eq, spinNode_pending]
  simp [tickFrom]

theorem spinNode_tick_isMoving : spinNode.calculateMove.m_isMoving = false := by
  rw [calculateMove_eq, spinNode_pending]
  simp [tickFrom]

/-- C10 as stated fails: the node with the single infinite entry queued by
`move(stepX, -1)` is moving before `calculateMove()` and not moving after it,
while its infinite entry is still pending. -/
theorem calculateMove_stops_with_pending_entry :
    ¬ ∀ nd : Node ℤ, nd.m_isMoving = true → nd.calculateMove.m_isMoving = false →
      nd.calculateMove.m_pending = [] := by
  intro hall
  have := hall spinNode spinNode_isMoving spinNode_tick_isMoving
  rw [spinNode_tick_pending] at this
  cases this

/-- Witness for the amended C10 on the node with one infinite entry. -/
theorem calculateMove_stops_only_infinite_witness :
    spinNode.m_isMoving = true ∧ spinNode.calculateMove.m_isMoving = false ∧
      ∀ e ∈ spinNode.calculateMove.m_pending, e.2 = -1 :=
  ⟨spinNode_isMoving, spinNode_tick_isMoving,
    calculateMove_stops_only_infinite spinNode spinNode_isMoving spinNode_tick_isMoving⟩

end MovementWitnesses

/-! ## Draining, pausing and continuous movement -/

section TickInduction

variable {R : Type} [CommRing R]

/-- Case analysis of one loop iteration by the count of the entry it reads:
0 or 1 (the entry is erased and the next one passed over), -1 (infinite),
greater than 1 (decremented) or below -1 (left alone). -/
theorem tickFrom_induct {P : Mat4 R → Nat → List (Mat4 R × Int) → MoveLoop R → Prop}
    (hnil : ∀ m c, P m c [] ⟨m, [], c⟩)
    (hlast : ∀ m c T s, s = 0 ∨ s = 1 →
      P m c [(T, s)] ⟨if s = 1 then T * m else m, [], c⟩)
    (hskip : ∀ m c T s e' rest, s = 0 ∨ s = 1 →
      P (if s = 1 then T * m else m) c rest
        (tickFrom (if s = 1 then T * m else m) c rest) →
      P m c ((T, s) :: e' :: rest)
        ⟨(tickFrom (if s = 1 then T * m else m) c rest).matrix,
          e' :: (tickFrom (if s = 1 then T * m else m) c rest).pending,
          (tickFrom (if s = 1 then T * m else m) c rest).count⟩)
    (hinf : ∀ m c T rest,
      P (T * m) (c + 1) rest (tickFrom (T * m) (c + 1) rest) →
      P m c ((T, -1) :: rest)
        ⟨(tickFrom (T * m) (c + 1) rest).matrix,
          (T, -1) :: (tickFrom (T * m) (c + 1) rest).pending,
          (tickFrom (T * m) (c + 1) rest).count⟩)
    (hdec : ∀ m c T s rest, 1 < s →
      P (T * m) c rest (tickFrom (T * m) c rest) →
      P m c ((T, s) :: rest)
        ⟨(tickFrom (T * m) c rest).matrix,
          (T, s - 1) :: (tickFrom (T * m) c rest).pending,
          (tickFrom (T * m) c rest).count⟩)
    (hdead : ∀ m c T s rest, s < -1 →
      P m c rest (tickFrom m c rest) →
      P m c ((T, s) :: rest)
        ⟨(tickFrom m c rest).matrix, (T, s) :: (tickFrom m c rest).pending,
          (tickFrom m c rest).count⟩) :
    ∀ (l : List (Mat4 R × Int)) (m : Mat4 R) (c : Nat), P m c l (tickFrom m c l) := by
  have key : ∀ (n : Nat) (l : List (Mat4 R × Int)), l.length = n →
      ∀ (m : Mat4 R) (c : Nat), P m c l (tickFrom m c l) := by
    intro n
    induction n using Nat.strong_induction_on with
    | _ n ih =>
      intro l hlen m c
      cases l with
      | nil => exact hnil m c
      | cons e tl =>
        obtain ⟨T, s⟩ := e
        simp only [List.length_cons] at hlen
        rw [tickFrom_cons]
        simp only
        rcases lt_trichotomy s 0 with hs | hs | hs
        · have h1 : ¬ (s > 0) := by omega
          have h2 : ¬ (s = 0) := by omega
          simp only [h1, if_false, h2]
          by_cases h3 : s = -1
          · subst h3
            simp only [if_true]
            exact hinf m c T tl (ih tl.length (by omega) tl rfl _ _)
          · simp only [h3, if_false]
            exact hdead m c T s tl (by omega) (ih tl.length (by omega) tl rfl _ _)
        · subst hs
          simp only [gt_iff_lt, lt_self_iff_false, if_false, if_true]
          cases tl with
          | nil => simpa using hlast m c T 0 (Or.inl rfl)
          | cons e' tl' =>
            have := hskip m c T 0 e' tl' (Or.inl rfl)
              (ih tl'.length (by simp at hlen; omega) tl' rfl _ _)
            simpa using this
        · have h1 : s > 0 := hs
          simp only [h1, if_true]
          by_cases h2 : s = 1
          · subst h2
            simp only [sub_self, if_true]
            cases tl with
            | nil => simpa using hlast m c T 1 (Or.inr rfl)
            | cons e' tl' =>
              have := hskip m c T 1 e' tl' (Or.inr rfl)
                (ih tl'.length (by simp at hlen; omega) tl' rfl _ _)
              simpa using this
          · have h3 : ¬ (s - 1 = 0) := by omega
            have h4 : ¬ (s - 1 = -1) := by omega
            simp only [h3, h4, if_false]
            exact hdec m c T s tl (by omega) (ih tl.length (by omega) tl rfl _ _)
  intro l m c
  exact key l.length l rfl m c

end TickInduction

section PendingWork

variable {R : Type}

theorem pendingWork_cons (e : Mat4 R × Int) (l : List (Mat4 R × Int)) :
    pendingWork (e :: l) = (if 0 ≤ e.2 then e.2.toNat + 1 else 0) + pendingWork l := by
  simp [pendingWork]

theorem pendingWork_nil : pendingWork ([] : List (Mat4 R × Int)) = 0 := rfl

end PendingWork

section TickLemmas

variable {R : Type} [CommRing R]

/-- An entry with a negative count is never erased by the loop. -/
theorem tickFrom_neg_mem (x : Mat4 R × Int) (hx : x.2 < 0) :
    ∀ (l : List (Mat4 R × Int)) (m : Mat4 R) (c : Nat),
      x ∈ l → x ∈ (tickFrom m c l).pending := by
  refine tickFrom_induct (P := fun _ _ l r => x ∈ l → x ∈ r.pending) ?_ ?_ ?_ ?_ ?_ ?_
  · intro m c h; exact h
  · intro m c T s hs h
    simp only [List.mem_singleton] at h
    subst h
    simp only at hx
    omega
  · intro m c T s e' rest hs ih h
    simp only [List.mem_cons] at h ⊢
    rcases h with h | h | h
    · subst h; simp only at hx; omega
    · exact Or.inl h
    · exact Or.inr (ih h)
  · intro m c T rest ih h
    simp only [List.mem_cons] at h ⊢
    rcases h with h | h
    · exact Or.inl h
    · exact Or.inr (ih h)
  · intro m c T s rest hs ih h
    simp only [List.mem_cons] at h ⊢
    rcases h with h | h
    · subst h; simp only at hx; omega
    · exact Or.inr (ih h)
  · intro m c T s rest hs ih h
    simp only [List.mem_cons] at h ⊢
    rcases h with h | h
    · exact Or.inl h
    · exact Or.inr (ih h)

/-- Counts that are non-negative or -1 stay so. -/
theorem tickFrom_valid :
    ∀ (l : List (Mat4 R × Int)) (m : Mat4 R) (c : Nat),
      (∀ e ∈ l, 0 ≤ e.2 ∨ e.2 = -1) →
      ∀ e ∈ (tickFrom m c l).pending, 0 ≤ e.2 ∨ e.2 = -1 := by
  refine tickFrom_induct
    (P := fun _ _ l r => (∀ e ∈ l, 0 ≤ e.2 ∨ e.2 = -1) →
      ∀ e ∈ r.pending, 0 ≤ e.2 ∨ e.2 = -1) ?_ ?_ ?_ ?_ ?_ ?_
  · intro m c h; exact h
  · intro m c T s hs h e he
    simp at he
  · intro m c T s e' rest hs ih h e he
    simp only [List.mem_cons] at he
    rcases he with he | he
    · exact h e (by simp [he])
    · exact ih (fun e he => h e (by simp [he])) e he
  · intro m c T rest ih h e he
    simp only [List.mem_cons] at he
    rcases he with he | he
    · subst he; exact Or.inr rfl
    · exact ih (fun e he => h e (by simp [he])) e he
  · intro m c T s rest hs ih h e he
    simp only [List.mem_cons] at he
    rcases he with he | he
    · subst he; left; simp only; omega
    · exact ih (fun e he => h e (by simp [he])) e he
  · intro m c T s rest hs ih h e he
    simp only [List.mem_cons] at he
    rcases he with he | he
    · exact h e (by simp [he])
    · exact ih (fun e he => h e (by simp [he])) e he

/-- The work never grows in a tick. -/
theorem tickFrom_work_le :
    ∀ (l : List (Mat4 R × Int)) (m : Mat4 R) (c : Nat),
      pendingWork (tickFrom m c l).pending ≤ pendingWork l := by
  refine tickFrom_induct (P := fun _ _ l r => pendingWork r.pending ≤ pendingWork l)
    ?_ ?_ ?_ ?_ ?_ ?_
  · intro m c; exact le_refl _
  · intro m c T s hs
    simp [pendingWork_nil]
  · intro m c T s e' rest hs ih
    simp only [pendingWork_cons] at ih ⊢
    omega
  · intro m c T rest ih
    simp only [pendingWork_cons] at ih ⊢
    omega
  · intro m c T s rest hs ih
    simp only [pendingWork_cons] at ih ⊢
    have h1 : (0 : Int) ≤ s - 1 := by omega
    have h2 : (0 : Int) ≤ s := by omega
    simp only [h1, h2, if_true]
    omega
  · intro m c T s rest hs ih
    simp only [pendingWork_cons] at ih ⊢
    omega

/-- The work shrinks in a tick as soon as one entry has a non-negative count. -/
theorem tickFrom_work_lt :
    ∀ (l : List (Mat4 R × Int)) (m : Mat4 R) (c : Nat),
      (∃ e ∈ l, 0 ≤ e.2) → pendingWork (tickFrom m c l).pending < pendingWork l := by
  refine tickFrom_induct
    (P := fun _ _ l r => (∃ e ∈ l, 0 ≤ e.2) → pendingWork r.pending < pendingWork l)
    ?_ ?_ ?_ ?_ ?_ ?_
  · intro m c h
    obtain ⟨e, he, -⟩ := h
    simp at he
  · intro m c T s hs _
    have h2 : (0 : Int) ≤ s := by omega
    simp [pendingWork_cons, pendingWork_nil, h2]
  · intro m c T s e' rest hs _ _
    have hle := tickFrom_work_le rest (if s = 1 then T * m else m) c
    have h2 : (0 : Int) ≤ s := by omega
    simp only [pendingWork_cons, h2, if_true]
    omega
  · intro m c T rest ih h
    obtain ⟨e, he, hpos⟩ := h
    simp only [List.mem_cons] at he
    rcases he with he | he
    · subst he; simp only at hpos; omega
    · have := ih ⟨e, he, hpos⟩
      simp only [pendingWork_cons]
      omega
  · intro m c T s rest hs _ _
    have hle := tickFrom_work_le rest (T * m) c
    have h1 : (0 : Int) ≤ s - 1 := by omega
    have h2 : (0 : Int) ≤ s := by omega
    simp only [pendingWork_cons, h1, h2, if_true]
    omega
  · intro m c T s rest hs ih h
    obtain ⟨e, he, hpos⟩ := h
    simp only [List.mem_cons] at he
    rcases he with he | he
    · subst he; simp only at hpos; omega
    · have := ih ⟨e, he, hpos⟩
      simp only [pendingWork_cons]
      omega

/-- When every entry is infinite the loop keeps the list and counts them all. -/
theorem tickFrom_all_infinite :
    ∀ (l : List (Mat4 R × Int)) (m : Mat4 R) (c : Nat),
      (∀ e ∈ l, e.2 = -1) →
      (tickFrom m c l).pending = l ∧ (tickFrom m c l).count = c + l.length := by
  refine tickFrom_induct
    (P := fun _ c l r => (∀ e ∈ l, e.2 = -1) → r.pending = l ∧ r.count = c + l.length)
    ?_ ?_ ?_ ?_ ?_ ?_
  · intro m c _; exact ⟨rfl, rfl⟩
  · intro m c T s hs h
    have := h (T, s) (by simp)
    simp only at this
    omega
  · intro m c T s e' rest hs _ h
    have := h (T, s) (by simp)
    simp only at this
    omega
  · intro m c T rest ih h
    obtain ⟨h1, h2⟩ := ih (fun e he => h e (by simp [he]))
    simp only [h1, h2, List.length_cons, true_and]
    omega
  · intro m c T s rest hs _ h
    have := h (T, s) (by simp)
    simp only at this
    omega
  · intro m c T s rest hs _ h
    have := h (T, s) (by simp)
    simp only at this
    omega

/-- When no entry has count 0 or 1 nothing is erased, and the loop applies
every entry with a positive or infinite count once, in list order. -/
theorem tickFrom_no_erase :
    ∀ (l : List (Mat4 R × Int)) (m : Mat4 R) (c : Nat),
      (∀ e ∈ l, e.2 ≠ 0 ∧ e.2 ≠ 1) →
      (tickFrom m c l).matrix = applyEntries l m ∧
        (tickFrom m c l).pending.length = l.length := by
  refine tickFrom_induct
    (P := fun m _ l r => (∀ e ∈ l, e.2 ≠ 0 ∧ e.2 ≠ 1) →
      r.matrix = applyEntries l m ∧ r.pending.length = l.length) ?_ ?_ ?_ ?_ ?_ ?_
  · intro m c _; exact ⟨rfl, rfl⟩
  · intro m c T s hs h
    have := h (T, s) (by simp)
    simp only [ne_eq] at this
    omega
  · intro m c T s e' rest hs _ h
    have := h (T, s) (by simp)
    simp only [ne_eq] at this
    omega
  · intro m c T rest ih h
    obtain ⟨h1, h2⟩ := ih (fun e he => h e (by simp [he]))
    simp [applyEntries, h1, h2]
  · intro m c T s rest hs ih h
    obtain ⟨h1, h2⟩ := ih (fun e he => h e (by simp [he]))
    have hpos : 0 < s := by omega
    simp [applyEntries, h1, h2, hpos]
  · intro m c T s rest hs ih h
    obtain ⟨h1, h2⟩ := ih (fun e he => h e (by simp [he]))
    have hpos : ¬ (0 < s) := by omega
    have hne : ¬ (s = -1) := by omega
    simp [applyEntries, h1, h2, hpos, hne]

theorem applyEntries_append (pre post : List (Mat4 R × Int)) (m : Mat4 R) :
    applyEntries (pre ++ post) m = applyEntries post (applyEntries pre m) := by
  induction pre generalizing m with
  | nil => rfl
  | cons e pre ih => simp [applyEntries, ih]

/-- `calculateMove` in terms of the closed form of its loop, uniformly for an
empty and a non-empty pending list. -/
theorem calculateMove_fields (nd : Node R) :
    nd.calculateMove.m_matrix = (tickFrom nd.m_matrix 0 nd.m_pending).matrix ∧
      nd.calculateMove.m_pending = (tickFrom nd.m_matrix 0 nd.m_pending).pending ∧
      nd.calculateMove.m_isMoving =
        (if (tickFrom nd.m_matrix 0 nd.m_pending).pending.length =
            (tickFrom nd.m_matrix 0 nd.m_pending).count then false
          else nd.m_isMoving) := by
  rw [calculateMove_eq]
  by_cases hlen : nd.m_pending.length > 0
  · rw [if_pos hlen]
    exact ⟨rfl, rfl, rfl⟩
  · rw [if_neg hlen]
    have hnil : nd.m_pending = [] := by
      simpa [List.length_pos] using hlen
    simp [hnil, tickFrom]

end TickLemmas

section DrainLemmas

variable {R : Type} [CommRing R]

theorem drain_mono (res : Node R) :
    ∀ (fuel : Nat) (nd : Node R), drain fuel nd = some res →
      ∀ fuel', fuel ≤ fuel' → drain fuel' nd = some res := by
  intro fuel
  induction fuel with
  | zero => intro nd h; simp [drain] at h
  | succ f ih =>
    intro nd h fuel' hle
    obtain ⟨g, rfl⟩ : ∃ g, fuel' = g + 1 := ⟨fuel' - 1, by omega⟩
    simp only [drain] at h ⊢
    split_ifs at h ⊢ with hm
    · exact ih _ h g (by omega)
    · exact h

/-- After a tick that leaves `isMoving()` false on a node that was moving,
every remaining entry is infinite. -/
theorem calculateMove_false_all_infinite (nd : Node R) (hbefore : nd.m_isMoving = true)
    (hafter : nd.calculateMove.m_isMoving = false) :
    ∀ e ∈ nd.calculateMove.m_pending, e.2 = -1 := by
  obtain ⟨-, hp, hm⟩ := calculateMove_fields nd
  rw [hp]
  rw [hm] at hafter
  have hle := tickFrom_count_le nd.m_pending.length nd.m_pending rfl nd.m_matrix 0
  by_cases heq : (tickFrom nd.m_matrix 0 nd.m_pending).pending.length =
      (tickFrom nd.m_matrix 0 nd.m_pending).count
  · have hcount : (tickFrom nd.m_matrix 0 nd.m_pending).pending.countP
        (fun e => decide (e.2 = -1)) =
        (tickFrom nd.m_matrix 0 nd.m_pending).pending.length := by
      have := List.countP_le_length (fun e : Mat4 R × Int => decide (e.2 = -1))
        (l := (tickFrom nd.m_matrix 0 nd.m_pending).pending)
      omega
    intro e he
    have := (List.countP_eq_length (p := fun e : Mat4 R × Int => decide (e.2 = -1))).1
      hcount e he
    simpa using this
  · rw [if_neg heq, hbefore] at hafter
    cases hafter

/-- A tick of a node whose entries are all infinite leaves `isMoving()` false. -/
theorem calculateMove_only_infinite (nd : Node R) (h : ∀ e ∈ nd.m_pending, e.2 = -1) :
    nd.calculateMove.m_isMoving = false := by
  obtain ⟨-, -, hm⟩ := calculateMove_fields nd
  obtain ⟨h1, h2⟩ := tickFrom_all_infinite nd.m_pending nd.m_matrix 0 h
  rw [hm, h1, h2]
  simp

theorem drain_terminates_aux :
    ∀ (w : Nat) (nd : Node R), pendingWork nd.m_pending = w →
      (∀ e ∈ nd.m_pending, 0 ≤ e.2 ∨ e.2 = -1) → nd.m_isMoving = true →
      ∃ res : Node R, (∀ fuel, w + 2 ≤ fuel → drain fuel nd = some res) ∧
        res.m_isMoving = false ∧ ∀ e ∈ res.m_pending, e.2 = -1 := by
  intro w
  induction w using Nat.strong_induction_on with
  | _ w ih =>
    intro nd hw hvalid hmoving
    obtain ⟨-, hp, -⟩ := calculateMove_fields nd
    cases hafter : nd.calculateMove.m_isMoving with
    | false =>
      refine ⟨nd.calculateMove, ?_, hafter, calculateMove_false_all_infinite nd hmoving hafter⟩
      intro fuel hfuel
      obtain ⟨g, rfl⟩ : ∃ g, fuel = g + 2 := ⟨fuel - 2, by omega⟩
      simp [drain, hmoving, hafter]
    | true =>
      have hfinite : ∃ e ∈ nd.m_pending, 0 ≤ e.2 := by
        by_contra hnone
        have hall : ∀ e ∈ nd.m_pending, e.2 = -1 := by
          intro e he
          rcases hvalid e he with h0 | h1
          · exact absurd ⟨e, he, h0⟩ hnone
          · exact h1
        rw [calculateMove_only_infinite nd hall] at hafter
        cases hafter
      have hlt : pendingWork nd.calculateMove.m_pending < w := by
        rw [hp, ← hw]
        exact tickFrom_work_lt nd.m_pending nd.m_matrix 0 hfinite
      have hvalid' : ∀ e ∈ nd.calculateMove.m_pending, 0 ≤ e.2 ∨ e.2 = -1 := by
        rw [hp]
        exact tickFrom_valid nd.m_pending nd.m_matrix 0 hvalid
      obtain ⟨res, hres, hm, hall⟩ :=
        ih _ hlt nd.calculateMove rfl hvalid' hafter
      refine ⟨res, ?_, hm, hall⟩
      intro fuel hfuel
      obtain ⟨g, rfl⟩ : ∃ g, fuel = g + 1 := ⟨fuel - 1, by omega⟩
      simp only [drain, hmoving, if_true]
      exact hres g (by omega)

theorem ticks_idle (nd : Node R) (hp : nd.m_pending = []) (hm : nd.m_isMoving = false) :
    ∀ k, Node.ticks k nd = nd := by
  intro k
  induction k with
  | zero => rfl
  | succ k ih =>
    simp only [Node.ticks, ih]
    obtain ⟨a1, a2, a3, a4, a5, a6, a7⟩ := nd
    simp only at hp hm
    subst hp
    subst hm
    rfl

theorem ticks_neg_mem (x : Mat4 R × Int) (hx : x.2 < 0) (nd : Node R)
    (hmem : x ∈ nd.m_pending) : ∀ k, x ∈ (Node.ticks k nd).m_pending := by
  intro k
  induction k with
  | zero => exact hmem
  | succ k ih =>
    simp only [Node.ticks]
    rw [(calculateMove_fields (Node.ticks k nd)).2.1]
    exact tickFrom_neg_mem x hx _ _ _ ih

end DrainLemmas

section EraseLastLemmas

variable {R : Type}

theorem erasesLast_cons (e : Mat4 R × Int) (rest : List (Mat4 R × Int)) :
    erasesLast (e :: rest) =
      if e.2 = 0 ∨ e.2 = 1 then
        match rest with
        | [] => true
        | _ :: rest' => erasesLast rest'
      else erasesLast rest := by
  cases rest <;> rfl

end EraseLastLemmas

section AppendLemmas

variable {R : Type} [CommRing R]

theorem tickFrom_append :
    ∀ (pre : List (Mat4 R × Int)) (m : Mat4 R) (c : Nat),
      erasesLast pre = false → ∀ rest : List (Mat4 R × Int),
      tickFrom m c (pre ++ rest) =
        ⟨(tickFrom (tickFrom m c pre).matrix (tickFrom m c pre).count rest).matrix,
          (tickFrom m c pre).pending ++
            (tickFrom (tickFrom m c pre).matrix (tickFrom m c pre).count rest).pending,
          (tickFrom (tickFrom m c pre).matrix (tickFrom m c pre).count rest).count⟩ := by
  refine tickFrom_induct
    (P := fun m c pre r => erasesLast pre = false → ∀ rest : List (Mat4 R × Int),
      tickFrom m c (pre ++ rest) =
        ⟨(tickFrom r.matrix r.count rest).matrix,
          r.pending ++ (tickFrom r.matrix r.count rest).pending,
          (tickFrom r.matrix r.count rest).count⟩) ?_ ?_ ?_ ?_ ?_ ?_
  · intro m c _ rest
    rfl
  · intro m c T s hs h
    rcases hs with rfl | rfl <;> simp [erasesLast] at h
  · intro m c T s e' rest0 hs ih h rest
    have h' : erasesLast rest0 = false := by
      rcases hs with rfl | rfl <;> simpa [erasesLast] using h
    have := ih h' rest
    rcases hs with rfl | rfl
    · show tickFrom m c ((T, 0) :: e' :: (rest0 ++ rest)) = _
      rw [tickFrom_cons]
      simp at this ⊢
      rw [this]
      exact ⟨rfl, rfl, rfl⟩
    · show tickFrom m c ((T, 1) :: e' :: (rest0 ++ rest)) = _
      rw [tickFrom_cons]
      simp at this ⊢
      rw [this]
      exact ⟨rfl, rfl, rfl⟩
  · intro m c T rest0 ih h rest
    have h' : erasesLast rest0 = false := by simpa [erasesLast_cons] using h
    have := ih h' rest
    show tickFrom m c ((T, -1) :: (rest0 ++ rest)) = _
    rw [tickFrom_cons]
    simp [this]
  · intro m c T s rest0 hs ih h rest
    have hs0 : ¬ (s = 0 ∨ s = 1) := by omega
    have h' : erasesLast rest0 = false := by simpa [erasesLast_cons, hs0] using h
    have := ih h' rest
    show tickFrom m c ((T, s) :: (rest0 ++ rest)) = _
    rw [tickFrom_cons]
    have h1 : s > 0 := by omega
    have h2 : ¬ (s - 1 = 0) := by omega
    have h3 : ¬ (s - 1 = -1) := by omega
    simp [h1, h2, h3, this]
  · intro m c T s rest0 hs ih h rest
    have hs0 : ¬ (s = 0 ∨ s = 1) := by omega
    have h' : erasesLast rest0 = false := by simpa [erasesLast_cons, hs0] using h
    have := ih h' rest
    show tickFrom m c ((T, s) :: (rest0 ++ rest)) = _
    rw [tickFrom_cons]
    have h1 : ¬ (s > 0) := by omega
    have h2 : ¬ (s = 0) := by omega
    have h3 : ¬ (s = -1) := by omega
    simp [h1, h2, h3, this]

/-- What one `calculateMove()` does with an infinite entry whose predecessor is
not erased: the step matrix is applied after the entries before it and before
the entries after it. -/
theorem tickFrom_infinite_at (pre post : List (Mat4 R × Int)) (T : Mat4 R) (m : Mat4 R)
    (c : Nat) (h : erasesLast pre = false) :
    (tickFrom m c (pre ++ (T, -1) :: post)).matrix =
      (tickFrom (T * (tickFrom m c pre).matrix) ((tickFrom m c pre).count + 1) post).matrix := by
  rw [tickFrom_append pre m c h, tickFrom_cons]
  simp

end AppendLemmas

section CompletionLists

variable {R : Type}

theorem scheduled_cons (e : Mat4 R × Int) (rest : List (Mat4 R × Int)) :
    scheduled (e :: rest) = List.replicate e.2.toNat e.1 ++ scheduled rest := rfl

theorem scheduled_of_infinite : ∀ l : List (Mat4 R × Int), (∀ e ∈ l, e.2 = -1) →
    scheduled l = []
  | [], _ => rfl
  | e :: rest, h => by
    have h1 : e.2 = -1 := h e (by simp)
    rw [scheduled_cons, scheduled_of_infinite rest (fun x hx => h x (List.mem_cons_of_mem _ hx)),
      h1]
    rfl

theorem finiteApplications_append (a b : List (Mat4 R × Bool)) :
    finiteApplications (a ++ b) = finiteApplications a ++ finiteApplications b := by
  simp [finiteApplications]

end CompletionLists

section CompletionLemmas

variable {R : Type} [CommRing R]

/-- One pass of the loop of `calculateMove()` as a log of applications. -/
theorem tickFrom_log :
    ∀ (l : List (Mat4 R × Int)) (m : Mat4 R) (c : Nat),
      (∀ e ∈ l, 0 ≤ e.2 ∨ e.2 = -1) →
      ∃ log : List (Mat4 R × Bool),
        (tickFrom m c l).matrix = (log.map Prod.fst).prod * m ∧
        ((finiteApplications log : Multiset (Mat4 R)) +
          (scheduled (tickFrom m c l).pending : Multiset (Mat4 R)) =
            (scheduled l : Multiset (Mat4 R))) ∧
        (∀ x ∈ log, x.2 = false → (x.1, (-1 : Int)) ∈ l) ∧
        (∀ T : Mat4 R, (T, (-1 : Int)) ∈ (tickFrom m c l).pending → (T, (-1 : Int)) ∈ l) := by
  refine tickFrom_induct
    (P := fun m _ l r => (∀ e ∈ l, 0 ≤ e.2 ∨ e.2 = -1) →
      ∃ log : List (Mat4 R × Bool),
        r.matrix = (log.map Prod.fst).prod * m ∧
        ((finiteApplications log : Multiset (Mat4 R)) +
          (scheduled r.pending : Multiset (Mat4 R)) = (scheduled l : Multiset (Mat4 R))) ∧
        (∀ x ∈ log, x.2 = false → (x.1, (-1 : Int)) ∈ l) ∧
        (∀ T : Mat4 R, (T, (-1 : Int)) ∈ r.pending → (T, (-1 : Int)) ∈ l)) ?_ ?_ ?_ ?_ ?_ ?_
  · intro m c _
    exact ⟨[], by simp, by simp [finiteApplications, scheduled], by simp, by simp⟩
  · intro m c T s hs _
    rcases hs with rfl | rfl
    · exact ⟨[], by simp, by simp [finiteApplications, scheduled], by simp, by simp⟩
    · exact ⟨[(T, true)], by simp, by simp [finiteApplications, scheduled], by simp, by simp⟩
  · intro m c T s e' rest hs ih hv
    obtain ⟨log, h1, h2, h3, h4⟩ := ih (fun e he => hv e (by simp [he]))
    have hkept : ∀ U : Mat4 R,
        (U, (-1 : Int)) ∈ e' :: (tickFrom (if s = 1 then T * m else m) c rest).pending →
          (U, (-1 : Int)) ∈ (T, s) :: e' :: rest := by
      intro U hU
      rcases List.mem_cons.1 hU with hU | hU
      · simp [hU]
      · simp [h4 U hU]
    rcases hs with rfl | rfl
    · simp only [zero_ne_one, if_false] at h1 h2 h4 hkept ⊢
      refine ⟨log, h1, ?_, ?_, hkept⟩
      · simp only [scheduled_cons, ← Multiset.coe_add, ← h2]
        simp only [Int.toNat_zero, List.replicate_zero, Multiset.coe_nil, zero_add]
        abel
      · intro x hx hf
        simp [h3 x hx hf]
    · simp only [if_true] at h1 h2 h4 hkept ⊢
      refine ⟨log ++ [(T, true)], ?_, ?_, ?_, hkept⟩
      · rw [h1]
        simp [Matrix.mul_assoc]
      · simp only [scheduled_cons, finiteApplications_append, ← Multiset.coe_add, ← h2]
        simp only [finiteApplications, Int.toNat_one, List.replicate_one]
        simp only [List.filter_cons_of_pos, List.filter_nil, List.map_cons, List.map_nil]
        abel
      · intro x hx hf
        rcases List.mem_append.1 hx with hx | hx
        · simp [h3 x hx hf]
        · simp only [List.mem_singleton] at hx
          subst hx
          cases hf
  · intro m c T rest ih hv
    obtain ⟨log, h1, h2, h3, h4⟩ := ih (fun e he => hv e (by simp [he]))
    refine ⟨log ++ [(T, false)], ?_, ?_, ?_, ?_⟩
    · show (tickFrom (T * m) (c + 1) rest).matrix = _
      rw [h1]
      simp [Matrix.mul_assoc]
    · simp only [scheduled_cons, finiteApplications_append, ← Multiset.coe_add, ← h2]
      simp [finiteApplications]
    · intro x hx hf
      rcases List.mem_append.1 hx with hx | hx
      · simp [h3 x hx hf]
      · simp only [List.mem_singleton] at hx
        subst hx
        simp
    · intro U hU
      rcases List.mem_cons.1 hU with hU | hU
      · simp only [Prod.mk.injEq] at hU
        simp [hU.1]
      · simp [h4 U hU]
  · intro m c T s rest hs ih hv
    obtain ⟨log, h1, h2, h3, h4⟩ := ih (fun e he => hv e (by simp [he]))
    refine ⟨log ++ [(T, true)], ?_, ?_, ?_, ?_⟩
    · show (tickFrom (T * m) c rest).matrix = _
      rw [h1]
      simp [Matrix.mul_assoc]
    · have hsucc : s.toNat = (s - 1).toNat + 1 := by omega
      simp only [scheduled_cons, finiteApplications_append, ← Multiset.coe_add, ← h2]
      rw [hsucc, List.replicate_succ]
      simp only [finiteApplications, List.filter_cons_of_pos, List.filter_nil, List.map_cons,
        List.map_nil, ← Multiset.cons_coe, ← Multiset.singleton_add, Multiset.coe_nil,
        Multiset.cons_zero]
      abel
    · intro x hx hf
      rcases List.mem_append.1 hx with hx | hx
      · simp [h3 x hx hf]
      · simp only [List.mem_singleton] at hx
        subst hx
        cases hf
    · intro U hU
      rcases List.mem_cons.1 hU with hU | hU
      · simp only [Prod.mk.injEq] at hU
        omega
      · simp [h4 U hU]
  · intro m c T s rest hs _ hv
    have := hv (T, s) (by simp)
    simp only at this
    omega

end CompletionLemmas

section ProgressLemmas

variable {R : Type} [CommRing R]

theorem Progress.start (nd : Node R) (hv : ∀ e ∈ nd.m_pending, 0 ≤ e.2 ∨ e.2 = -1) :
    Progress nd nd [] :=
  ⟨hv, by simp, by simp [finiteApplications], by simp, fun _ h => h⟩

theorem Progress.step {start cur : Node R} {log : List (Mat4 R × Bool)}
    (hp : Progress start cur log) : ∃ log', Progress start cur.calculateMove log' := by
  obtain ⟨hm, hpd, -⟩ := calculateMove_fields cur
  obtain ⟨lg, h1, h2, h3, h4⟩ := tickFrom_log cur.m_pending cur.m_matrix 0 hp.valid
  refine ⟨lg ++ log, ?_, ?_, ?_, ?_, ?_⟩
  · rw [hpd]
    exact tickFrom_valid _ _ _ hp.valid
  · rw [hm, h1, hp.matrix]
    simp [Matrix.mul_assoc]
  · rw [hpd]
    have hfin := hp.finite
    rw [← Multiset.coe_eq_coe] at hfin ⊢
    rw [← hfin]
    simp only [finiteApplications_append, ← Multiset.coe_add, ← h2]
    abel
  · intro x hx hf
    rcases List.mem_append.1 hx with hx | hx
    · exact hp.kept x.1 (h3 x hx hf)
    · exact hp.infinite x hx hf
  · intro T hT
    rw [hpd] at hT
    exact hp.kept T (h4 T hT)

theorem Progress.drained {start : Node R} (res : Node R) :
    ∀ (fuel : Nat) (cur : Node R) (log : List (Mat4 R × Bool)), Progress start cur log →
      drain fuel cur = some res → ∃ log', Progress start res log' := by
  intro fuel
  induction fuel with
  | zero => intro cur log _ h; simp [drain] at h
  | succ f ih =>
    intro cur log hp h
    simp only [drain] at h
    split_ifs at h with hm
    · obtain ⟨log', hp'⟩ := hp.step
      exact ih _ log' hp' h
    · cases h
      exact ⟨log, hp⟩

/-- The drain loop stops, and what it did is a log of applications in which
the finite entries account for exactly their counts. -/
theorem drain_completes (nd : Node R)
    (hvalid : ∀ e ∈ nd.m_pending, 0 ≤ e.2 ∨ e.2 = -1) (hmoving : nd.m_isMoving = true) :
    ∃ res : Node R,
      (∀ fuel, pendingWork nd.m_pending + 2 ≤ fuel → drain fuel nd = some res) ∧
        res.m_isMoving = false ∧ (∀ e ∈ res.m_pending, e.2 = -1) ∧
        ∃ log : List (Mat4 R × Bool),
          res.m_matrix = (log.map Prod.fst).prod * nd.m_matrix ∧
          (finiteApplications log).Perm (scheduled nd.m_pending) ∧
          ∀ x ∈ log, x.2 = false → (x.1, (-1 : Int)) ∈ nd.m_pending := by
  obtain ⟨res, h1, h2, h3⟩ :=
    drain_terminates_aux (pendingWork nd.m_pending) nd rfl hvalid hmoving
  obtain ⟨log, hp⟩ := Progress.drained res _ nd [] (Progress.start nd hvalid)
    (h1 _ (le_refl _))
  refine ⟨res, h1, h2, h3, log, hp.matrix, ?_, hp.infinite⟩
  have := hp.finite
  rwa [scheduled_of_infinite res.m_pending h3, List.append_nil] at this

end ProgressLemmas

section DrainClaims

variable {R : Type} [CommRing R]

/-- C11: for a node whose pending counts are all non-negative or -1 and whose
`isMoving()` is true, the drain loop `while (isMoving()) calculateMove();`
stops: every run allowed at least `pendingWork + 2` loop tests returns the same
node, on which `isMoving()` is false and no entry with a non-negative count is
pending (all remaining entries carry -1).  Every finite animation has been
completed, not dropped: the local matrix of that node is the product of a
sequence of step applications times the local matrix before the loop, in which
the applications of finite entries are, up to order, the step matrix of every
finite entry exactly as many times as its count, and every other application
is of an infinite entry. -/
theorem drain_terminates (nd : Node R)
    (hvalid : ∀ e ∈ nd.m_pending, 0 ≤ e.2 ∨ e.2 = -1) (hmoving : nd.m_isMoving = true) :
    ∃ res : Node R,
      (∀ fuel, pendingWork nd.m_pending + 2 ≤ fuel → drain fuel nd = some res) ∧
        res.m_isMoving = false ∧
        (∀ e ∈ res.m_pending, ¬ (0 ≤ e.2)) ∧ (∀ e ∈ res.m_pending, e.2 = -1) ∧
        ∃ log : List (Mat4 R × Bool),
          res.m_matrix = (log.map Prod.fst).prod * nd.m_matrix ∧
          (finiteApplications log).Perm (scheduled nd.m_pending) ∧
          ∀ x ∈ log, x.2 = false → (x.1, (-1 : Int)) ∈ nd.m_pending := by
  obtain ⟨res, h1, h2, h3, hlog⟩ := drain_completes nd hvalid hmoving
  refine ⟨res, h1, h2, ?_, h3, hlog⟩
  intro e he
  have := h3 e he
  omega

/-- C13 (amended): for every `stepCount < 0`, unless an infinite entry with the
identical step matrix is already pending, `move(T, stepCount)` appends the entry
`(T, stepCount)` with the count as given, and no later `calculateMove()`
removes it (neither the ticks that follow the call nor a `calculateMove()` on
any later state in which the entry is pending); the entry carries the infinite
sentinel only for `stepCount = -1`, and then every later `calculateMove()`
applies `T` to the local matrix, after the entries before it and before the
entries after it, unless the entry just before it in the pending list is
erased during that call; in particular, when no pending count is 0 or 1, the
call applies every entry with a positive or infinite count in list order, `T`
among them. -/
theorem move_negative_steps [DecidableEq R] (nd : Node R) (T : Mat4 R) (s : Int)
    (hs : s < 0) (hnew : ∀ e ∈ nd.m_pending, ¬ (e.1 = T ∧ e.2 = -1)) :
    (nd.move T s).m_pending = nd.m_pending ++ [(T, s)] ∧
      (∀ k, (T, s) ∈ (Node.ticks k (nd.move T s)).m_pending) ∧
      (∀ cur : Node R, (T, s) ∈ cur.m_pending → (T, s) ∈ cur.calculateMove.m_pending) ∧
      (s = -1 → ∀ (cur : Node R) (pre post : List (Mat4 R × Int)),
        cur.m_pending = pre ++ (T, -1) :: post → erasesLast pre = false →
        cur.calculateMove.m_matrix =
          (tickFrom (T * (tickFrom cur.m_matrix 0 pre).matrix)
            ((tickFrom cur.m_matrix 0 pre).count + 1) post).matrix) ∧
      (s = -1 → ∀ k,
        (∀ e ∈ (Node.ticks k (nd.move T s)).m_pending, e.2 ≠ 0 ∧ e.2 ≠ 1) →
        ∃ pre post, (Node.ticks k (nd.move T s)).m_pending = pre ++ (T, -1) :: post ∧
          (Node.ticks (k + 1) (nd.move T s)).m_matrix =
            applyEntries post (T * applyEntries pre (Node.ticks k (nd.move T s)).m_matrix)) := by
  have hany : nd.m_pending.any (fun e => decide (e.1 = T ∧ e.2 = -1)) = false := by
    rw [List.any_eq_false]
    intro e he
    simpa using hnew e he
  have hpend : (nd.move T s).m_pending = nd.m_pending ++ [(T, s)] := by
    simp only [Node.move, hany, Bool.false_eq_true, if_false]
  have hmem : (T, s) ∈ (nd.move T s).m_pending := by
    rw [hpend]; simp
  have hstay := ticks_neg_mem (T, s) hs (nd.move T s) hmem
  refine ⟨hpend, hstay, ?_, ?_, ?_⟩
  · intro cur hcur
    rw [(calculateMove_fields cur).2.1]
    exact tickFrom_neg_mem (T, s) hs _ _ _ hcur
  · intro _ cur pre post hsplit hpre
    rw [(calculateMove_fields cur).1, hsplit]
    exact tickFrom_infinite_at pre post T _ 0 hpre
  · intro hs1 k hno
    subst hs1
    obtain ⟨pre, post, hsplit⟩ := List.append_of_mem (hstay k)
    refine ⟨pre, post, hsplit, ?_⟩
    simp only [Node.ticks]
    rw [(calculateMove_fields (Node.ticks k (nd.move T (-1)))).1,
      (tickFrom_no_erase _ _ 0 hno).1, hsplit, applyEntries_append]
    simp [applyEntries]

/-- C14: `resetMove()` empties the pending list and clears `isMoving()` while
keeping the local matrix, the children and the parent; afterwards any number
`k` of `calculateMove()` calls leaves the local matrix unchanged and
`isMoving()` false. -/
theorem resetMove_effect (nd : Node R) (k : Nat) :
    nd.resetMove.m_pending = [] ∧ nd.resetMove.m_isMoving = false ∧
      nd.resetMove.m_matrix = nd.m_matrix ∧
      nd.resetMove.m_children = nd.m_children ∧
      nd.resetMove.m_parent = nd.m_parent ∧
      (Node.ticks k nd.resetMove).m_matrix = nd.m_matrix ∧
      (Node.ticks k nd.resetMove).m_isMoving = false ∧
      (Node.ticks k nd.resetMove).m_pending = [] := by
  have hidle := ticks_idle nd.resetMove rfl rfl k
  rw [hidle]
  exact ⟨rfl, rfl, rfl, rfl, rfl, rfl, rfl, rfl⟩

end DrainClaims

section DrainWitnesses

theorem stepY_ne_stepX : ¬ (stepY = stepX) := by
  intro h
  have := congrFun (congrFun h 0) 3
  simp [stepX, stepY, translate_one_apply] at this

theorem drainNode_pending :
    drainNode.m_pending = [(stepX, 2), (stepY, -1), (stepX, 0)] := by
  simp [drainNode, Node.move, Node.new, stepY_ne_stepX]

theorem move_isMoving {R : Type} [CommRing R] [DecidableEq R] (nd : Node R) (T : Mat4 R)
    (s : Int) : (nd.move T s).m_isMoving = true := by
  simp only [Node.move]
  split_ifs <;> rfl

theorem drainNode_isMoving : drainNode.m_isMoving = true :=
  move_isMoving _ _ _

theorem drainNode_matrix : drainNode.m_matrix = 1 := by
  simp [drainNode, Node.move, Node.new, stepY_ne_stepX]

theorem drainNode_tick1 :
    drainNode.calculateMove.m_pending = [(stepX, 1), (stepY, -1)] ∧
      drainNode.calculateMove.m_matrix = stepY * stepX ∧
      drainNode.calculateMove.m_isMoving = true := by
  obtain ⟨h1, h2, h3⟩ := calculateMove_fields drainNode
  rw [drainNode_pending, drainNode_matrix] at h1 h2 h3
  rw [h1, h2, h3, drainNode_isMoving]
  simp [tickFrom]

theorem drainNode_tick2 :
    drainNode.calculateMove.calculateMove.m_pending = [(stepY, -1)] ∧
      drainNode.calculateMove.calculateMove.m_matrix = stepX * (stepY * stepX) ∧
      drainNode.calculateMove.calculateMove.m_isMoving = true := by
  obtain ⟨h1, h2, h3⟩ := calculateMove_fields drainNode.calculateMove
  obtain ⟨p1, p2, p3⟩ := drainNode_tick1
  rw [p1, p2] at h1 h2 h3
  rw [h1, h2, h3, p3]
  simp [tickFrom]

theorem drainNode_tick3 :
    drainNode.calculateMove.calculateMove.calculateMove.m_pending = [(stepY, -1)] ∧
      drainNode.calculateMove.calculateMove.calculateMove.m_matrix =
        stepY * (stepX * (stepY * stepX)) ∧
      drainNode.calculateMove.calculateMove.calculateMove.m_isMoving = false := by
  obtain ⟨h1, h2, h3⟩ := calculateMove_fields drainNode.calculateMove.calculateMove
  obtain ⟨p1, p2, p3⟩ := drainNode_tick2
  rw [p1, p2] at h1 h2 h3
  rw [h1, h2, h3]
  simp [tickFrom]

theorem drainNode_drain :
    drain 6 drainNode = some drainNode.calculateMove.calculateMove.calculateMove := by
  simp [drain, drainNode_isMoving, drainNode_tick1.2.2, drainNode_tick2.2.2,
    drainNode_tick3.2.2]

/-- Witness for C11: the node with the entries `(stepX, 2), (stepY, -1),
(stepX, 0)` is drained within 6 loop tests, keeps only its infinite entry and
has `stepX` applied exactly twice; its local matrix is
`stepY * stepX * stepY * stepX`. -/
theorem drain_terminates_witness :
    (∀ e ∈ drainNode.m_pending, 0 ≤ e.2 ∨ e.2 = -1) ∧ drainNode.m_isMoving = true ∧
      ∃ res : Node ℤ, drain 6 drainNode = some res ∧ res.m_isMoving = false ∧
        (∀ e ∈ res.m_pending, ¬ (0 ≤ e.2)) ∧
        res.m_matrix = stepY * (stepX * (stepY * stepX)) ∧
        ∃ log : List (Mat4 ℤ × Bool),
          res.m_matrix = (log.map Prod.fst).prod * drainNode.m_matrix ∧
          (finiteApplications log).Perm [stepX, stepX] := by
  have hvalid : ∀ e ∈ drainNode.m_pending, 0 ≤ e.2 ∨ e.2 = -1 := by
    rw [drainNode_pending]
    intro e he
    simp only [List.mem_cons, List.mem_singleton, List.not_mem_nil, or_false] at he
    rcases he with rfl | rfl | rfl <;> simp
  obtain ⟨res, h1, h2, h3, -, log, h5, h6, -⟩ :=
    drain_terminates drainNode hvalid drainNode_isMoving
  have h6res : drain 6 drainNode = some res := by
    apply h1
    rw [drainNode_pending]
    simp [pendingWork]
  have hres : res = drainNode.calculateMove.calculateMove.calculateMove := by
    rw [drainNode_drain] at h6res
    exact (Option.some.inj h6res).symm
  refine ⟨hvalid, drainNode_isMoving, res, h6res, h2, h3, ?_, log, h5, ?_⟩
  · rw [hres]
    exact drainNode_tick3.2.1
  · rw [drainNode_pending] at h6
    simpa [scheduled] using h6

/-- C12 fails on the code: after `move(stepX, 10)` and `stopMove()` the node is
paused (`isMoving()` is false, the entry `(stepX, 10)` is pending), yet one
`calculateMove()` multiplies the local matrix by `stepX` and lowers the
remaining count to 9. -/
theorem calculateMove_ignores_pause :
    pausedNode.m_isMoving = false ∧ pausedNode.m_pending = [(stepX, 10)] ∧
      pausedNode.calculateMove.m_pending = [(stepX, 9)] ∧
      pausedNode.calculateMove.m_matrix = stepX * pausedNode.m_matrix ∧
      pausedNode.calculateMove.m_matrix ≠ pausedNode.m_matrix := by
  have hp : pausedNode.m_pending = [(stepX, 10)] := by
    simp [pausedNode, Node.stopMove, Node.move, Node.new]
  have hmat : pausedNode.m_matrix = 1 := by
    simp [pausedNode, Node.stopMove, Node.move, Node.new]
  have hm : pausedNode.calculateMove.m_matrix = stepX * pausedNode.m_matrix := by
    rw [calculateMove_eq, hp]
    simp [tickFrom]
  refine ⟨by simp [pausedNode, Node.stopMove], hp, ?_, hm, ?_⟩
  · rw [calculateMove_eq, hp]
    simp [tickFrom]
  · rw [hm, hmat]
    intro h
    have := congrFun (congrFun h 0) 3
    simp [stepX, translate_one_apply] at this

/-- C13 as stated fails: `move(stepX, -2)` on a new node queues the entry
`(stepX, -2)`, not an entry with the sentinel -1, and the following
`calculateMove()` does not apply `stepX` to the local matrix. -/
theorem move_negative_not_sentinel :
    deadEntryNode.m_pending = [(stepX, -2)] ∧
      deadEntryNode.m_pending ≠ [(stepX, -1)] ∧
      deadEntryNode.calculateMove.m_matrix = deadEntryNode.m_matrix ∧
      deadEntryNode.calculateMove.m_matrix ≠ stepX * deadEntryNode.m_matrix := by
  have hp : deadEntryNode.m_pending = [(stepX, -2)] := by
    simp [deadEntryNode, Node.move, Node.new]
  have hmat : deadEntryNode.m_matrix = 1 := by
    simp [deadEntryNode, Node.move, Node.new]
  have hm : deadEntryNode.calculateMove.m_matrix = deadEntryNode.m_matrix := by
    rw [calculateMove_eq, hp]
    simp [tickFrom]
  refine ⟨hp, ?_, hm, ?_⟩
  · rw [hp]
    simp
  · rw [hm, hmat]
    intro h
    have := congrFun (congrFun h 0) 3
    simp [stepX, translate_one_apply] at this

/-- Witness for the amended C13: `move(stepX, -1)` on the node with the pending
entries `(stepX, 1), (stepY, 2)`.  The first tick erases the first entry and
passes over the second, which is therefore not erased, so the infinite entry is
applied: the local matrix becomes `stepX * stepX`. -/
theorem move_negative_steps_witness :
    ((-1 : Int) < 0) ∧ (∀ e ∈ twoMovesNode.m_pending, ¬ (e.1 = stepX ∧ e.2 = -1)) ∧
      (twoMovesNode.move stepX (-1)).m_pending = [(stepX, 1), (stepY, 2), (stepX, -1)] ∧
      (stepX, -1) ∈ (Node.ticks 3 (twoMovesNode.move stepX (-1))).m_pending ∧
      erasesLast [(stepX, 1), (stepY, 2)] = false ∧
      (twoMovesNode.move stepX (-1)).calculateMove.m_matrix = stepX * stepX := by
  have hnew : ∀ e ∈ twoMovesNode.m_pending, ¬ (e.1 = stepX ∧ e.2 = -1) := by
    intro e he
    rw [twoMovesNode_pending] at he
    simp only [List.mem_cons, List.mem_singleton, List.not_mem_nil, or_false] at he
    rcases he with rfl | rfl <;> simp
  have key := move_negative_steps twoMovesNode stepX (-1) (by decide) hnew
  have hp : (twoMovesNode.move stepX (-1)).m_pending =
      [(stepX, 1), (stepY, 2), (stepX, -1)] := by
    rw [key.1, twoMovesNode_pending]; rfl
  have hm : (twoMovesNode.move stepX (-1)).m_matrix = 1 := by
    simp [twoMovesNode, Node.move, Node.new]
  have hpre : erasesLast [(stepX, 1), (stepY, 2)] = false := by
    simp [erasesLast]
  refine ⟨by decide, hnew, hp, key.2.1 3, hpre, ?_⟩
  rw [key.2.2.2.1 rfl (twoMovesNode.move stepX (-1)) [(stepX, 1), (stepY, 2)] [] hp hpre]
  simp [hm, tickFrom]

end DrainWitnesses

/-! ## Object ids and light slots -/

section IdLemmas

theorem modifyAt_length {α : Type} (f : α → α) : ∀ (i : Nat) (l : List α),
    (modifyAt f i l).length = l.length := by
  intro i l
  induction l generalizing i with
  | nil => cases i <;> rfl
  | cons x xs ih =>
    cases i with
    | zero => rfl
    | succ i => simp [modifyAt, ih]

theorem modifyAt_map {α β : Type} (f : α → α) (g : α → β) (hfg : ∀ a, g (f a) = g a) :
    ∀ (i : Nat) (l : List α), (modifyAt f i l).map g = l.map g := by
  intro i l
  induction l generalizing i with
  | nil => cases i <;> rfl
  | cons x xs ih =>
    cases i with
    | zero => simp [modifyAt, hfg]
    | succ i => simp [modifyAt, ih]

/-- The ids handed out so far are the counter values `1, 2, ...` reduced modulo
`2^32`, and the counter is the next of them. -/
theorem ObjectWorld.ids_foldl (calls : List ObjectCall) :
    ∀ w : ObjectWorld,
      w.ids = (List.range w.objects.length).map (fun k => (k + 1) % 2 ^ 32) →
      w.next_uid = (w.objects.length + 1) % 2 ^ 32 →
      (calls.foldl ObjectWorld.step w).ids =
          (List.range (calls.foldl ObjectWorld.step w).objects.length).map
            (fun k => (k + 1) % 2 ^ 32) ∧
        (calls.foldl ObjectWorld.step w).next_uid =
          ((calls.foldl ObjectWorld.step w).objects.length + 1) % 2 ^ 32 := by
  induction calls with
  | nil => intro w h1 h2; exact ⟨h1, h2⟩
  | cons call calls ih =>
    intro w h1 h2
    simp only [List.foldl_cons]
    apply ih
    · cases call with
      | construct name =>
        simp only [ObjectWorld.step, ObjectWorld.ids, List.map_append, List.length_append,
          List.length_singleton, List.map_cons, List.map_nil, List.range_succ]
        simp only [ObjectWorld.ids] at h1
        rw [h1, h2]
      | destroy i =>
        simp only [ObjectWorld.step, ObjectWorld.ids, modifyAt_length]
        rw [modifyAt_map (fun o : Object × Bool => (o.1, false)) (fun o => o.1.uid)
          (fun _ => rfl)]
        exact h1
      | setName i newName =>
        simp only [ObjectWorld.step, ObjectWorld.ids, modifyAt_length]
        rw [modifyAt_map (fun o : Object × Bool => ({ o.1 with name := newName }, o.2))
          (fun o => o.1.uid) (fun _ => rfl)]
        exact h1
    · cases call with
      | construct name =>
        simp only [ObjectWorld.step, List.length_append, List.length_singleton]
        rw [h2]
        simp
      | destroy i => simpa [ObjectWorld.step, modifyAt_length] using h2
      | setName i newName => simpa [ObjectWorld.step, modifyAt_length] using h2

theorem ObjectWorld.ids_run (calls : List ObjectCall) :
    (ObjectWorld.run calls).ids =
      (List.range (ObjectWorld.run calls).objects.length).map (fun k => (k + 1) % 2 ^ 32) :=
  (ObjectWorld.ids_foldl calls ObjectWorld.init rfl rfl).1

end IdLemmas

section IdClaims

theorem ObjectWorld.length_foldl (calls : List ObjectCall) :
    ∀ w : ObjectWorld,
      (calls.foldl ObjectWorld.step w).objects.length =
        w.objects.length + constructions calls := by
  induction calls with
  | nil => intro w; simp [constructions]
  | cons call calls ih =>
    intro w
    simp only [List.foldl_cons]
    rw [ih]
    cases call with
    | construct name =>
      simp [ObjectWorld.step, constructions, List.countP_cons]
      omega
    | destroy i => simp [ObjectWorld.step, constructions, List.countP_cons, modifyAt_length]
    | setName i newName =>
      simp [ObjectWorld.step, constructions, List.countP_cons, modifyAt_length]

theorem ObjectWorld.length_run (calls : List ObjectCall) :
    (ObjectWorld.run calls).objects.length = constructions calls := by
  have := ObjectWorld.length_foldl calls ObjectWorld.init
  simpa [ObjectWorld.run, ObjectWorld.init] using this

/-- C19: every construction hands the new object the current value of the
counter, which starts at 1 and grows by 1 (wrapping at `2^32`); destruction and
`setName` change no id.  Hence, after any sequence of calls with fewer than
`2^32` constructions, the ids of the objects ever constructed (alive or
destroyed) are `1, 2, ..., n` in construction order: strictly increasing and
pairwise different, so no id is reused. -/
theorem object_ids_unique (calls : List ObjectCall)
    (hbound : constructions calls < 2 ^ 32) :
    ObjectWorld.init.next_uid = 1 ∧
      (∀ (w : ObjectWorld) (name : String),
        (w.step (.construct name)).ids = w.ids ++ [w.next_uid] ∧
        (w.step (.construct name)).next_uid = (w.next_uid + 1) % 2 ^ 32) ∧
      (∀ (w : ObjectWorld) (i : Nat),
        (w.step (.destroy i)).ids = w.ids ∧ (w.step (.destroy i)).next_uid = w.next_uid) ∧
      (∀ (w : ObjectWorld) (i : Nat) (newName : String),
        (w.step (.setName i newName)).ids = w.ids ∧
        (w.step (.setName i newName)).next_uid = w.next_uid) ∧
      (ObjectWorld.run calls).ids = List.range' 1 (constructions calls) ∧
      (ObjectWorld.run calls).ids.Pairwise (fun a b => a < b) ∧
      (ObjectWorld.run calls).ids.Nodup := by
  have hids : (ObjectWorld.run calls).ids = List.range' 1 (constructions calls) := by
    rw [ObjectWorld.ids_run, ObjectWorld.length_run, List.range'_eq_map_range]
    apply List.map_congr_left
    intro k hk
    have hk' : k < constructions calls := List.mem_range.1 hk
    rw [Nat.mod_eq_of_lt (by omega)]
    omega
  refine ⟨rfl, ?_, ?_, ?_, hids, ?_, ?_⟩
  · intro w name
    simp [ObjectWorld.step, ObjectWorld.ids]
  · intro w i
    refine ⟨?_, rfl⟩
    simp only [ObjectWorld.step, ObjectWorld.ids]
    exact modifyAt_map (fun o : Object × Bool => (o.1, false)) (fun o => o.1.uid)
      (fun _ => rfl) i w.objects
  · intro w i newName
    refine ⟨?_, rfl⟩
    simp only [ObjectWorld.step, ObjectWorld.ids]
    exact modifyAt_map (fun o : Object × Bool => ({ o.1 with name := newName }, o.2))
      (fun o => o.1.uid) (fun _ => rfl) i w.objects
  · rw [hids]
    exact List.pairwise_lt_range' 1 (constructions calls)
  · rw [hids]
    exact List.nodup_range' 1 (constructions calls)

/-- Witness for C19 on `testObjectCreation` extended by a `setName` and a
third construction after both deletions: the ids are 1, 2, 3. -/
theorem object_ids_unique_witness :
    constructions [.construct "Node1", .construct "Node2", .setName 1 "Renamed",
        .destroy 0, .destroy 1, .construct "Node3"] < 2 ^ 32 ∧
      (ObjectWorld.run [.construct "Node1", .construct "Node2", .setName 1 "Renamed",
        .destroy 0, .destroy 1, .construct "Node3"]).ids = [1, 2, 3] := by
  have hb : constructions [.construct "Node1", .construct "Node2", .setName 1 "Renamed",
      .destroy 0, .destroy 1, .construct "Node3"] < 2 ^ 32 := by decide
  refine ⟨hb, ?_⟩
  rw [(object_ids_unique _ hb).2.2.2.2.1]
  decide

/-- C20 fails on the code: construct two lights (slots 1 and 2), destroy the
first (the counter drops from 3 to 2), construct a third: it is allocated slot
2, which the second light, still alive, already holds. -/
theorem light_slot_reused :
    (LightWorld.run [.construct, .construct, .destroy 0, .construct]).live =
        [some 2, some 2] ∧
      ¬ (LightWorld.run [.construct, .construct, .destroy 0, .construct]).slots.Nodup := by
  decide

end IdClaims

/-! ## Search by name -/

section GetChildLemmas

variable {R : Type}

theorem getChildDirect_eq_find (h : Heap R) (name : String) (cs : List Nat) :
    getChildDirect h name cs = cs.find? (fun c => decide ((h c).name = name)) := by
  induction cs with
  | nil => rfl
  | cons c cs ih =>
    by_cases hc : (h c).name = name
    · simp [getChildDirect, hc]
    · simp [getChildDirect, hc, ih]

theorem getChildRecurse_eq_findSome (rec : Nat → Option (Option Nat)) (sub : Nat → Option Nat)
    (cs : List Nat) (hrec : ∀ c ∈ cs, rec c = some (sub c)) :
    getChildRecurse rec cs = some (cs.findSome? sub) := by
  induction cs with
  | nil => rfl
  | cons c cs ih =>
    have hc := hrec c (by simp)
    have ih' := ih (fun c' hc' => hrec c' (by simp [hc']))
    cases hsub : sub c with
    | none =>
      rw [hsub] at hc
      simp [getChildRecurse, hc, ih', hsub]
    | some r =>
      rw [hsub] at hc
      simp [getChildRecurse, hc, hsub]

/-- On a subtree of height at most `d` the search returns, and every larger
recursion bound gives the same result. -/
theorem getChild_returns (h : Heap R) (name : String) :
    ∀ (d p : Nat), HeightLe h d p →
      ∃ r : Option Nat, ∀ fuel, d ≤ fuel → getChild fuel h p name = some r := by
  intro d
  induction d with
  | zero => intro p hp; exact absurd hp id
  | succ d ih =>
    intro p hp
    have hsub : ∀ c ∈ (h p).m_children,
        ∃ r : Option Nat, ∀ fuel, d ≤ fuel → getChild fuel h c name = some r :=
      fun c hc => ih c (hp c hc)
    let sub : Nat → Option Nat := fun c => (getChild d h c name).join
    have hsub' : ∀ c ∈ (h p).m_children, ∀ fuel, d ≤ fuel →
        getChild fuel h c name = some (sub c) := by
      intro c hc fuel hfuel
      obtain ⟨r, hr⟩ := hsub c hc
      have h1 := hr d (le_refl d)
      simp only [sub, h1, Option.join]
      exact hr fuel hfuel
    refine ⟨getChildSpec h name sub p, ?_⟩
    intro fuel hfuel
    obtain ⟨g, rfl⟩ : ∃ g, fuel = g + 1 := ⟨fuel - 1, by omega⟩
    simp only [getChild, getChildSpec, getChildDirect_eq_find]
    cases hfind : (h p).m_children.find? (fun c => decide ((h c).name = name)) with
    | some c => rfl
    | none =>
      simp only
      exact getChildRecurse_eq_findSome _ sub _
        (fun c hc => hsub' c hc g (by omega))

end GetChildLemmas

section GetChildClaims

variable {R : Type}

/-- One level of the search on a finite subtree, for every sufficient recursion
bound: the result is the one described by `getChildSpec` from the results on
the children. -/
theorem getChild_eq_spec (h : Heap R) (name : String) (d p : Nat)
    (hp : HeightLe h (d + 1) p) (fuel : Nat) (hfuel : d + 1 ≤ fuel) :
    getChild fuel h p name =
        some (getChildSpec h name (fun c => (getChild fuel h c name).join) p) ∧
      ∀ c ∈ (h p).m_children,
        getChild fuel h c name = getChild d h c name ∧ (getChild d h c name).isSome := by
  have hsub : ∀ c ∈ (h p).m_children, ∀ g, d ≤ g →
      getChild g h c name = getChild d h c name ∧ (getChild d h c name).isSome := by
    intro c hc g hg
    obtain ⟨r, hr⟩ := getChild_returns h name d c (hp c hc)
    rw [hr g hg, hr d (le_refl d)]
    exact ⟨rfl, rfl⟩
  refine ⟨?_, fun c hc => hsub c hc fuel (by omega)⟩
  have key : ∀ sub : Nat → Option Nat,
      (∀ c ∈ (h p).m_children, ∀ g, d ≤ g → getChild g h c name = some (sub c)) →
      getChild fuel h p name = some (getChildSpec h name sub p) := by
    intro sub hsubeq
    obtain ⟨g, rfl⟩ : ∃ g, fuel = g + 1 := ⟨fuel - 1, by omega⟩
    simp only [getChild, getChildSpec, getChildDirect_eq_find]
    cases hfind : (h p).m_children.find? (fun c => decide ((h c).name = name)) with
    | some c => rfl
    | none =>
      simp only
      exact getChildRecurse_eq_findSome _ sub _ (fun c hc => hsubeq c hc g (by omega))
  apply key
  intro c hc g hg
  obtain ⟨h1, h2⟩ := hsub c hc g hg
  obtain ⟨h3, -⟩ := hsub c hc fuel (by omega)
  rw [h1, h3]
  obtain ⟨r, hr⟩ := Option.isSome_iff_exists.1 h2
  rw [hr]
  rfl

/-- C16: on a finite subtree (height at most `d`, recursion bound at least
`d`) `getChild(name)` on `p` returns; if some direct child of `p` has exactly
that name the result is the first such child in child order, whatever the
subtrees of earlier children contain; otherwise the result is the first
non-null result of `getChild(name)` on the children of `p`, in child order. -/
theorem getChild_first_match (h : Heap R) (name : String) (d p fuel : Nat)
    (htree : HeightLe h d p) (hfuel : d ≤ fuel) :
    ∃ r : Option Nat, getChild fuel h p name = some r ∧
      (∀ c, (h p).m_children.find? (fun c => decide ((h c).name = name)) = some c →
        r = some c) ∧
      ((h p).m_children.find? (fun c => decide ((h c).name = name)) = none →
        r = (h p).m_children.findSome? (fun c => (getChild fuel h c name).join)) := by
  cases d with
  | zero => exact absurd htree id
  | succ d =>
    obtain ⟨hspec, -⟩ := getChild_eq_spec h name d p htree fuel hfuel
    refine ⟨_, hspec, ?_, ?_⟩
    · intro c hc
      simp only [getChildSpec, hc]
    · intro hnone
      simp only [getChildSpec, hnone]

theorem getChild_sound_aux (h : Heap R) (name : String) :
    ∀ (d p : Nat), HeightLe h d p → ∀ r, getChild d h p name = some r →
      (r = none ↔ ¬ ∃ x, Descendant h p x ∧ (h x).name = name) ∧
        ∀ x, r = some x → Descendant h p x ∧ (h x).name = name := by
  intro d
  induction d with
  | zero => intro p hp; exact absurd hp id
  | succ d ih =>
    intro p hp r hr
    obtain ⟨hspec, hsub⟩ := getChild_eq_spec h name d p hp (d + 1) (le_refl _)
    rw [hspec] at hr
    have hr' := (Option.some.inj hr).symm
    have hchild : ∀ c ∈ (h p).m_children,
        ((getChild (d + 1) h c name).join = none ↔
            ¬ ∃ x, Descendant h c x ∧ (h x).name = name) ∧
          ∀ x, (getChild (d + 1) h c name).join = some x →
            Descendant h c x ∧ (h x).name = name := by
      intro c hc
      obtain ⟨h1, h2⟩ := hsub c hc
      obtain ⟨rc, hrc⟩ := Option.isSome_iff_exists.1 h2
      have := ih c (hp c hc) rc hrc
      rw [h1, hrc]
      exact this
    simp only [getChildSpec] at hr'
    cases hfind : (h p).m_children.find? (fun c => decide ((h c).name = name)) with
    | some c =>
      rw [hfind] at hr'
      simp only at hr'
      have hmem := List.mem_of_find?_eq_some hfind
      have hname : (h c).name = name := by simpa using List.find?_some hfind
      constructor
      · constructor
        · intro hnone; rw [hnone] at hr'; cases hr'
        · intro hno; exact absurd ⟨c, Descendant.child hmem, hname⟩ hno
      · intro x hx
        rw [hr'] at hx
        cases hx
        exact ⟨Descendant.child hmem, hname⟩
    | none =>
      rw [hfind] at hr'
      simp only at hr'
      have hdirect : ∀ c ∈ (h p).m_children, ¬ (h c).name = name := by
        simpa using List.find?_eq_none.1 hfind
      constructor
      · constructor
        · intro hnone
          rw [hnone] at hr'
          have hall := List.findSome?_eq_none_iff.1 hr'.symm
          rintro ⟨x, hx, hxname⟩
          cases hx with
          | child hc => exact hdirect x hc hxname
          | step hc hcx => exact ((hchild _ hc).1.1 (hall _ hc)) ⟨x, hcx, hxname⟩
        · intro hno
          cases hrr : r with
          | none => rfl
          | some x =>
            rw [hrr] at hr'
            obtain ⟨c, hc, hcx⟩ := List.exists_of_findSome?_eq_some hr'.symm
            obtain ⟨h1, h2⟩ := (hchild c hc).2 x hcx
            exact absurd ⟨x, Descendant.step hc h1, h2⟩ hno
      · intro x hx
        rw [hx] at hr'
        obtain ⟨c, hc, hcx⟩ := List.exists_of_findSome?_eq_some hr'.symm
        obtain ⟨h1, h2⟩ := (hchild c hc).2 x hcx
        exact ⟨Descendant.step hc h1, h2⟩

/-- C17: on a finite subtree (height at most `d`, recursion bound at least
`d`) `getChild(name)` on `p` returns; it returns null exactly when no proper
descendant of `p` has that name, and a node it returns is a proper descendant
of `p` with that name. -/
theorem getChild_null_iff (h : Heap R) (name : String) (d p fuel : Nat)
    (htree : HeightLe h d p) (hfuel : d ≤ fuel) :
    ∃ r : Option Nat, getChild fuel h p name = some r ∧
      (r = none ↔ ¬ ∃ x, Descendant h p x ∧ (h x).name = name) ∧
      ∀ x, r = some x → Descendant h p x ∧ (h x).name = name := by
  obtain ⟨r, hr⟩ := getChild_returns h name d p htree
  exact ⟨r, hr fuel hfuel, getChild_sound_aux h name d p htree r (hr d (le_refl d))⟩

end GetChildClaims

section GetChildWitnesses

/-- Witness for C16: the second child of the root, named "X", is returned
although the subtree of the first child also contains a node named "X". -/
theorem getChild_first_match_witness :
    HeightLe shadowedNameHeap 3 0 ∧ getChild 3 shadowedNameHeap 0 "X" = some (some 2) := by
  have ht : HeightLe shadowedNameHeap 3 0 := by decide
  obtain ⟨r, hr, h1, -⟩ := getChild_first_match shadowedNameHeap "X" 3 0 3 ht (le_refl 3)
  refine ⟨ht, ?_⟩
  rw [hr, h1 2 (by decide)]

/-- Witness for C17 on `testComplexSceneGraph`: `getChild("Torch")` on the root
returns a node, a proper descendant named "Torch". -/
theorem getChild_null_iff_witness :
    HeightLe sceneHeap 4 0 ∧
      ∃ x, getChild 4 sceneHeap 0 "Torch" = some (some x) ∧ Descendant sceneHeap 0 x ∧
        (sceneHeap x).name = "Torch" := by
  have ht : HeightLe sceneHeap 4 0 := by decide
  obtain ⟨r, hr, h1, h2⟩ := getChild_null_iff sceneHeap "Torch" 4 0 4 ht (le_refl 4)
  have hex : ∃ x, Descendant sceneHeap 0 x ∧ (sceneHeap x).name = "Torch" :=
    ⟨8, Descendant.step (c := 2) (by decide)
      (Descendant.step (c := 5) (by decide) (Descendant.child (by decide))), by decide⟩
  cases hrr : r with
  | none => exact absurd hex (h1.1 hrr)
  | some x => exact ⟨ht, x, by rw [hr, hrr], h2 x hrr⟩

end GetChildWitnesses

/-! ## Render-list pass -/

section ShapeLemmas

variable {R : Type}

theorem SameShape.refl (h : Heap R) : SameShape h h := fun _ => ⟨rfl, rfl⟩

theorem SameShape.trans {h1 h2 h3 : Heap R} (h12 : SameShape h1 h2) (h23 : SameShape h2 h3) :
    SameShape h1 h3 :=
  fun x => ⟨(h23 x).1.trans (h12 x).1, (h23 x).2.trans (h12 x).2⟩

theorem SameShape.symm {h1 h2 : Heap R} (h12 : SameShape h1 h2) : SameShape h2 h1 :=
  fun x => ⟨(h12 x).1.symm, (h12 x).2.symm⟩

theorem SameShape.heightLe {h h' : Heap R} (hs : SameShape h h') :
    ∀ (d x : Nat), HeightLe h d x → HeightLe h' d x := by
  intro d
  induction d with
  | zero => intro x hx; exact hx
  | succ d ih =>
    intro x hx c hc
    rw [(hs x).2] at hc
    exact ih c (hx c hc)

theorem preorderForest_congr (f g : Nat → List Nat) (cs : List Nat)
    (hfg : ∀ c ∈ cs, f c = g c) : preorderForest f cs = preorderForest g cs := by
  induction cs with
  | nil => rfl
  | cons c cs ih =>
    simp only [preorderForest]
    rw [hfg c (by simp), ih (fun c' hc' => hfg c' (by simp [hc']))]

theorem SameShape.preorder {h h' : Heap R} (hs : SameShape h h') :
    ∀ (d x : Nat), preorder d h' x = preorder d h x := by
  intro d
  induction d with
  | zero => intro x; rfl
  | succ d ih =>
    intro x
    simp only [Eng.preorder]
    rw [(hs x).2]
    rw [preorderForest_congr _ _ _ (fun c _ => ih c)]

theorem SameShape.ancestorChain {h h' : Heap R} (hs : SameShape h h') :
    ∀ (as : List Nat) (x : Nat), AncestorChain h x as → AncestorChain h' x as := by
  intro as
  induction as with
  | nil =>
    intro x hx
    have : (h x).m_parent = none := hx
    show (h' x).m_parent = none
    rw [(hs x).1, this]
  | cons a as ih =>
    intro x hx
    have h1 : (h x).m_parent = some a := hx.1
    refine ⟨?_, ih a hx.2⟩
    rw [(hs x).1, h1]

theorem SameShape.wellFormed {h h' : Heap R} (hs : SameShape h h') (hwf : WellFormed h) :
    WellFormed h' where
  parent_of_child := by
    intro p c hc
    rw [(hs p).2] at hc
    rw [(hs c).1]
    exact hwf.parent_of_child p c hc
  nodup_children := by
    intro p
    rw [(hs p).2]
    exact hwf.nodup_children p

theorem calculateMove_shape [CommRing R] (nd : Node R) :
    nd.calculateMove.m_parent = nd.m_parent ∧ nd.calculateMove.m_children = nd.m_children := by
  simp only [Node.calculateMove]
  split_ifs <;> exact ⟨rfl, rfl⟩

theorem SameShape.tick [CommRing R] (h : Heap R) (x : Nat) :
    SameShape h (Function.update h x (h x).calculateMove) := by
  intro y
  by_cases hy : y = x
  · subst hy
    simp only [Function.update_same]
    exact calculateMove_shape (h y)
  · rw [Function.update_noteq hy]
    exact ⟨rfl, rfl⟩

theorem world_returns [CommRing R] (h : Heap R) :
    ∀ (as : List Nat) (x : Nat), AncestorChain h x as → ∀ fuel, as.length < fuel →
      ∃ w, getWorldCoordinateMatrix fuel h x = some w := by
  intro as
  induction as with
  | nil =>
    intro x hchain fuel hfuel
    obtain ⟨f, rfl⟩ : ∃ f, fuel = f + 1 := ⟨fuel - 1, by simp at hfuel; omega⟩
    have hp : (h x).m_parent = none := hchain
    exact ⟨getMatrix h x, by simp [getWorldCoordinateMatrix, hp]⟩
  | cons a as ih =>
    intro x hchain fuel hfuel
    obtain ⟨f, rfl⟩ : ∃ f, fuel = f + 1 := ⟨fuel - 1, by simp at hfuel; omega⟩
    have hp : (h x).m_parent = some a := hchain.1
    obtain ⟨w, hw⟩ := ih a hchain.2 f (by simp at hfuel; omega)
    exact ⟨translate 1 (column3 w) * (h x).m_matrix,
      by simp [getWorldCoordinateMatrix, hp, hw]⟩

theorem descendant_iff (h : Heap R) (x y : Nat) :
    Descendant h x y ↔ ∃ c ∈ (h x).m_children, y = c ∨ Descendant h c y := by
  constructor
  · intro hd
    cases hd with
    | child hc => exact ⟨y, hc, Or.inl rfl⟩
    | step hc hcy => exact ⟨_, hc, Or.inr hcy⟩
  · rintro ⟨c, hc, rfl | hcy⟩
    · exact Descendant.child hc
    · exact Descendant.step hc hcy

theorem mem_preorderForest (f : Nat → List Nat) (cs : List Nat) (y : Nat) :
    y ∈ preorderForest f cs ↔ ∃ c ∈ cs, y ∈ f c := by
  induction cs with
  | nil => simp [preorderForest]
  | cons c cs ih => simp [preorderForest, ih]

/-- On a finite subtree the pre-order sequence lists exactly the node and its
proper descendants. -/
theorem mem_preorder (h : Heap R) :
    ∀ (d x : Nat), HeightLe h d x → ∀ y, y ∈ preorder d h x ↔ y = x ∨ Descendant h x y := by
  intro d
  induction d with
  | zero => intro x hx; exact absurd hx id
  | succ d ih =>
    intro x hx y
    simp only [preorder, List.mem_cons, mem_preorderForest]
    rw [descendant_iff]
    constructor
    · rintro (rfl | ⟨c, hc, hy⟩)
      · exact Or.inl rfl
      · exact Or.inr ⟨c, hc, (ih c (hx c hc) y).1 hy⟩
    · rintro (rfl | ⟨c, hc, hy⟩)
      · exact Or.inl rfl
      · exact Or.inr ⟨c, hc, (ih c (hx c hc) y).2 hy⟩

end ShapeLemmas

section PassLoopLemmas

variable {R : Type}

theorem isMesh_of_isLight (k : NodeKind) (hk : k.isLight = true) : k.isMesh = false := by
  cases k <;> simp_all [NodeKind.isLight, NodeKind.isMesh]

theorem passChildren_acc (kind : Nat → NodeKind) (rec : Nat → PassState R → Option (PassState R))
    (seqOf : Nat → List Nat) (h : Heap R) :
    ∀ (cs : List Nat),
      (∀ c ∈ cs, ∀ (h1 : Heap R) (L1 : RenderList R), SameShape h h1 →
        PassAcc kind (seqOf c) h1 L1 (rec c { heap := h1, lists := L1 })) →
      ∀ (h1 : Heap R) (L1 : RenderList R), SameShape h h1 →
        PassAcc kind (preorderForest seqOf cs) h1 L1
          (passChildren rec cs { heap := h1, lists := L1 }) := by
  intro cs
  induction cs with
  | nil =>
    intro _ h1 L1 _
    refine ⟨h1, [], [], ?_, SameShape.refl h1, rfl, rfl⟩
    simp [passChildren]
  | cons c cs ih =>
    intro hrec h1 L1 hs1
    obtain ⟨h2, l1, m1, hr1, hs2, hl1, hm1⟩ := hrec c (by simp) h1 L1 hs1
    obtain ⟨h3, l2, m2, hr2, hs3, hl2, hm2⟩ :=
      ih (fun c' hc' => hrec c' (by simp [hc'])) h2
        { list := l1.reverse ++ L1.list ++ m1
          lightList := L1.lightList ++ l1
          meshList := L1.meshList ++ m1 } (hs1.trans hs2)
    refine ⟨h3, l1 ++ l2, m1 ++ m2, ?_, hs2.trans hs3, ?_, ?_⟩
    · simp only [passChildren, hr1, hr2]
      simp [List.append_assoc]
    · simp [preorderForest, hl1, hl2]
    · simp [preorderForest, hm1, hm2]

end PassLoopLemmas

section PassLemmas

variable {R : Type} [CommRing R]

theorem pass_acc (kind : Nat → NodeKind) (wfuel : Nat) :
    ∀ (d root : Nat) (h : Heap R) (L : RenderList R) (as : List Nat) (A : Mat4 R)
      (fuel : Nat),
      HeightLe h d root → WellFormed h → AncestorChain h root as →
      as.length + d ≤ wfuel → d ≤ fuel →
      PassAcc kind (preorder d h root) h L
        (pass kind wfuel fuel { heap := h, lists := L } root A) := by
  intro d
  induction d with
  | zero => intro root h L as A fuel ht; exact absurd ht id
  | succ d ih =>
    intro root h L as A fuel ht hwf hchain hw hfuel
    obtain ⟨g, rfl⟩ : ∃ g, fuel = g + 1 := ⟨fuel - 1, by omega⟩
    have hs1 : SameShape h (Function.update h root (h root).calculateMove) :=
      SameShape.tick h root
    obtain ⟨world, hworld⟩ :=
      world_returns (Function.update h root (h root).calculateMove) as root
        (hs1.ancestorChain as root hchain) wfuel (by omega)
    have hchildren : getChildren (Function.update h root (h root).calculateMove) root =
        (h root).m_children := (hs1 root).2
    have hloop : ∀ (L1 : RenderList R),
        PassAcc kind (preorderForest (preorder d h) (h root).m_children)
          (Function.update h root (h root).calculateMove) L1
          (passChildren (fun c s => pass kind wfuel g s c (A * getMatrix h root))
            (h root).m_children
            { heap := Function.update h root (h root).calculateMove, lists := L1 }) := by
      intro L1
      apply passChildren_acc kind _ (preorder d h) h _ _ _ _ hs1
      intro c hc h1 L2 hsh
      have := ih c h1 L2 (root :: as) (A * getMatrix h root) g
        (hsh.heightLe d c (ht c hc)) (hsh.wellFormed hwf)
        (hsh.ancestorChain (root :: as) c ⟨hwf.parent_of_child root c hc, hchain⟩)
        (by simp only [List.length_cons]; omega) (by omega)
      rw [hsh.preorder d c] at this
      exact this
    simp only [pass, hworld, hchildren]
    by_cases hlight : (kind root).isLight = true
    · have hmesh := isMesh_of_isLight _ hlight
      simp only [hlight, if_true]
      obtain ⟨h', lights, meshes, hr, hs2, hl, hm⟩ :=
        hloop { list := { node := root, nodeWorldMatrix := world } :: L.list
                lightList := L.lightList ++ [{ node := root, nodeWorldMatrix := world }]
                meshList := L.meshList }
      refine ⟨h', { node := root, nodeWorldMatrix := world } :: lights, meshes, ?_,
        hs1.trans hs2, ?_, ?_⟩
      · rw [hr]
        simp [List.append_assoc]
      · simp [preorder, hlight, hl]
      · simp [preorder, hmesh, hm]
    · by_cases hmesh : (kind root).isMesh = true
      · simp only [hlight, hmesh, if_true, if_false, Bool.false_eq_true]
        obtain ⟨h', lights, meshes, hr, hs2, hl, hm⟩ :=
          hloop { list := L.list ++ [{ node := root, nodeWorldMatrix := world }]
                  lightList := L.lightList
                  meshList := L.meshList ++ [{ node := root, nodeWorldMatrix := world }] }
        refine ⟨h', lights, { node := root, nodeWorldMatrix := world } :: meshes, ?_,
          hs1.trans hs2, ?_, ?_⟩
        · rw [hr]
          simp [List.append_assoc]
        · simp [preorder, hlight, hl]
        · simp [preorder, hmesh, hm]
      · simp only [hlight, hmesh, if_false, Bool.false_eq_true]
        obtain ⟨h', lights, meshes, hr, hs2, hl, hm⟩ := hloop L
        refine ⟨h', lights, meshes, hr, hs1.trans hs2, ?_, ?_⟩
        · simp [preorder, hlight, hl]
        · simp [preorder, hmesh, hm]

end PassLemmas

section PassClaims

variable {R : Type} [CommRing R]

/-- C15: for a finite tree (height at most `d`, parent pointers consistent with
the children vectors, the root's ancestor chain `as` ending at a parentless
node) and sufficient recursion bounds, one `pass` over the root from an empty
Render List returns; the light list holds exactly the lights of the tree in
pre-order, the mesh list exactly the meshes in pre-order, and the master list
is the reversed light list followed by the mesh list, of `N + M` entries, every
one a light or a mesh.  The pre-order sequence lists exactly the root and its
proper descendants. -/
theorem pass_lists (kind : Nat → NodeKind) (wfuel d fuel root : Nat) (h : Heap R)
    (as : List Nat) (A : Mat4 R) (htree : HeightLe h d root) (hwf : WellFormed h)
    (hchain : AncestorChain h root as) (hw : as.length + d ≤ wfuel) (hfuel : d ≤ fuel) :
    ∃ st' : PassState R,
      pass kind wfuel fuel { heap := h, lists := RenderList.empty } root A = some st' ∧
      (∀ y, y ∈ preorder d h root ↔ y = root ∨ Descendant h root y) ∧
      st'.lists.lightList.map Instance.node =
        (preorder d h root).filter (fun x => (kind x).isLight) ∧
      st'.lists.meshList.map Instance.node =
        (preorder d h root).filter (fun x => (kind x).isMesh) ∧
      st'.lists.list = st'.lists.lightList.reverse ++ st'.lists.meshList ∧
      st'.lists.lightList.length = (preorder d h root).countP (fun x => (kind x).isLight) ∧
      st'.lists.meshList.length = (preorder d h root).countP (fun x => (kind x).isMesh) ∧
      st'.lists.list.length =
        (preorder d h root).countP (fun x => (kind x).isLight) +
          (preorder d h root).countP (fun x => (kind x).isMesh) ∧
      ∀ i ∈ st'.lists.list, (kind i.node).isLight = true ∨ (kind i.node).isMesh = true := by
  obtain ⟨h', lights, meshes, hr, -, hl, hm⟩ :=
    pass_acc kind wfuel d root h RenderList.empty as A fuel htree hwf hchain hw hfuel
  have hlen1 : lights.length = (preorder d h root).countP (fun x => (kind x).isLight) := by
    rw [List.countP_eq_length_filter, ← hl, List.length_map]
  have hlen2 : meshes.length = (preorder d h root).countP (fun x => (kind x).isMesh) := by
    rw [List.countP_eq_length_filter, ← hm, List.length_map]
  refine ⟨_, hr, mem_preorder h d root htree, ?_, ?_, ?_, ?_, ?_, ?_, ?_⟩
  · simpa [RenderList.empty] using hl
  · simpa [RenderList.empty] using hm
  · simp [RenderList.empty]
  · simpa [RenderList.empty] using hlen1
  · simpa [RenderList.empty] using hlen2
  · simp [RenderList.empty, hlen1, hlen2]
  · intro i hi
    simp only [RenderList.empty, List.append_nil, List.mem_append, List.mem_reverse] at hi
    rcases hi with hi | hi
    · left
      have : i.node ∈ lights.map Instance.node := List.mem_map_of_mem _ hi
      rw [hl] at this
      simpa using (List.mem_filter.1 this).2
    · right
      have : i.node ∈ meshes.map Instance.node := List.mem_map_of_mem _ hi
      rw [hm] at this
      simpa using (List.mem_filter.1 this).2

end PassClaims

section PassWitness

theorem sceneHeap_wellFormed : WellFormed sceneHeap :=
  (WellFormed.of_fresh (fun _ => ⟨rfl, rfl⟩)).runCalls _

/-- Witness for C15 on the scene of `testComplexSceneGraph` (2 lights, 4
meshes): the light list holds Sun, Torch, the mesh list Ground, Sky, Player,
Enemy, and the master list Torch, Sun, Ground, Sky, Player, Enemy. -/
theorem pass_lists_witness :
    HeightLe sceneHeap 4 0 ∧ WellFormed sceneHeap ∧ AncestorChain sceneHeap 0 [] ∧
      ∃ st' : PassState ℤ,
        pass sceneKind 4 4 { heap := sceneHeap, lists := RenderList.empty } 0 1 = some st' ∧
        st'.lists.lightList.map Instance.node = [7, 8] ∧
        st'.lists.meshList.map Instance.node = [3, 4, 5, 6] ∧
        st'.lists.list.map Instance.node = [8, 7, 3, 4, 5, 6] := by
  have ht : HeightLe sceneHeap 4 0 := by decide
  have hc : AncestorChain sceneHeap 0 [] := by decide
  obtain ⟨st', h1, -, h3, h4, h5, -⟩ :=
    pass_lists sceneKind 4 4 4 0 sceneHeap [] 1 ht sceneHeap_wellFormed hc (by decide)
      (by decide)
  have hpre : preorder 4 sceneHeap 0 = [0, 1, 3, 4, 7, 2, 5, 8, 6] := by decide
  rw [hpre] at h3 h4
  refine ⟨ht, sceneHeap_wellFormed, hc, st', h1, ?_, ?_, ?_⟩
  · rw [h3]; decide
  · rw [h4]; decide
  · rw [h5, List.map_append, List.map_reverse, h3, h4]; decide

end PassWitness

/-! ## Destruction -/

section DeleteLemmas

variable {R : Type}

theorem deleteChildren_returns (rec : Nat → Option (List Nat)) (f : Nat → List Nat) :
    ∀ (cs : List Nat), (∀ c ∈ cs, rec c = some (f c)) →
      ∃ dead, deleteChildren rec cs = some dead ∧ ∀ y, y ∈ dead ↔ ∃ c ∈ cs, y ∈ f c := by
  intro cs
  induction cs with
  | nil => intro _; exact ⟨[], rfl, by simp⟩
  | cons c cs ih =>
    intro hrec
    obtain ⟨dead', hd, hmem⟩ := ih (fun c' hc' => hrec c' (by simp [hc']))
    refine ⟨f c ++ dead', ?_, ?_⟩
    · simp [deleteChildren, hrec c (by simp), hd]
    · intro y
      simp [hmem]

/-- On a finite subtree `delete x` returns, with the same result for every
sufficient recursion bound, and destroys exactly `x` and its proper
descendants. -/
theorem deleteNode_returns (h : Heap R) :
    ∀ (d x : Nat), HeightLe h d x →
      ∃ dead, (∀ fuel, d ≤ fuel → deleteNode fuel h x = some dead) ∧
        ∀ y, y ∈ dead ↔ y = x ∨ Descendant h x y := by
  intro d
  induction d with
  | zero => intro x hx; exact absurd hx id
  | succ d ih =>
    intro x hx
    have hsub : ∀ c ∈ (h x).m_children, ∃ dead,
        (∀ fuel, d ≤ fuel → deleteNode fuel h c = some dead) ∧
          ∀ y, y ∈ dead ↔ y = c ∨ Descendant h c y := fun c hc => ih c (hx c hc)
    let f : Nat → List Nat := fun c => (deleteNode d h c).getD []
    have hf : ∀ c ∈ (h x).m_children, (∀ fuel, d ≤ fuel → deleteNode fuel h c = some (f c)) ∧
        ∀ y, y ∈ f c ↔ y = c ∨ Descendant h c y := by
      intro c hc
      obtain ⟨dead, h1, h2⟩ := hsub c hc
      have : f c = dead := by simp only [f, h1 d (le_refl d), Option.getD_some]
      rw [this]
      exact ⟨h1, h2⟩
    obtain ⟨dead, hdead, hmem⟩ := deleteChildren_returns (fun c => deleteNode d h c) f
      (h x).m_children (fun c hc => (hf c hc).1 d (le_refl d))
    refine ⟨dead ++ [x], ?_, ?_⟩
    · intro fuel hfuel
      obtain ⟨g, rfl⟩ : ∃ g, fuel = g + 1 := ⟨fuel - 1, by omega⟩
      obtain ⟨dead2, hdead2, hmem2⟩ := deleteChildren_returns (fun c => deleteNode g h c) f
        (h x).m_children (fun c hc => (hf c hc).1 g (by omega))
      have hsame : deleteChildren (fun c => deleteNode g h c) (h x).m_children =
          deleteChildren (fun c => deleteNode d h c) (h x).m_children := by
        clear hdead2 hmem2 hdead hmem
        have hcongr : ∀ cs : List Nat, (∀ c ∈ cs, deleteNode g h c = deleteNode d h c) →
            deleteChildren (fun c => deleteNode g h c) cs =
              deleteChildren (fun c => deleteNode d h c) cs := by
          intro cs
          induction cs with
          | nil => intro _; rfl
          | cons c cs ihc =>
            intro hall
            simp only [deleteChildren]
            rw [hall c (by simp), ihc (fun c' hc' => hall c' (by simp [hc']))]
        apply hcongr
        intro c hc
        rw [(hf c hc).1 g (by omega), (hf c hc).1 d (le_refl d)]
      simp only [deleteNode, hsame, hdead]
    · intro y
      simp only [List.mem_append, List.mem_singleton, hmem]
      rw [descendant_iff]
      constructor
      · rintro (⟨c, hc, hy⟩ | rfl)
        · exact Or.inr ⟨c, hc, ((hf c hc).2 y).1 hy⟩
        · exact Or.inl rfl
      · rintro (rfl | ⟨c, hc, hy⟩)
        · exact Or.inr rfl
        · exact Or.inl ⟨c, hc, ((hf c hc).2 y).2 hy⟩

theorem HeightLe.not_self_child (h : Heap R) :
    ∀ (d x : Nat), HeightLe h d x → x ∉ (h x).m_children := by
  intro d
  induction d with
  | zero => intro x hx; exact absurd hx id
  | succ d ih =>
    intro x hx hmem
    exact ih x (hx x hmem) hmem

theorem HeightLe.of_subset {h h' : Heap R}
    (hsub : ∀ z c, c ∈ (h' z).m_children → c ∈ (h z).m_children) :
    ∀ (d x : Nat), HeightLe h d x → HeightLe h' d x := by
  intro d
  induction d with
  | zero => intro x hx; exact hx
  | succ d ih =>
    intro x hx c hc
    exact ih c (hx c (hsub x c hc))

theorem Descendant.listed {h : Heap R} {p x : Nat} (hd : Descendant h p x) :
    ∃ z, x ∈ (h z).m_children := by
  induction hd with
  | child hc => exact ⟨_, hc⟩
  | step _ _ ih => exact ih

/-- A child that is no longer listed anywhere survives `delete` of its former
parent. -/
theorem detached_survives (h h' : Heap R) (d p c fuel : Nat) (live : List Nat)
    (htree : HeightLe h d p) (hfuel : d ≤ fuel) (hc : c ∈ (h p).m_children)
    (hsub : ∀ z y, y ∈ (h' z).m_children → y ∈ (h z).m_children)
    (hgone : ∀ z, c ∉ (h' z).m_children) :
    ∃ live', liveAfterDelete fuel h' live p = some live' ∧ (c ∈ live → c ∈ live') := by
  obtain ⟨dead, hdead, hmem⟩ := deleteNode_returns h' d p (HeightLe.of_subset hsub d p htree)
  refine ⟨live.filter (fun y => decide (y ∉ dead)),
    by simp only [liveAfterDelete, hdead fuel hfuel, Option.map_some'], ?_⟩
  intro hlive
  have hcp : c ≠ p := fun e => HeightLe.not_self_child h d p htree (e ▸ hc)
  have hnd : c ∉ dead := by
    rw [hmem]
    rintro (e | hdesc)
    · exact hcp e
    · obtain ⟨z, hz⟩ := hdesc.listed
      exact hgone z hz
  simp [List.mem_filter, hlive, hnd]

end DeleteLemmas

section DeleteClaims

variable {R : Type}

/-- C18: with the live nodes modelled explicitly, on a finite subtree `delete x`
returns and leaves alive exactly the live nodes other than `x` and its proper
descendants (the nodes reached from it through children vectors); and when the
parent pointers are consistent with the children vectors, a child detached
from `x` by `removeChild` (by index or by pointer) beforehand is still alive
after `delete x`. -/
theorem delete_destroys_subtree (h : Heap R) (d x fuel : Nat) (live : List Nat)
    (htree : HeightLe h d x) (hfuel : d ≤ fuel) :
    (∃ live', liveAfterDelete fuel h live x = some live' ∧
        ∀ y, y ∈ live' ↔ y ∈ live ∧ y ≠ x ∧ ¬ Descendant h x y) ∧
      (WellFormed h → ∀ (n : Nat) (hn : n < (h x).m_children.length),
        (∃ live', liveAfterDelete fuel (removeChild h x n).2 live x = some live' ∧
          ((h x).m_children.get ⟨n, hn⟩ ∈ live → (h x).m_children.get ⟨n, hn⟩ ∈ live')) ∧
        (∃ live',
          liveAfterDelete fuel
            (removeChildNode h x (some ((h x).m_children.get ⟨n, hn⟩))).2 live x = some live' ∧
          ((h x).m_children.get ⟨n, hn⟩ ∈ live → (h x).m_children.get ⟨n, hn⟩ ∈ live'))) := by
  constructor
  · obtain ⟨dead, hdead, hmem⟩ := deleteNode_returns h d x htree
    refine ⟨live.filter (fun y => decide (y ∉ dead)),
      by simp only [liveAfterDelete, hdead fuel hfuel, Option.map_some'], ?_⟩
    intro y
    simp only [List.mem_filter, decide_eq_true_eq, hmem, not_or]
  · intro hwf n hn
    have hc : (h x).m_children.get ⟨n, hn⟩ ∈ (h x).m_children := List.get_mem _ _ _
    have hnd := hwf.nodup_children x
    have hother : ∀ z, z ≠ x → (h x).m_children.get ⟨n, hn⟩ ∉ (h z).m_children := by
      intro z hz hmem
      have h1 := hwf.parent_of_child z _ hmem
      have h2 := hwf.parent_of_child x _ hc
      rw [h1] at h2
      exact hz (Option.some.inj h2)
    constructor
    · apply detached_survives h _ d x _ fuel live htree hfuel hc
      · intro z y hy
        rw [removeChild_children] at hy
        split_ifs at hy with hz
        · subst hz
          exact List.mem_of_mem_eraseIdx hy
        · exact hy
      · intro z hz
        rw [removeChild_children] at hz
        split_ifs at hz with hzx
        · rw [← hnd.erase_get ⟨n, hn⟩] at hz
          exact hnd.not_mem_erase hz
        · exact hother z hzx hz
    · apply detached_survives h _ d x _ fuel live htree hfuel hc
      · intro z y hy
        rw [removeChildNode_children] at hy
        split_ifs at hy with hz
        · subst hz
          exact List.mem_of_mem_erase hy
        · exact hy
      · intro z hz
        rw [removeChildNode_children] at hz
        split_ifs at hz with hzx
        · exact hnd.not_mem_erase hz
        · exact hother z hzx hz

end DeleteClaims

section DeleteWitness

/-- Witness for C18 on `testNodeRemoval`: with children 1, 2, 3 under node 0,
`delete` of node 0 destroys all four nodes; after `removeChild(1)` has detached
node 2, node 2 survives it. -/
theorem delete_destroys_subtree_witness :
    HeightLe removalTestHeap 2 0 ∧
      (∃ live', liveAfterDelete 2 removalTestHeap [0, 1, 2, 3, 4] 0 = some live' ∧
        ∀ y, y ∈ live' ↔ y ∈ [0, 1, 2, 3, 4] ∧ y ≠ 0 ∧ ¬ Descendant removalTestHeap 0 y) ∧
      liveAfterDelete 2 removalTestHeap [0, 1, 2, 3, 4] 0 = some [4] ∧
      ∃ live', liveAfterDelete 2 (removeChild removalTestHeap 0 1).2 [0, 1, 2, 3, 4] 0 =
          some live' ∧ 2 ∈ live' := by
  have ht : HeightLe removalTestHeap 2 0 := by decide
  have hwf : WellFormed removalTestHeap :=
    (WellFormed.of_fresh (fun _ => ⟨rfl, rfl⟩)).runCalls _
  have key := delete_destroys_subtree removalTestHeap 2 0 2 [0, 1, 2, 3, 4] ht (le_refl 2)
  obtain ⟨live', h1, h2⟩ := (key.2 hwf 1 (by decide)).1
  exact ⟨ht, key.1, by decide, live', h1, h2 (by decide)⟩

end DeleteWitness

/-! ## Shadow matrix, cameras and spot light -/

section NumericClaims

/-- C30: `createShadowMatrix(L, P)` is `(P.L) * I - L * P^T`; hence the image of
every homogeneous point lies on the plane, the light position is mapped to the
zero vector, and a point on the plane is only scaled by `P.L`. -/
theorem createShadowMatrix_eq {R : Type} [CommRing R] (L P : Vec4 R) :
    createShadowMatrix L P = Matrix.dotProduct P L • (1 : Mat4 R) - Matrix.vecMulVec L P ∧
      (∀ X : Vec4 R, Matrix.dotProduct P ((createShadowMatrix L P).mulVec X) = 0) ∧
      (createShadowMatrix L P).mulVec L = 0 ∧
      (∀ X : Vec4 R, Matrix.dotProduct P X = 0 →
        (createShadowMatrix L P).mulVec X = Matrix.dotProduct P L • X) := by
  refine ⟨?_, ?_, ?_, ?_⟩
  · ext i j
    fin_cases i <;> fin_cases j <;>
      simp [createShadowMatrix, Matrix.vecMulVec, Matrix.dotProduct, Fin.sum_univ_four,
        Matrix.one_apply]
  · intro X
    simp [createShadowMatrix, Matrix.mulVec, Matrix.dotProduct, Fin.sum_univ_four]
    ring
  · funext i
    fin_cases i <;>
      simp [createShadowMatrix, Matrix.mulVec, Matrix.dotProduct, Fin.sum_univ_four] <;> ring
  · intro X hX
    simp only [Matrix.dotProduct, Fin.sum_univ_four] at hX
    funext i
    fin_cases i
    · simp [createShadowMatrix, Matrix.mulVec, Matrix.dotProduct, Fin.sum_univ_four]
      linear_combination (-(L 0)) * hX
    · simp [createShadowMatrix, Matrix.mulVec, Matrix.dotProduct, Fin.sum_univ_four]
      linear_combination (-(L 1)) * hX
    · simp [createShadowMatrix, Matrix.mulVec, Matrix.dotProduct, Fin.sum_univ_four]
      linear_combination (-(L 2)) * hX
    · simp [createShadowMatrix, Matrix.mulVec, Matrix.dotProduct, Fin.sum_univ_four]
      linear_combination (-(L 3)) * hX

end NumericClaims

section CameraClaims

variable {K : Type} [LinearOrderedField K]

/-- C22: after `OrthoCamera::setCameraParams(l, r, b, t, n, f)` the getters
return `min l r`, `max l r`, `min b t`, `max b t`, `min n f`, `max n f`; after
`PerspectiveCamera::setCameraParams(fov, ratio, n, f)` near and far are
`min n f` and `max n f`; and the `(width, height, n, f)` overload with
non-negative sizes stores `-width/2`, `width/2`, `-height/2`, `height/2`. -/
theorem setCameraParams_normalizes (cam : OrthoCamera K) (pcam : PerspectiveCamera K)
    (l r b t n f fov ratio : K) :
    ((cam.setCameraParams l r b t n f).m_left = min l r ∧
        (cam.setCameraParams l r b t n f).m_right = max l r ∧
        (cam.setCameraParams l r b t n f).m_bottom = min b t ∧
        (cam.setCameraParams l r b t n f).m_top = max b t ∧
        (cam.setCameraParams l r b t n f).m_near_plane = min n f ∧
        (cam.setCameraParams l r b t n f).m_far_plane = max n f) ∧
      ((pcam.setCameraParams fov ratio n f).m_near_plane = min n f ∧
        (pcam.setCameraParams fov ratio n f).m_far_plane = max n f) ∧
      (∀ width heigth : Int, 0 ≤ width → 0 ≤ heigth →
        (cam.setCameraParamsSize width heigth n f).m_left = -((width : K) / 2) ∧
        (cam.setCameraParamsSize width heigth n f).m_right = (width : K) / 2 ∧
        (cam.setCameraParamsSize width heigth n f).m_bottom = -((heigth : K) / 2) ∧
        (cam.setCameraParamsSize width heigth n f).m_top = (heigth : K) / 2) := by
  have hswap : ∀ x y : K,
      (if y < x then (y, x) else (x, y) : K × K) = (min x y, max x y) := by
    intro x y
    split_ifs with h
    · rw [min_eq_right h.le, max_eq_left h.le]
    · rw [min_eq_left (not_lt.1 h), max_eq_right (not_lt.1 h)]
  refine ⟨?_, ?_, ?_⟩
  · simp only [OrthoCamera.setCameraParams, hswap, and_self]
  · simp only [PerspectiveCamera.setCameraParams, hswap, and_self]
  · intro width heigth hw hh
    have hw' : (0 : K) ≤ (width : K) / 2 := by
      have : (0 : K) ≤ (width : K) := by exact_mod_cast hw
      positivity
    have hh' : (0 : K) ≤ (heigth : K) / 2 := by
      have : (0 : K) ≤ (heigth : K) := by exact_mod_cast hh
      positivity
    simp only [OrthoCamera.setCameraParamsSize, OrthoCamera.setCameraParams, hswap]
    refine ⟨?_, ?_, ?_, ?_⟩
    · exact min_eq_left (by linarith)
    · exact max_eq_right (by linarith)
    · exact min_eq_left (by linarith)
    · exact max_eq_right (by linarith)

/-- Witness for C22 on `testOrthoCamera`: 800 x 600 gives -400, 400, -300,
300. -/
theorem setCameraParams_normalizes_witness :
    ((0 : Int) ≤ 800) ∧ ((0 : Int) ≤ 600) ∧
      ((⟨0, 0, 0, 0, 0, 0⟩ : OrthoCamera ℚ).setCameraParamsSize 800 600 (1 / 10) 1000).m_left
        = -400 ∧
      ((⟨0, 0, 0, 0, 0, 0⟩ : OrthoCamera ℚ).setCameraParamsSize 800 600 (1 / 10) 1000).m_right
        = 400 ∧
      ((⟨0, 0, 0, 0, 0, 0⟩ : OrthoCamera ℚ).setCameraParamsSize 800 600 (1 / 10) 1000).m_bottom
        = -300 ∧
      ((⟨0, 0, 0, 0, 0, 0⟩ : OrthoCamera ℚ).setCameraParamsSize 800 600 (1 / 10) 1000).m_top
        = 300 := by
  obtain ⟨h1, h2, h3, h4⟩ :=
    (setCameraParams_normalizes (⟨0, 0, 0, 0, 0, 0⟩ : OrthoCamera ℚ)
      (⟨0, 0, 0, 0⟩ : PerspectiveCamera ℚ) 0 0 0 0 (1 / 10) 1000 0 0).2.2 800 600
      (by decide) (by decide)
  refine ⟨by decide, by decide, ?_, ?_, ?_, ?_⟩
  · rw [h1]; norm_num
  · rw [h2]; norm_num
  · rw [h3]; norm_num
  · rw [h4]; norm_num

/-- What `SpotLight::setCutoff` stores: the input when it lies between 0 and
90, and 0 otherwise. -/
theorem setCutoff_eq (c : K) :
    SpotLight.setCutoff c = if 0 ≤ c ∧ c ≤ 90 then c else 0 := by
  unfold SpotLight.setCutoff
  by_cases h1 : c < 0
  · have : ¬ (0 ≤ c ∧ c ≤ 90) := fun h => absurd h.1 (not_le.2 h1)
    simp [h1, this]
  · by_cases h2 : c > 90
    · have : ¬ (0 ≤ c ∧ c ≤ 90) := fun h => absurd h.2 (not_le.2 h2)
      simp [h2, this]
    · have : 0 ≤ c ∧ c ≤ 90 := ⟨not_lt.1 h1, not_lt.1 h2⟩
      simp [h1, h2, this]

/-- C23 fails on the code: `setCutoff(100)` stores 0, while clamping between 0
and 90 gives `min (max 100 0) 90 = 90`; the values 45 and -10 are stored as 45
and 0. -/
theorem setCutoff_above_range :
    SpotLight.setCutoff (100 : ℚ) = 0 ∧ min (max (100 : ℚ) 0) 90 = 90 ∧
      SpotLight.setCutoff (100 : ℚ) ≠ min (max (100 : ℚ) 0) 90 ∧
      SpotLight.setCutoff (45 : ℚ) = 45 ∧ SpotLight.setCutoff (-10 : ℚ) = 0 := by
  have h100 : SpotLight.setCutoff (100 : ℚ) = 0 := by
    rw [setCutoff_eq]; norm_num
  have hclamp : min (max (100 : ℚ) 0) 90 = 90 := by norm_num
  refine ⟨h100, hclamp, ?_, ?_, ?_⟩
  · rw [h100, hclamp]; norm_num
  · rw [setCutoff_eq]; norm_num
  · rw [setCutoff_eq]; norm_num

end CameraClaims

section LightCapClaims

/-- C21 fails on the code: seven constructions allocate the slots 1 to 6 and
leave the seventh light without a slot; destroying that seventh light lowers
the counter from 7 to 6, so an eighth construction is allocated slot 6 and
seven live lights hold a slot.  And after seven constructions and seven
destructions the counter is 0, so the next light is allocated id 0. -/
theorem light_cap_exceeded :
    (LightWorld.run [.construct, .construct, .construct, .construct, .construct,
        .construct, .construct, .destroy 6, .construct]).slots = [1, 2, 3, 4, 5, 6, 6] ∧
      (LightWorld.run [.construct, .construct, .construct, .construct, .construct,
        .construct, .construct, .destroy 6, .construct]).slots.length = 7 ∧
      (LightWorld.run [.construct, .construct, .construct, .construct, .construct,
        .construct, .construct, .destroy 0, .destroy 0, .destroy 0, .destroy 0,
        .destroy 0, .destroy 0, .destroy 0, .construct]).slots = [0] := by
  decide

end LightCapClaims

section WorldMatrixDocs

theorem scaledParentHeap_parent_matrix :
    getMatrix scaledParentHeap 0 = Matrix.diagonal ![2, 2, 2, 1] := by
  simp [getMatrix, scaledParentHeap, addChild, Node.new, setParent, Function.update]

theorem scaledParentHeap_child_matrix :
    getMatrix scaledParentHeap 1 = translate 1 ![1, 0, 0] := by
  simp [getMatrix, scaledParentHeap, addChild, Node.new, setParent, Function.update]

/-- C24 fails on the code: under a parent whose local matrix scales by 2 (and
has no translation), the world matrix of a child translated by (1,0,0) is the
child's own local matrix, with x translation 1, whereas
`local(parent) * local(child)` has x translation 2. -/
theorem getWorldCoordinateMatrix_ignores_scale :
    AncestorChain scaledParentHeap 1 [0] ∧
      getWorldCoordinateMatrix 2 scaledParentHeap 1 = some (getMatrix scaledParentHeap 1) ∧
      getMatrix scaledParentHeap 1 0 3 = 1 ∧
      (getMatrix scaledParentHeap 0 * getMatrix scaledParentHeap 1) 0 3 = 2 ∧
      getWorldCoordinateMatrix 2 scaledParentHeap 1 ≠
        some (getMatrix scaledParentHeap 0 * getMatrix scaledParentHeap 1) := by
  have hc : AncestorChain scaledParentHeap 1 [0] := by decide
  have hw : ∀ a ∈ [0], (scaledParentHeap a).m_matrix 3 3 = 1 := by
    intro a ha
    simp only [List.mem_singleton] at ha
    subst ha
    have := scaledParentHeap_parent_matrix
    simp only [getMatrix] at this
    rw [this]
    simp [Matrix.diagonal]
  have hsum : translationSum scaledParentHeap [0] = fun _ => 0 := by
    funext i
    have := scaledParentHeap_parent_matrix
    simp only [getMatrix] at this
    fin_cases i <;> simp [translationSum, column3, this, Matrix.diagonal]
  have hworld : getWorldCoordinateMatrix 2 scaledParentHeap 1 =
      some (getMatrix scaledParentHeap 1) := by
    rw [world_of_chain scaledParentHeap [0] 1 hc hw 2 (by decide), hsum, translate_one_zero,
      one_mul, getMatrix]
  have h1 : getMatrix scaledParentHeap 1 0 3 = 1 := by
    rw [scaledParentHeap_child_matrix]
    simp [translate_one_apply]
  have h2 : (getMatrix scaledParentHeap 0 * getMatrix scaledParentHeap 1) 0 3 = 2 := by
    rw [scaledParentHeap_parent_matrix, scaledParentHeap_child_matrix]
    simp [Matrix.mul_apply, Fin.sum_univ_four, translate_one_apply, Matrix.diagonal]
  refine ⟨hc, hworld, h1, h2, ?_⟩
  rw [hworld]
  intro h
  have h3 := congrFun (congrFun (Option.some.inj h) 0) 3
  rw [h1, h2] at h3
  exact absurd h3 (by decide)

end WorldMatrixDocs

/-! ## Independence of the pass from its matrix argument -/

section PassTraceLemmas

variable {R : Type} [CommRing R]

theorem pass_indep (kind : Nat → NodeKind) (wfuel : Nat) :
    ∀ (fuel : Nat) (st : PassState R) (root : Nat) (A B : Mat4 R),
      pass kind wfuel fuel st root A = pass kind wfuel fuel st root B := by
  intro fuel
  induction fuel with
  | zero => intro st root A B; rfl
  | succ fuel ih =>
    intro st root A B
    simp only [pass]
    have hrec : (fun c s => pass kind wfuel fuel s c (A * getMatrix st.heap root)) =
        (fun c s => pass kind wfuel fuel s c (B * getMatrix st.heap root)) := by
      funext c s
      exact ih s c _ _
    rw [hrec]

theorem passChildren_trace (kind : Nat → NodeKind) (wfuel : Nat)
    (rec : Nat → PassState R → Option (PassState R))
    (vrec : Nat → Heap R → Option (List (Nat × Heap R) × Heap R))
    (hrec : ∀ (c : Nat) (h : Heap R) (L : RenderList R),
      PassTrace kind wfuel (vrec c h) L (rec c { heap := h, lists := L })) :
    ∀ (cs : List Nat) (h1 : Heap R) (L1 : RenderList R),
      PassTrace kind wfuel (visitChildren vrec cs h1) L1
        (passChildren rec cs { heap := h1, lists := L1 }) := by
  intro cs
  induction cs with
  | nil =>
    intro h1 L1 st' hst
    simp only [passChildren, Option.some.injEq] at hst
    subst hst
    exact ⟨[], [], [], rfl, by simp, List.Forall₂.nil, List.Forall₂.nil⟩
  | cons c cs ih =>
    intro h1 L1 st' hst
    simp only [passChildren] at hst
    cases hc : rec c { heap := h1, lists := L1 } with
    | none => rw [hc] at hst; cases hst
    | some st1 =>
      rw [hc] at hst
      simp only at hst
      obtain ⟨vs1, l1, m1, hv1, hl1, hf1, hg1⟩ := hrec c h1 L1 st1 hc
      obtain ⟨vs2, l2, m2, hv2, hl2, hf2, hg2⟩ := ih st1.heap st1.lists st' hst
      refine ⟨vs1 ++ vs2, l1 ++ l2, m1 ++ m2, ?_, ?_, ?_, ?_⟩
      · simp only [visitChildren, hv1, hv2]
      · rw [hl2, hl1]
        simp [List.append_assoc]
      · rw [List.filter_append]
        exact List.rel_append hf1 hf2
      · rw [List.filter_append]
        exact List.rel_append hg1 hg2

theorem pass_trace (kind : Nat → NodeKind) (wfuel : Nat) :
    ∀ (fuel : Nat) (root : Nat) (A : Mat4 R) (h : Heap R) (L : RenderList R),
      PassTrace kind wfuel (visits fuel h root) L
        (pass kind wfuel fuel { heap := h, lists := L } root A) := by
  intro fuel
  induction fuel with
  | zero =>
    intro root A h L st' hst
    simp [pass] at hst
  | succ fuel ih =>
    intro root A h L st' hst
    simp only [pass] at hst
    cases hw : getWorldCoordinateMatrix wfuel
        (Function.update h root (h root).calculateMove) root with
    | none => rw [hw] at hst; cases hst
    | some world =>
      rw [hw] at hst
      simp only at hst
      have hloop := passChildren_trace kind wfuel
        (fun c s => pass kind wfuel fuel s c (A * getMatrix h root))
        (fun c s => visits fuel s c)
        (fun c h2 L2 => ih c (A * getMatrix h root) h2 L2)
        (getChildren (Function.update h root (h root).calculateMove) root)
        (Function.update h root (h root).calculateMove)
      have hstored : StoredAt wfuel { node := root, nodeWorldMatrix := world }
          (root, Function.update h root (h root).calculateMove) := ⟨rfl, hw⟩
      by_cases hlight : (kind root).isLight = true
      · have hmesh := isMesh_of_isLight _ hlight
        simp only [hlight, if_true] at hst
        obtain ⟨vs, lights, meshes, hv, hl, hf, hg⟩ := hloop _ st' hst
        refine ⟨(root, Function.update h root (h root).calculateMove) :: vs, { node := root, nodeWorldMatrix := world } :: lights, meshes,
          ?_, ?_, ?_, ?_⟩
        · simp only [visits, hv]
        · rw [hl]; simp [List.append_assoc]
        · simp only [List.filter_cons, hlight, if_true]
          exact List.Forall₂.cons hstored hf
        · simp only [List.filter_cons, hmesh, Bool.false_eq_true, if_false]
          exact hg
      · by_cases hmesh : (kind root).isMesh = true
        · simp only [hlight, hmesh, if_true, if_false, Bool.false_eq_true] at hst
          obtain ⟨vs, lights, meshes, hv, hl, hf, hg⟩ := hloop _ st' hst
          refine ⟨(root, Function.update h root (h root).calculateMove) :: vs, lights, { node := root, nodeWorldMatrix := world } :: meshes,
            ?_, ?_, ?_, ?_⟩
          · simp only [visits, hv]
          · rw [hl]; simp [List.append_assoc]
          · simp only [List.filter_cons, hlight, Bool.false_eq_true, if_false]
            exact hf
          · simp only [List.filter_cons, hmesh, if_true]
            exact List.Forall₂.cons hstored hg
        · simp only [hlight, hmesh, if_false, Bool.false_eq_true] at hst
          obtain ⟨vs, lights, meshes, hv, hl, hf, hg⟩ := hloop _ st' hst
          refine ⟨(root, Function.update h root (h root).calculateMove) :: vs, lights, meshes, ?_, hl, ?_, ?_⟩
          · simp only [visits, hv]
          · simp only [List.filter_cons, hlight, Bool.false_eq_true, if_false]
            exact hf
          · simp only [List.filter_cons, hmesh, Bool.false_eq_true, if_false]
            exact hg

end PassTraceLemmas

section PassIndependence

variable {R : Type} [CommRing R]

/-- C26: `pass(root, A)` and `pass(root, B)` from the same state give the same
outcome (the same master, light and mesh lists and the same node states,
whenever they return); when a pass from an empty Render List returns, every
entry of the light and mesh lists (which make up the master list) holds the
world matrix that `getWorldCoordinateMatrix()` returns on its node in the heap
right after that node's own `calculateMove()` tick, in visit order; and on a
finite tree with consistent parent pointers the pass does return. -/
theorem pass_ignores_matrix (kind : Nat → NodeKind) (wfuel fuel : Nat) (st : PassState R)
    (root : Nat) (A B : Mat4 R) :
    pass kind wfuel fuel st root A = pass kind wfuel fuel st root B ∧
      (∀ st', pass kind wfuel fuel { heap := st.heap, lists := RenderList.empty } root A =
          some st' →
        ∃ vs : List (Nat × Heap R), visits fuel st.heap root = some (vs, st'.heap) ∧
          List.Forall₂ (StoredAt wfuel) st'.lists.lightList
            (vs.filter (fun v => (kind v.1).isLight)) ∧
          List.Forall₂ (StoredAt wfuel) st'.lists.meshList
            (vs.filter (fun v => (kind v.1).isMesh)) ∧
          st'.lists.list = st'.lists.lightList.reverse ++ st'.lists.meshList) ∧
      (∀ (d : Nat) (as : List Nat), HeightLe st.heap d root → WellFormed st.heap →
        AncestorChain st.heap root as → as.length + d ≤ wfuel → d ≤ fuel →
        ∃ st', pass kind wfuel fuel st root A = some st') := by
  refine ⟨pass_indep kind wfuel fuel st root A B, ?_, ?_⟩
  · intro st' hst
    obtain ⟨vs, lights, meshes, hv, hl, hf, hg⟩ :=
      pass_trace kind wfuel fuel root A st.heap RenderList.empty st' hst
    refine ⟨vs, hv, ?_, ?_, ?_⟩
    · rw [hl]; simpa [RenderList.empty] using hf
    · rw [hl]; simpa [RenderList.empty] using hg
    · rw [hl]; simp [RenderList.empty]
  · intro d as ht hwf hchain hw hfuel
    obtain ⟨h', lights, meshes, hr, -⟩ :=
      pass_acc kind wfuel d root st.heap st.lists as A fuel ht hwf hchain hw hfuel
    exact ⟨_, hr⟩

/-- Witness for C26 on the scene of `testComplexSceneGraph`: the pass started
with the identity and the pass started with `stepX` agree, and they return. -/
theorem pass_ignores_matrix_witness :
    pass sceneKind 4 4 { heap := sceneHeap, lists := RenderList.empty } 0 1 =
        pass sceneKind 4 4 { heap := sceneHeap, lists := RenderList.empty } 0 stepX ∧
      ∃ st', pass sceneKind 4 4 { heap := sceneHeap, lists := RenderList.empty } 0 1 =
        some st' := by
  have key := pass_ignores_matrix sceneKind 4 4
    ({ heap := sceneHeap, lists := RenderList.empty } : PassState ℤ) 0 1 stepX
  exact ⟨key.1, key.2.2 4 [] (by decide) sceneHeap_wellFormed (by decide) (by decide)
    (by decide)⟩

end PassIndependence

/-! ## Scheduled movement and the accumulated destination -/

section AccumulatedLemmas

variable {R : Type} [CommRing R]

theorem destinationLoop_eq (T : Mat4 R) :
    ∀ (k : Nat) (d : Mat4 R), destinationLoop T k d = T ^ k * d := by
  intro k
  induction k with
  | zero => intro d; simp [destinationLoop]
  | succ k ih => intro d; rw [destinationLoop, ih, pow_succ, Matrix.mul_assoc]

theorem remaining_nil : remaining ([] : List (Mat4 R × Int)) = 1 := by
  simp [remaining]

theorem remaining_cons (e : Mat4 R × Int) (l : List (Mat4 R × Int)) :
    remaining (e :: l) = e.1 ^ e.2.toNat * remaining l := by
  simp [remaining]

theorem remaining_append (l l' : List (Mat4 R × Int)) :
    remaining (l ++ l') = remaining l * remaining l' := by
  simp [remaining]

theorem remaining_commute (T : Mat4 R) :
    ∀ l : List (Mat4 R × Int), (∀ e ∈ l, Commute T e.1) → Commute T (remaining l)
  | [], _ => by rw [remaining_nil]; exact Commute.one_right T
  | e :: l, h => by
    rw [remaining_cons]
    exact ((h e (List.mem_cons_self _ _)).pow_right _).mul_right
      (remaining_commute T l (fun x hx => h x (List.mem_cons_of_mem _ hx)))

/-- One pass of the loop of `calculateMove()` over entries with non-negative
counts and commuting step matrices keeps the product of the work left and the
local matrix, whether or not an entry is passed over. -/
theorem tickFrom_remaining :
    ∀ (l : List (Mat4 R × Int)) (m : Mat4 R) (c : Nat),
      (∀ e ∈ l, 0 ≤ e.2) → (∀ a ∈ l, ∀ b ∈ l, Commute a.1 b.1) →
      (∀ e ∈ (tickFrom m c l).pending, 0 ≤ e.2 ∧ ∃ e0 ∈ l, e.1 = e0.1) ∧
        remaining (tickFrom m c l).pending * (tickFrom m c l).matrix = remaining l * m := by
  refine tickFrom_induct
    (P := fun m _ l r => (∀ e ∈ l, 0 ≤ e.2) → (∀ a ∈ l, ∀ b ∈ l, Commute a.1 b.1) →
      (∀ e ∈ r.pending, 0 ≤ e.2 ∧ ∃ e0 ∈ l, e.1 = e0.1) ∧
        remaining r.pending * r.matrix = remaining l * m) ?_ ?_ ?_ ?_ ?_ ?_
  · intro m c _ _
    exact ⟨fun e he => absurd he (List.not_mem_nil _), rfl⟩
  · intro m c T s hs _ _
    refine ⟨fun e he => absurd he (List.not_mem_nil _), ?_⟩
    rcases hs with rfl | rfl <;> simp [remaining]
  · intro m c T s e' rest hs ih hpos hcomm
    have hpos' : ∀ e ∈ rest, 0 ≤ e.2 := fun e he => hpos e (by simp [he])
    have hcomm' : ∀ a ∈ rest, ∀ b ∈ rest, Commute a.1 b.1 :=
      fun a ha b hb => hcomm a (by simp [ha]) b (by simp [hb])
    obtain ⟨h1, h2⟩ := ih hpos' hcomm'
    refine ⟨?_, ?_⟩
    · intro e he
      rcases List.mem_cons.1 he with rfl | he
      · exact ⟨hpos _ (by simp), _, by simp, rfl⟩
      · obtain ⟨hp, e0, he0, heq⟩ := h1 e he
        exact ⟨hp, e0, by simp [he0], heq⟩
    · have hT : Commute T (remaining (e' :: rest)) :=
        remaining_commute T (e' :: rest)
          (fun x hx => hcomm (T, s) (by simp) x (List.mem_cons_of_mem _ hx))
      show remaining (e' :: _) * _ = remaining ((T, s) :: e' :: rest) * m
      rw [remaining_cons, Matrix.mul_assoc, h2, ← Matrix.mul_assoc, ← remaining_cons,
        remaining_cons (T, s)]
      rcases hs with rfl | rfl
      · simp
      · simp only [one_ne_zero, if_true, Int.toNat_one, pow_one]
        rw [← Matrix.mul_assoc, hT.eq]
  · intro m c T rest _ hpos _
    have := hpos (T, -1) (by simp)
    simp at this
  · intro m c T s rest hs ih hpos hcomm
    have hpos' : ∀ e ∈ rest, 0 ≤ e.2 := fun e he => hpos e (by simp [he])
    have hcomm' : ∀ a ∈ rest, ∀ b ∈ rest, Commute a.1 b.1 :=
      fun a ha b hb => hcomm a (by simp [ha]) b (by simp [hb])
    obtain ⟨h1, h2⟩ := ih hpos' hcomm'
    refine ⟨?_, ?_⟩
    · intro e he
      rcases List.mem_cons.1 he with rfl | he
      · exact ⟨by simp; omega, (T, s), by simp, rfl⟩
      · obtain ⟨hp, e0, he0, heq⟩ := h1 e he
        exact ⟨hp, e0, by simp [he0], heq⟩
    · have hT : Commute T (remaining rest) :=
        remaining_commute T rest
          (fun x hx => hcomm (T, s) (by simp) x (List.mem_cons_of_mem _ hx))
      have hsucc : s.toNat = (s - 1).toNat + 1 := by omega
      show remaining ((T, s - 1) :: _) * _ = remaining ((T, s) :: rest) * m
      rw [remaining_cons, Matrix.mul_assoc, h2, remaining_cons]
      show T ^ (s - 1).toNat * (remaining rest * (T * m)) = T ^ s.toNat * remaining rest * m
      rw [hsucc, pow_succ, ← Matrix.mul_assoc (remaining rest), ← hT.eq]
      simp only [Matrix.mul_assoc]
  · intro m c T s rest hs _ hpos _
    have := hpos (T, s) (by simp)
    simp at this
    omega

end AccumulatedLemmas

section ScheduledLemmas

variable {R : Type} [CommRing R]

theorem calculateMove_destination (nd : Node R) :
    nd.calculateMove.m_destinationMatrix = nd.m_destinationMatrix := by
  rw [calculateMove_eq]
  split_ifs <;> rfl

theorem Scheduled.after_tick {target dest : Mat4 R} {nd : Node R} (hs : Scheduled target dest nd) :
    Scheduled target dest nd.calculateMove := by
  obtain ⟨hm, hp, -⟩ := calculateMove_fields nd
  obtain ⟨h1, h2⟩ := tickFrom_remaining nd.m_pending nd.m_matrix 0 hs.nonneg hs.comm
  refine ⟨?_, ?_, ?_, ?_⟩
  · intro e he
    rw [hp] at he
    exact (h1 e he).1
  · intro a ha b hb
    rw [hp] at ha hb
    obtain ⟨-, a0, ha0, hae⟩ := h1 a ha
    obtain ⟨-, b0, hb0, hbe⟩ := h1 b hb
    rw [hae, hbe]
    exact hs.comm a0 ha0 b0 hb0
  · rw [hm, hp, h2]
    exact hs.product
  · rw [calculateMove_destination]
    exact hs.destination

theorem Scheduled.after_ticks {target dest : Mat4 R} {nd : Node R} (hs : Scheduled target dest nd) :
    ∀ k, Scheduled target dest (Node.ticks k nd) := by
  intro k
  induction k with
  | zero => exact hs
  | succ k ih => exact ih.after_tick

theorem Scheduled.after_drain {target dest : Mat4 R} (res : Node R) :
    ∀ (fuel : Nat) (nd : Node R), Scheduled target dest nd → drain fuel nd = some res →
      Scheduled target dest res := by
  intro fuel
  induction fuel with
  | zero => intro nd _ h; simp [Eng.drain] at h
  | succ f ih =>
    intro nd hs h
    simp only [Eng.drain] at h
    split_ifs at h with hm
    · exact ih _ hs.after_tick h
    · cases h
      exact hs

theorem move_scheduled [DecidableEq R] (nd : Node R) (T : Mat4 R) (n : Int) (hn : 0 ≤ n)
    (hpos : ∀ e ∈ nd.m_pending, 0 ≤ e.2) :
    (nd.move T n).m_pending = nd.m_pending ++ [(T, n)] ∧
      (nd.move T n).m_matrix = nd.m_matrix ∧
      (nd.move T n).m_destinationMatrix = T ^ n.toNat * nd.m_destinationMatrix := by
  have hany : nd.m_pending.any (fun e => decide (e.1 = T ∧ e.2 = -1)) = false := by
    rw [List.any_eq_false]
    intro e he
    have := hpos e he
    simp only [decide_eq_true_eq, not_and]
    intro _
    omega
  have hge : n ≥ 0 := hn
  simp only [Node.move, hany, Bool.false_eq_true, if_false, hge, if_true, destinationLoop_eq,
    and_self]

theorem moves_scheduled [DecidableEq R] :
    ∀ (calls : List (Mat4 R × Int)) (nd : Node R),
      (∀ e ∈ nd.m_pending, 0 ≤ e.2) → (∀ e ∈ calls, 0 ≤ e.2) →
      (∀ a ∈ calls, ∀ b ∈ calls, Commute a.1 b.1) →
      (nd.moves calls).m_pending = nd.m_pending ++ calls ∧
        (nd.moves calls).m_matrix = nd.m_matrix ∧
        (nd.moves calls).m_destinationMatrix = remaining calls * nd.m_destinationMatrix ∧
        (calls ≠ [] ∨ nd.m_isMoving = true → (nd.moves calls).m_isMoving = true) := by
  intro calls
  induction calls with
  | nil =>
    intro nd _ _ _
    refine ⟨by simp [Node.moves], rfl, by simp [Node.moves, remaining_nil], ?_⟩
    rintro (h | h)
    · exact absurd rfl h
    · exact h
  | cons e rest ih =>
    intro nd hpos hn hc
    obtain ⟨m1, m2, m3⟩ := move_scheduled nd e.1 e.2 (hn e (by simp)) hpos
    have hpos' : ∀ x ∈ (nd.move e.1 e.2).m_pending, 0 ≤ x.2 := by
      rw [m1]
      intro x hx
      rcases List.mem_append.1 hx with hx | hx
      · exact hpos x hx
      · rw [List.mem_singleton] at hx
        rw [hx]
        exact hn e (by simp)
    obtain ⟨r1, r2, r3, r4⟩ := ih (nd.move e.1 e.2) hpos'
      (fun x hx => hn x (List.mem_cons_of_mem _ hx))
      (fun a ha b hb => hc a (List.mem_cons_of_mem _ ha) b (List.mem_cons_of_mem _ hb))
    have hfold : nd.moves (e :: rest) = (nd.move e.1 e.2).moves rest := by
      simp [Node.moves]
    have hcomm : Commute (e.1 ^ e.2.toNat) (remaining rest) :=
      (remaining_commute e.1 rest
        (fun x hx => hc e (by simp) x (List.mem_cons_of_mem _ hx))).pow_left _
    rw [hfold]
    refine ⟨?_, ?_, ?_, ?_⟩
    · rw [r1, m1]; simp
    · rw [r2, m2]
    · rw [r3, m3, remaining_cons, ← Matrix.mul_assoc, hcomm.eq]
    · intro _
      exact r4 (Or.inr (move_isMoving nd e.1 e.2))

end ScheduledLemmas

section ScheduledClaims

variable {R : Type} [CommRing R]

/-- C25: for a node constructed with matrix `M0`, after any sequence of calls
`move(T_i, n_i)` with every `n_i >= 0` and pairwise commuting step matrices,
the loop `while (isMoving()) calculateMove();` stops (every run allowed at
least `pendingWork + 2` loop tests returns the same node), no entry is left
pending, the local matrix is `(product of T_i ^ n_i) * M0`, and this is the
accumulated destination matrix; after every number of ticks the work still
pending applied to the local matrix gives that same product, so no entry is
applied more or less than `n_i` times although a tick may pass over an entry. -/
theorem moves_then_drain [DecidableEq R] (name : String) (M0 : Mat4 R)
    (calls : List (Mat4 R × Int)) (hn : ∀ e ∈ calls, 0 ≤ e.2)
    (hc : ∀ a ∈ calls, ∀ b ∈ calls, Commute a.1 b.1) :
    ∃ res : Node R,
      (∀ fuel, pendingWork calls + 2 ≤ fuel →
        drain fuel ((Node.new name M0).moves calls) = some res) ∧
      res.m_isMoving = false ∧ res.m_pending = [] ∧
      res.m_matrix = remaining calls * M0 ∧
      res.m_matrix = res.m_destinationMatrix ∧
      ∀ k, remaining (Node.ticks k ((Node.new name M0).moves calls)).m_pending *
        (Node.ticks k ((Node.new name M0).moves calls)).m_matrix = remaining calls * M0 := by
  obtain ⟨hp, hm, hd, hmov⟩ :=
    moves_scheduled calls (Node.new name M0) (by simp [Node.new]) hn hc
  have hp' : ((Node.new name M0).moves calls).m_pending = calls := by
    rw [hp]; simp [Node.new]
  have hsched : Scheduled (remaining calls * M0) (remaining calls * M0)
      ((Node.new name M0).moves calls) := by
    refine ⟨?_, ?_, ?_, ?_⟩
    · rw [hp']; exact hn
    · rw [hp']; exact hc
    · rw [hp', hm]; rfl
    · rw [hd]; rfl
  have hfinal : ∀ res : Node R, Scheduled (remaining calls * M0) (remaining calls * M0) res →
      (∀ e ∈ res.m_pending, e.2 = -1) →
      res.m_pending = [] ∧ res.m_matrix = remaining calls * M0 ∧
        res.m_matrix = res.m_destinationMatrix := by
    intro res hs hall
    have hnil : res.m_pending = [] := by
      rw [List.eq_nil_iff_forall_not_mem]
      intro e he
      have h1 := hs.nonneg e he
      have h2 := hall e he
      omega
    have hmat : res.m_matrix = remaining calls * M0 := by
      have := hs.product
      rwa [hnil, remaining_nil, Matrix.one_mul] at this
    exact ⟨hnil, hmat, by rw [hmat, hs.destination]⟩
  by_cases hcalls : calls = []
  · subst hcalls
    refine ⟨Node.new name M0, ?_, rfl, ?_, ?_, ?_, ?_⟩
    · intro fuel hfuel
      obtain ⟨g, rfl⟩ : ∃ g, fuel = g + 1 := ⟨fuel - 1, by omega⟩
      simp [drain, Node.moves, Node.new]
    · rfl
    · simp [remaining_nil, Node.new]
    · rfl
    · intro k
      exact (hsched.after_ticks k).product
  · obtain ⟨res, hres, hfalse, hall⟩ :=
      drain_terminates_aux (pendingWork ((Node.new name M0).moves calls).m_pending)
        ((Node.new name M0).moves calls) rfl
        (by rw [hp']; exact fun e he => Or.inl (hn e he)) (hmov (Or.inl hcalls))
    rw [hp'] at hres
    have hs : Scheduled (remaining calls * M0) (remaining calls * M0) res :=
      Scheduled.after_drain res _ _ hsched (hres _ (le_refl _))
    obtain ⟨f1, f2, f3⟩ := hfinal res hs hall
    exact ⟨res, hres, hfalse, f1, f2, f3, fun k => (hsched.after_ticks k).product⟩

end ScheduledClaims

section ScheduledWitness

theorem stepX_commute_stepY : Commute stepX stepY := by
  show stepX * stepY = stepY * stepX
  decide

/-- Witness for C25 on the scenario of the skipped entry: `move(stepX, 1)` and
`move(stepY, 2)`. -/
theorem moves_then_drain_witness :
    (∀ e ∈ skipCalls, 0 ≤ e.2) ∧ (∀ a ∈ skipCalls, ∀ b ∈ skipCalls, Commute a.1 b.1) ∧
      ∃ res : Node ℤ, drain 7 ((Node.new "" 1).moves skipCalls) = some res ∧
        res.m_pending = [] ∧ res.m_matrix = remaining skipCalls * 1 ∧
        res.m_matrix = res.m_destinationMatrix := by
  have hn : ∀ e ∈ skipCalls, 0 ≤ e.2 := by
    intro e he
    simp only [skipCalls, List.mem_cons, List.mem_singleton, List.not_mem_nil, or_false] at he
    rcases he with rfl | rfl <;> simp
  have hc : ∀ a ∈ skipCalls, ∀ b ∈ skipCalls, Commute a.1 b.1 := by
    intro a ha b hb
    simp only [skipCalls, List.mem_cons, List.mem_singleton, List.not_mem_nil, or_false]
      at ha hb
    rcases ha with rfl | rfl <;> rcases hb with rfl | rfl
    · exact Commute.refl _
    · exact stepX_commute_stepY
    · exact stepX_commute_stepY.symm
    · exact Commute.refl _
  obtain ⟨res, h1, -, h3, h4, h5, -⟩ := moves_then_drain "" (1 : Mat4 ℤ) skipCalls hn hc
  refine ⟨hn, hc, res, h1 7 ?_, h3, h4, h5⟩
  simp [skipCalls, pendingWork]

end ScheduledWitness

/-! ## Acyclicity of the hierarchy -/

section AcyclicityLemmas

variable {R : Type}

theorem AncestorChain.unique {h : Heap R} :
    ∀ (as bs : List Nat) (x : Nat), AncestorChain h x as → AncestorChain h x bs → as = bs := by
  intro as
  induction as with
  | nil =>
    intro bs x ha hb
    cases bs with
    | nil => rfl
    | cons b bs =>
      have h1 : (h x).m_parent = none := ha
      have h2 : (h x).m_parent = some b := hb.1
      rw [h1] at h2
      cases h2
  | cons a as ih =>
    intro bs x ha hb
    have h1 : (h x).m_parent = some a := ha.1
    cases bs with
    | nil =>
      have h2 : (h x).m_parent = none := hb
      rw [h1] at h2
      cases h2
    | cons b bs =>
      have h2 : (h x).m_parent = some b := hb.1
      rw [h1] at h2
      cases h2
      rw [ih bs a ha.2 hb.2]

/-- Clearing parent pointers only shortens the chains of ancestors. -/
theorem AncestorChain.of_cleared {h h' : Heap R}
    (hpar : ∀ y, (h' y).m_parent = (h y).m_parent ∨ (h' y).m_parent = none) :
    ∀ (as : List Nat) (x : Nat), AncestorChain h x as →
      ∃ as', AncestorChain h' x as' ∧ as'.length ≤ as.length := by
  intro as
  induction as with
  | nil =>
    intro x hx
    have h1 : (h x).m_parent = none := hx
    refine ⟨[], ?_, le_refl _⟩
    show (h' x).m_parent = none
    rcases hpar x with e | e
    · rw [e, h1]
    · exact e
  | cons a as ih =>
    intro x hx
    have h1 : (h x).m_parent = some a := hx.1
    rcases hpar x with e | e
    · obtain ⟨as', hc, hl⟩ := ih a hx.2
      refine ⟨a :: as', ⟨?_, hc⟩, ?_⟩
      · rw [e, h1]
      · simp only [List.length_cons]; omega
    · exact ⟨[], e, Nat.zero_le _⟩

/-- A chain that does not meet `c` is unchanged when only the parent of `c`
changes. -/
theorem AncestorChain.of_avoiding {h h' : Heap R} (c : Nat)
    (hpar : ∀ y, y ≠ c → (h' y).m_parent = (h y).m_parent) :
    ∀ (as : List Nat) (x : Nat), AncestorChain h x as → x ≠ c → c ∉ as →
      AncestorChain h' x as := by
  intro as
  induction as with
  | nil =>
    intro x hx hxc _
    have h1 : (h x).m_parent = none := hx
    show (h' x).m_parent = none
    rw [hpar x hxc, h1]
  | cons a as ih =>
    intro x hx hxc hmem
    have h1 : (h x).m_parent = some a := hx.1
    have hac : a ≠ c := fun e => hmem (by simp [e])
    have hcas : c ∉ as := fun e => hmem (List.mem_cons_of_mem _ e)
    refine ⟨?_, ih a hx.2 hac hcas⟩
    rw [hpar x hxc, h1]

/-- After `c` is attached below `p`, whose chain does not meet `c`, every
chain ends, and it is at most `1 + |chain of p|` longer than before. -/
theorem AncestorChain.of_attached {h h' : Heap R} (p c : Nat) (ap : List Nat)
    (hpar : ∀ y, (h' y).m_parent = if y = c then some p else (h y).m_parent)
    (hp : AncestorChain h p ap) (hcp : c ≠ p) (hcap : c ∉ ap) :
    ∀ (as : List Nat) (x : Nat), AncestorChain h x as →
      ∃ as', AncestorChain h' x as' ∧ as'.length ≤ as.length + 1 + ap.length := by
  have hpar' : ∀ y, y ≠ c → (h' y).m_parent = (h y).m_parent := by
    intro y hy
    rw [hpar y, if_neg hy]
  have hp' : AncestorChain h' p ap :=
    AncestorChain.of_avoiding c hpar' ap p hp (fun e => hcp e.symm) hcap
  have hatc : ∃ as', AncestorChain h' c as' ∧ as'.length = 1 + ap.length := by
    refine ⟨p :: ap, ⟨?_, hp'⟩, ?_⟩
    · rw [hpar c, if_pos rfl]
    · simp only [List.length_cons]; omega
  intro as
  induction as with
  | nil =>
    intro x hx
    by_cases hxc : x = c
    · subst hxc
      obtain ⟨as', h1, h2⟩ := hatc
      exact ⟨as', h1, by simp only [List.length_nil]; omega⟩
    · have h1 : (h x).m_parent = none := hx
      refine ⟨[], ?_, Nat.zero_le _⟩
      show (h' x).m_parent = none
      rw [hpar' x hxc, h1]
  | cons a as ih =>
    intro x hx
    by_cases hxc : x = c
    · subst hxc
      obtain ⟨as', h1, h2⟩ := hatc
      exact ⟨as', h1, by simp only [List.length_cons]; omega⟩
    · have h1 : (h x).m_parent = some a := hx.1
      obtain ⟨as', hc', hl⟩ := ih a hx.2
      refine ⟨a :: as', ⟨?_, hc'⟩, ?_⟩
      · rw [hpar' x hxc, h1]
      · simp only [List.length_cons]; omega

/-- In a well-formed heap the chain of a proper descendant is longer than the
chain of the node it descends from. -/
theorem Descendant.chain_lt {h : Heap R} (hwf : WellFormed h) {x y : Nat}
    (hd : Descendant h x y) :
    ∀ as, AncestorChain h x as → ∃ bs, AncestorChain h y bs ∧ as.length < bs.length := by
  induction hd with
  | child hc =>
    intro as has
    exact ⟨_ :: as, ⟨hwf.parent_of_child _ _ hc, has⟩, by simp⟩
  | step hc _ ih =>
    intro as has
    obtain ⟨bs, hbs, hlt⟩ := ih (_ :: as) ⟨hwf.parent_of_child _ _ hc, has⟩
    exact ⟨bs, hbs, by simp only [List.length_cons] at hlt; omega⟩

theorem Chains.not_descendant_self {h : Heap R} {N : Nat} (hwf : WellFormed h)
    (hch : Chains h N) (x : Nat) : ¬ Descendant h x x := by
  intro hd
  obtain ⟨as, has, -⟩ := hch x
  obtain ⟨bs, hbs, hlt⟩ := hd.chain_lt hwf as has
  rw [AncestorChain.unique as bs x has hbs] at hlt
  exact lt_irrefl _ hlt

/-- With chains of at most `N` ancestors, the subtree below a node with `k`
fewer ancestors than `N` has height at most `k + 1`. -/
theorem Chains.height_bound_aux {h : Heap R} {N : Nat} (hwf : WellFormed h) (hch : Chains h N) :
    ∀ (k x : Nat) (as : List Nat), AncestorChain h x as → N ≤ as.length + k →
      HeightLe h (k + 1) x := by
  intro k
  induction k with
  | zero =>
    intro x as has hN c hc
    exfalso
    obtain ⟨bs, hbs, hl⟩ := hch c
    have hcs : AncestorChain h c (x :: as) := ⟨hwf.parent_of_child _ _ hc, has⟩
    rw [← AncestorChain.unique (x :: as) bs c hcs hbs] at hl
    simp only [List.length_cons] at hl
    omega
  | succ k ih =>
    intro x as has hN c hc
    have hcs : AncestorChain h c (x :: as) := ⟨hwf.parent_of_child _ _ hc, has⟩
    exact ih c (x :: as) hcs (by simp only [List.length_cons]; omega)

theorem Chains.height_bound {h : Heap R} {N : Nat} (hwf : WellFormed h) (hch : Chains h N)
    (x : Nat) : HeightLe h (N + 1) x := by
  obtain ⟨as, has, -⟩ := hch x
  exact Chains.height_bound_aux hwf hch N x as has (by omega)

theorem Chains.fresh_zero {h : Heap R} (hf : Fresh h) : Chains h 0 :=
  fun x => ⟨[], (hf x).1, le_refl _⟩

/-- One guarded call keeps the chains of ancestors finite and bounded. -/
theorem Chains.guarded_call {h : Heap R} {N : Nat} (hch : Chains h N) (call : HierarchyCall)
    (hg : HierarchyCall.Guarded h call) :
    Chains (HierarchyCall.run h call) (2 * N + 1) := by
  have hsame : Chains h (2 * N + 1) := fun x => by
    obtain ⟨as, has, hl⟩ := hch x
    exact ⟨as, has, by omega⟩
  cases call with
  | addChild p child =>
    cases child with
    | none => simpa [HierarchyCall.run, addChild] using hsame
    | some c =>
      by_cases hc : c ∈ (h p).m_children
      · simpa [HierarchyCall.run, addChild, hc] using hsame
      · obtain ⟨ap, hap, hcp, hcap⟩ := hg
        intro x
        obtain ⟨as, has, hl⟩ := hch x
        obtain ⟨bs, hbs, hbl⟩ := hch p
        have hlen : ap.length ≤ N := by
          rw [AncestorChain.unique ap bs p hap hbs]; exact hbl
        have hpar : ∀ y, ((Eng.addChild h p (some c)).2 y).m_parent =
            if y = c then some p else (h y).m_parent := addChild_parent h p c hc
        obtain ⟨as', has', hl'⟩ :=
          AncestorChain.of_attached p c ap hpar hap hcp hcap as x has
        exact ⟨as', has', by omega⟩
  | removeChild p n =>
    intro x
    obtain ⟨as, has, hl⟩ := hch x
    by_cases hn : n < (h p).m_children.length
    · have hpar : ∀ y, ((Eng.removeChild h p n).2 y).m_parent = (h y).m_parent ∨
          ((Eng.removeChild h p n).2 y).m_parent = none := by
        intro y
        rw [removeChild_parent h p n hn y]
        split_ifs
        · exact Or.inr rfl
        · exact Or.inl rfl
      obtain ⟨as', has', hl'⟩ := AncestorChain.of_cleared hpar as x has
      exact ⟨as', has', by omega⟩
    · refine ⟨as, ?_, by omega⟩
      show AncestorChain (Eng.removeChild h p n).2 x as
      rw [removeChild_snd_of_ge h p n (by omega)]
      exact has
  | removeChildNode p child =>
    intro x
    obtain ⟨as, has, hl⟩ := hch x
    have hpar : ∀ y, ((Eng.removeChildNode h p child).2 y).m_parent = (h y).m_parent ∨
        ((Eng.removeChildNode h p child).2 y).m_parent = none :=
      fun y => Or.inl (removeChildNode_parent h p child y)
    obtain ⟨as', has', hl'⟩ := AncestorChain.of_cleared hpar as x has
    exact ⟨as', has', by omega⟩

theorem Chains.guarded_calls :
    ∀ (calls : List HierarchyCall) (h : Heap R) (N : Nat), Chains h N → GuardedCalls h calls →
      ∃ N', Chains (Eng.runCalls h calls) N' := by
  intro calls
  induction calls with
  | nil => intro h N hch _; exact ⟨N, hch⟩
  | cons call rest ih =>
    intro h N hch hg
    have hfold : Eng.runCalls h (call :: rest) = Eng.runCalls (HierarchyCall.run h call) rest := by
      simp [Eng.runCalls]
    rw [hfold]
    exact ih _ _ (hch.guarded_call call hg.1) hg.2

end AcyclicityLemmas

section AcyclicityClaims

variable {R : Type} [CommRing R]

/-- C27 (amended): in every state reached from freshly constructed nodes by a
sequence of `removeChild` calls and of `addChild(c)` calls on a node `p` where
`c` is neither `p` nor one of the nodes met by following `getParent()` from
`p`, there is a bound `N` such that following `getParent()` from any node
reaches a parentless node within `N` steps, no node is its own descendant, and
the recursions return: `getWorldCoordinateMatrix()` within depth `N + 1`,
`getChild(name)` within depth `N + 1` and the render-list pass within depth
`N + 1`. -/
theorem guarded_calls_acyclic (h0 : Heap R) (hfresh : Fresh h0) (calls : List HierarchyCall)
    (hg : GuardedCalls h0 calls) :
    ∃ N : Nat,
      (∀ x, ∃ as, AncestorChain (runCalls h0 calls) x as ∧ as.length ≤ N) ∧
      (∀ x, ¬ Descendant (runCalls h0 calls) x x) ∧
      (∀ x fuel, N < fuel → ∃ w, getWorldCoordinateMatrix fuel (runCalls h0 calls) x = some w) ∧
      (∀ x name fuel, N < fuel → ∃ r, getChild fuel (runCalls h0 calls) x name = some r) ∧
      (∀ kind x L A fuel wfuel, N < fuel → 2 * N < wfuel →
        ∃ st', pass kind wfuel fuel { heap := runCalls h0 calls, lists := L } x A = some st') := by
  have hwf : WellFormed (runCalls h0 calls) := (WellFormed.of_fresh hfresh).runCalls calls
  obtain ⟨N, hch⟩ := Chains.guarded_calls calls h0 0 (Chains.fresh_zero hfresh) hg
  refine ⟨N, hch, hch.not_descendant_self hwf, ?_, ?_, ?_⟩
  · intro x fuel hfuel
    obtain ⟨as, has, hl⟩ := hch x
    exact world_returns _ as x has fuel (by omega)
  · intro x name fuel hfuel
    obtain ⟨r, hr⟩ := getChild_returns (runCalls h0 calls) name (N + 1) x (hch.height_bound hwf x)
    exact ⟨r, hr fuel (by omega)⟩
  · intro kind x L A fuel wfuel hfuel hwfuel
    obtain ⟨as, has, hl⟩ := hch x
    obtain ⟨h', lights, meshes, hr, -⟩ :=
      pass_acc kind wfuel (N + 1) x (runCalls h0 calls) L as A fuel (hch.height_bound hwf x) hwf has
        (by omega) (by omega)
    exact ⟨_, hr⟩

end AcyclicityClaims

section AcyclicityWitness

theorem selfLoopHeap_no_chain : ∀ as, ¬ AncestorChain selfLoopHeap 0 as := by
  intro as
  induction as with
  | nil => decide
  | cons a as ih =>
    intro hx
    have h1 : (selfLoopHeap 0).m_parent = some a := hx.1
    have h2 : (selfLoopHeap 0).m_parent = some 0 := by decide
    rw [h2] at h1
    cases h1
    exact ih hx.2

theorem selfLoopHeap_world : ∀ fuel, getWorldCoordinateMatrix fuel selfLoopHeap 0 = none := by
  intro fuel
  induction fuel with
  | zero => rfl
  | succ f ih =>
    have h2 : (selfLoopHeap 0).m_parent = some 0 := by decide
    simp only [getWorldCoordinateMatrix, h2, ih]

theorem mutualHeap_world : ∀ fuel,
    getWorldCoordinateMatrix fuel mutualHeap 0 = none ∧
      getWorldCoordinateMatrix fuel mutualHeap 1 = none := by
  intro fuel
  induction fuel with
  | zero => exact ⟨rfl, rfl⟩
  | succ f ih =>
    have h0 : (mutualHeap 0).m_parent = some 1 := by decide
    have h1 : (mutualHeap 1).m_parent = some 0 := by decide
    constructor
    · simp only [getWorldCoordinateMatrix, h0, ih.2]
    · simp only [getWorldCoordinateMatrix, h1, ih.1]

/-- C27 fails on the code: `addChild` makes no check against cycles.  After
`n0->addChild(n0)` on a fresh node, `n0` is its own parent and its own child,
following `getParent()` never ends and `getWorldCoordinateMatrix()` returns
within no recursion depth; after `n0->addChild(n1); n1->addChild(n0)` the two
nodes are each other's parent and child, with the same effect. -/
theorem addChild_makes_cycle :
    Fresh freshHeap ∧
      getParent selfLoopHeap 0 = some 0 ∧ Descendant selfLoopHeap 0 0 ∧
      (∀ as, ¬ AncestorChain selfLoopHeap 0 as) ∧
      (∀ fuel, getWorldCoordinateMatrix fuel selfLoopHeap 0 = none) ∧
      getParent mutualHeap 0 = some 1 ∧ getParent mutualHeap 1 = some 0 ∧
      Descendant mutualHeap 0 0 ∧
      (∀ fuel, getWorldCoordinateMatrix fuel mutualHeap 0 = none) := by
  refine ⟨freshHeap_fresh, by decide, Descendant.child (by decide), selfLoopHeap_no_chain,
    selfLoopHeap_world, by decide, by decide, ?_, fun fuel => (mutualHeap_world fuel).1⟩
  exact Descendant.step (c := 1) (by decide) (Descendant.child (by decide))

theorem guardedCallsExample_guarded : GuardedCalls freshHeap guardedCallsExample :=
  ⟨⟨[], by decide, by decide, by decide⟩, ⟨[0], by decide, by decide, by decide⟩, trivial,
    ⟨[1, 0], by decide, by decide, by decide⟩, trivial⟩

/-- Witness for C27 (amended): the chain 0 → 1 → 2 → 3 built with a removal by
pointer in between. -/
theorem guarded_calls_acyclic_witness :
    Fresh freshHeap ∧ GuardedCalls freshHeap guardedCallsExample ∧
      ∃ N : Nat,
        (∀ x, ∃ as, AncestorChain (runCalls freshHeap guardedCallsExample) x as ∧
          as.length ≤ N) ∧
        (∀ x, ¬ Descendant (runCalls freshHeap guardedCallsExample) x x) := by
  obtain ⟨N, h1, h2, -⟩ :=
    guarded_calls_acyclic freshHeap freshHeap_fresh guardedCallsExample
      guardedCallsExample_guarded
  exact ⟨freshHeap_fresh, guardedCallsExample_guarded, N, h1, h2⟩

end AcyclicityWitness

/-! ## The Tower-of-Hanoi client -/

section ClientLemmas

theorem vectorAt_mem {α : Type} (v : List α) (i : Int) (x : α) (h : vectorAt v i = some x) :
    x ∈ v ∧ 0 ≤ i ∧ i.toNat < v.length := by
  unfold vectorAt at h
  split_ifs at h with hi
  have hlt : i.toNat < v.length := by
    by_contra hge
    rw [List.get?_eq_none.2 (by omega)] at h
    cases h
  exact ⟨List.get?_mem h, by omega, hlt⟩

theorem vectorAt_some {α : Type} (v : List α) (i : Int) (h0 : 0 ≤ i)
    (h1 : i.toNat < v.length) : ∃ x, vectorAt v i = some x := by
  unfold vectorAt
  rw [if_neg (by omega)]
  exact ⟨v.get ⟨i.toNat, h1⟩, List.get?_eq_get h1⟩

theorem Decreasing.dropLast {peg : List Nat} (hp : Decreasing peg) :
    Decreasing peg.dropLast :=
  List.Pairwise.sublist (List.dropLast_sublist peg) hp

theorem Decreasing.push {peg : List Nat} (d : Nat) (hp : Decreasing peg)
    (htop : ∀ top, peg.getLast? = some top → getDiskDim d < getDiskDim top) :
    Decreasing (peg ++ [d]) := by
  rcases List.eq_nil_or_concat peg with rfl | ⟨front, top, rfl⟩
  · simp [Decreasing]
  · rw [List.concat_eq_append] at hp htop ⊢
    have hd := htop top (by simp)
    unfold Decreasing at hp ⊢
    rw [List.pairwise_append] at hp ⊢
    refine ⟨List.pairwise_append.2 hp, List.pairwise_singleton _ _, ?_⟩
    intro a ha b hb
    rw [List.mem_singleton] at hb
    subst hb
    rcases List.mem_append.1 ha with ha | ha
    · have := hp.2.2 a ha top (by simp)
      omega
    · rw [List.mem_singleton] at ha
      subst ha
      exact hd

theorem checkForWin_some (s : Client) (h3 : s.m.length = 3) : ∃ win, checkForWin s = some win := by
  obtain ⟨m, a1, a2, a3, a4, a5, a6⟩ := s
  simp only at h3
  match m, h3 with
  | [a, b, c], _ =>
    simp only [checkForWin, vectorAt]
    by_cases ha : a.isEmpty <;> by_cases hb : b.isEmpty <;> simp [ha, hb]

theorem sorted_set (m : List (List Nat)) (i : Nat) (peg : List Nat)
    (hs : ∀ p ∈ m, Decreasing p) (hp : Decreasing peg) : ∀ p ∈ m.set i peg, Decreasing p := by
  intro p hmem
  rcases List.mem_or_eq_of_mem_set hmem with h | h
  · exact hs p h
  · rw [h]; exact hp

theorem GameInv.resetGame {s : Client} (hs : GameInv s) (hne : s.memento ≠ [])
    (hwin : s.gameWin = false) :
    ∃ s', resetGame s = some s' ∧ GameInv s' := by
  obtain ⟨config, rest, hm⟩ := List.exists_cons_of_ne_nil hne
  have hcfg := hs.stored config (by rw [hm]; simp)
  have e : vectorAt s.memento 0 = some config := by simp [vectorAt, hm]
  simp only [Eng.resetGame, e, applyMemento]
  refine ⟨_, rfl, ?_⟩
  exact ⟨hcfg.1, hs.selector_lo, hs.selector_hi, hcfg.2, by simp, by simp [hwin]⟩

theorem GameInv.restart {s : Client} (hs : GameInv s) (hwin : s.gameWin = true) :
    ∃ s', resetAndStartNewTunr s = some s' ∧ GameInv s' := by
  have hinv : GameInv { s with gameWin := false } :=
    ⟨hs.pegs, hs.selector_lo, hs.selector_hi, hs.sorted, hs.stored, by simp⟩
  exact hinv.resetGame (hs.won hwin) rfl

theorem GameInv.selectDisk {s : Client} (hs : GameInv s) (peg : List Nat)
    (hpeg : vectorAt s.m s.selector = some peg) (hlen : peg.length > 0) :
    ∃ s', selectDisk s = some s' ∧ GameInv s' := by
  obtain ⟨hmem, -, -⟩ := vectorAt_mem _ _ _ hpeg
  have hne : peg ≠ [] := by
    intro e; rw [e] at hlen; simp at hlen
  obtain ⟨d, hd⟩ : ∃ d, peg.getLast? = some d :=
    ⟨peg.getLast hne, List.getLast?_eq_getLast _ hne⟩
  simp only [Eng.selectDisk, hpeg, hd]
  refine ⟨_, rfl, ?_⟩
  exact ⟨by simpa using hs.pegs, hs.selector_lo, hs.selector_hi,
    sorted_set _ _ _ hs.sorted (hs.sorted peg hmem).dropLast, hs.stored, hs.won⟩

theorem GameInv.putSelectedDiskDown {s : Client} (hs : GameInv s) (d : Nat) (peg : List Nat)
    (hd : s.selected_Disk = some d) (hpeg : vectorAt s.m s.selector = some peg)
    (htop : ∀ top, peg.getLast? = some top → getDiskDim d < getDiskDim top) :
    ∃ s', putSelectedDiskDown s = some s' ∧ GameInv s' := by
  obtain ⟨hmem, -, -⟩ := vectorAt_mem _ _ _ hpeg
  have hsorted : ∀ p ∈ s.m.set s.selector.toNat (peg ++ [d]), Decreasing p :=
    sorted_set _ _ _ hs.sorted ((hs.sorted peg hmem).push d htop)
  have hlen : (s.m.set s.selector.toNat (peg ++ [d])).length = 3 := by
    simpa using hs.pegs
  obtain ⟨win, hwin⟩ := checkForWin_some
    { s with m := s.m.set s.selector.toNat (peg ++ [d]), selected_Disk := none } hlen
  simp only [Eng.putSelectedDiskDown, hd, hpeg, hwin]
  refine ⟨_, rfl, ?_⟩
  have hstored : ∀ config ∈ s.memento ++ [s.m.set s.selector.toNat (peg ++ [d])],
      config.length = 3 ∧ ∀ p ∈ config, Decreasing p := by
    intro config hc
    rcases List.mem_append.1 hc with hc | hc
    · exact hs.stored config hc
    · rw [List.mem_singleton] at hc
      rw [hc]
      exact ⟨hlen, hsorted⟩
  cases win with
  | true =>
    exact ⟨hlen, hs.selector_lo, hs.selector_hi, hsorted, hstored, by simp [addMove]⟩
  | false =>
    exact ⟨hlen, hs.selector_lo, hs.selector_hi, hsorted, hstored, by simp [addMove]⟩

theorem GameInv.applyAt {s : Client} (hs : GameInv s) (hwin : s.gameWin = false) (mv : Int)
    (hcheck : checkMementoMove s mv = true) :
    ∃ s', (vectorAt ({ s with move := mv } : Client).memento
        ({ s with move := mv } : Client).move).map (applyMemento { s with move := mv }) =
          some s' ∧ GameInv s' := by
  simp only [checkMementoMove, decide_eq_true_eq] at hcheck
  obtain ⟨config, hconfig⟩ := vectorAt_some s.memento mv hcheck.1 (by omega)
  obtain ⟨hmem, -, -⟩ := vectorAt_mem _ _ _ hconfig
  have hcfg := hs.stored config hmem
  simp only [hconfig, Option.map_some']
  refine ⟨_, rfl, ?_⟩
  exact ⟨hcfg.1, hs.selector_lo, hs.selector_hi, hcfg.2, hs.stored, by simp [applyMemento, hwin]⟩

end ClientLemmas

section ClientSteps

theorem GameInv.selector_at {s : Client} (hs : GameInv s) :
    ∃ peg, vectorAt s.m s.selector = some peg := by
  have h1 := hs.selector_lo
  have h2 := hs.selector_hi
  have h3 := hs.pegs
  exact vectorAt_some s.m s.selector h1 (by omega)

theorem GameInv.special {s : Client} (hs : GameInv s) (key : SpecialKey) (spot : Bool) :
    ∃ s', onSpecialPressedCallback s key spot = some s' ∧ GameInv s' := by
  unfold onSpecialPressedCallback
  cases hwin : s.gameWin with
  | true =>
    simp only [if_true]
    exact hs.restart hwin
  | false =>
    simp only [Bool.false_eq_true, if_false]
    cases spot with
    | false => exact ⟨s, by simp, hs⟩
    | true =>
      simp only [if_true]
      obtain ⟨peg, hpeg⟩ := hs.selector_at
      cases key with
      | up =>
        cases hsel : s.selected_Disk with
        | some d => exact ⟨s, rfl, hs⟩
        | none =>
          simp only [hpeg]
          by_cases hlen : peg.length > 0
          · rw [if_pos hlen]
            exact hs.selectDisk peg hpeg hlen
          · rw [if_neg hlen]
            exact ⟨s, rfl, hs⟩
      | down =>
        cases hsel : s.selected_Disk with
        | none => exact ⟨s, rfl, hs⟩
        | some d =>
          simp only [hpeg]
          cases hlast : peg.getLast? with
          | none =>
            simp only
            exact hs.putSelectedDiskDown d peg hsel hpeg
              (fun top ht => by rw [hlast] at ht; cases ht)
          | some top =>
            simp only
            by_cases hdim : getDiskDim d < getDiskDim top
            · rw [if_pos hdim]
              exact hs.putSelectedDiskDown d peg hsel hpeg
                (fun top' ht => by rw [hlast] at ht; cases ht; exact hdim)
            · rw [if_neg hdim]
              exact ⟨s, rfl, hs⟩
      | left =>
        simp only
        by_cases hc : checkselectorVal (s.selector - 1) = true
        · rw [if_pos hc]
          simp only [checkselectorVal, decide_eq_true_eq] at hc
          refine ⟨_, rfl, ?_⟩
          exact ⟨hs.pegs, by simp only [moveDiskHorizzontally]; simp; omega,
            by simp only [moveDiskHorizzontally]; simp; omega, hs.sorted, hs.stored, hs.won⟩
        · rw [if_neg hc]
          exact ⟨s, rfl, hs⟩
      | right =>
        simp only
        by_cases hc : checkselectorVal (s.selector + 1) = true
        · rw [if_pos hc]
          simp only [checkselectorVal, decide_eq_true_eq] at hc
          refine ⟨_, rfl, ?_⟩
          exact ⟨hs.pegs, by simp only [moveDiskHorizzontally]; simp; omega,
            by simp only [moveDiskHorizzontally]; simp; omega, hs.sorted, hs.stored, hs.won⟩
        · rw [if_neg hc]
          exact ⟨s, rfl, hs⟩
      | other => exact ⟨s, rfl, hs⟩

theorem GameInv.keyboard {s : Client} (hs : GameInv s) (key : Char) (hkey : key ≠ 'l') :
    ∃ s', onKeyboardPressedCallback s key = some s' ∧ GameInv s' := by
  unfold onKeyboardPressedCallback
  cases hwin : s.gameWin with
  | true =>
    simp only [if_true]
    exact hs.restart hwin
  | false =>
    simp only [Bool.false_eq_true, if_false, if_neg hkey]
    by_cases hi : key = 'i'
    · rw [if_pos hi]
      cases hsel : s.selected_Disk with
      | some d => exact ⟨s, rfl, hs⟩
      | none =>
        simp only
        by_cases hc : checkMementoMove s (s.move - 1) = true
        · rw [if_pos hc]
          exact hs.applyAt hwin _ hc
        · rw [if_neg hc]
          exact ⟨s, rfl, hs⟩
    · rw [if_neg hi]
      by_cases ho : key = 'o'
      · rw [if_pos ho]
        cases hsel : s.selected_Disk with
        | some d => exact ⟨s, rfl, hs⟩
        | none =>
          simp only
          by_cases hc : checkMementoMove s (s.move + 1) = true
          · rw [if_pos hc]
            exact hs.applyAt hwin _ hc
          · rw [if_neg hc]
            exact ⟨s, rfl, hs⟩
      · rw [if_neg ho]
        exact ⟨s, rfl, hs⟩

theorem GameInv.run_keys : ∀ (events : List Event) (s : Client), GameInv s →
    (∀ e ∈ events, e ≠ Event.keyboard 'l') → ∃ s', s.run events = some s' ∧ GameInv s' := by
  intro events
  induction events with
  | nil => intro s hs _; exact ⟨s, rfl, hs⟩
  | cons e rest ih =>
    intro s hs hkeys
    have hstep : ∃ s1, s.step e = some s1 ∧ GameInv s1 := by
      cases e with
      | special key spot => exact hs.special key spot
      | keyboard key =>
        refine hs.keyboard key ?_
        intro hk
        exact hkeys (Event.keyboard key) (by simp) (by rw [hk])
    obtain ⟨s1, h1, hs1⟩ := hstep
    obtain ⟨s', h2, hs'⟩ := ih s1 hs1 (fun x hx => hkeys x (List.mem_cons_of_mem _ hx))
    exact ⟨s', by simp only [Client.run, h1, h2], hs'⟩

theorem GameInv.initial : GameInv Client.initial := by
  refine ⟨rfl, by decide, by decide, ?_, ?_, by simp [Client.initial]⟩
  · intro peg hpeg
    simp only [Client.initial, List.mem_cons, List.mem_singleton, List.not_mem_nil,
      or_false] at hpeg
    rcases hpeg with rfl | rfl | rfl <;> unfold Decreasing <;> decide
  · intro config hc
    simp only [Client.initial, List.mem_singleton] at hc
    subst hc
    refine ⟨rfl, ?_⟩
    intro peg hpeg
    simp only [List.mem_cons, List.mem_singleton, List.not_mem_nil, or_false] at hpeg
    rcases hpeg with rfl | rfl | rfl <;> unfold Decreasing <;> decide

theorem putSelectedDiskDown_m (s s' : Client) (d : Nat) (peg : List Nat)
    (hd : s.selected_Disk = some d) (hpeg : vectorAt s.m s.selector = some peg)
    (hput : putSelectedDiskDown s = some s') :
    s'.m = s.m.set s.selector.toNat (peg ++ [d]) := by
  simp only [putSelectedDiskDown, hd, hpeg] at hput
  split at hput
  · cases hput
  · rename_i win _
    cases hput
    cases win <;> rfl

end ClientSteps

section ClientClaims

theorem down_effect (s s' : Client) (spot : Bool) (hwin : s.gameWin = false)
    (hdown : onSpecialPressedCallback s .down spot = some s') (hne : s' ≠ s) :
    ∃ d peg, s.selected_Disk = some d ∧ vectorAt s.m s.selector = some peg ∧
      (peg = [] ∨ ∃ top, peg.getLast? = some top ∧ getDiskDim d < getDiskDim top) ∧
      s'.m = s.m.set s.selector.toNat (peg ++ [d]) := by
  unfold onSpecialPressedCallback at hdown
  simp only [hwin, Bool.false_eq_true, if_false] at hdown
  cases spot with
  | false =>
    simp only [Bool.false_eq_true, if_false, Option.some.injEq] at hdown
    exact absurd hdown.symm hne
  | true =>
    simp only [if_true] at hdown
    cases hsel : s.selected_Disk with
    | none =>
      simp only [hsel, Option.some.injEq] at hdown
      exact absurd hdown.symm hne
    | some d =>
      simp only [hsel] at hdown
      cases hpeg : vectorAt s.m s.selector with
      | none => simp only [hpeg] at hdown; cases hdown
      | some peg =>
        simp only [hpeg] at hdown
        cases hlast : peg.getLast? with
        | none =>
          simp only [hlast] at hdown
          refine ⟨d, peg, rfl, rfl, Or.inl ?_, putSelectedDiskDown_m s s' d peg hsel hpeg hdown⟩
          simpa using hlast
        | some top =>
          simp only [hlast] at hdown
          by_cases hdim : getDiskDim d < getDiskDim top
          · rw [if_pos hdim] at hdown
            exact ⟨d, peg, rfl, rfl, Or.inr ⟨top, hlast, hdim⟩,
              putSelectedDiskDown_m s s' d peg hsel hpeg hdown⟩
          · rw [if_neg hdim] at hdown
            cases hdown
            exact absurd rfl hne

/-- C28: from the initial configuration of `main` (disks of sizes 7..1 on the
first peg, largest at the bottom), every sequence of key presses without the
reset key is handled without reading outside a vector, and in the state
reached every peg of `m` is strictly decreasing in disk size from bottom to
top; there the put-down key changes the state of a game in progress only when
a disk is held and the selected peg is empty or its top disk is larger, and
then the held disk is pushed on that peg. -/
theorem pegs_strictly_decreasing (events : List Event)
    (hkeys : ∀ e ∈ events, e ≠ Event.keyboard 'l') :
    ∃ s, Client.initial.run events = some s ∧
      (∀ peg ∈ s.m, peg.Pairwise (fun lower upper => getDiskDim upper < getDiskDim lower)) ∧
      (∀ spot s', s.gameWin = false → onSpecialPressedCallback s .down spot = some s' →
        s' ≠ s →
        ∃ d peg, s.selected_Disk = some d ∧ vectorAt s.m s.selector = some peg ∧
          (peg = [] ∨ ∃ top, peg.getLast? = some top ∧ getDiskDim d < getDiskDim top) ∧
          s'.m = s.m.set s.selector.toNat (peg ++ [d])) := by
  obtain ⟨s, hrun, hs⟩ := GameInv.run_keys events Client.initial GameInv.initial hkeys
  exact ⟨s, hrun, hs.sorted, fun spot s' hwin hdown hne => down_effect s s' spot hwin hdown hne⟩

/-- Witness for C28: pick up the smallest disk, go right, put it down. -/
theorem pegs_strictly_decreasing_witness :
    (∀ e ∈ firstMoveKeys, e ≠ Event.keyboard 'l') ∧
      ∃ s, Client.initial.run firstMoveKeys = some s ∧
        ∀ peg ∈ s.m, peg.Pairwise (fun lower upper => getDiskDim upper < getDiskDim lower) := by
  have hkeys : ∀ e ∈ firstMoveKeys, e ≠ Event.keyboard 'l' := by
    intro e he
    simp only [firstMoveKeys, List.mem_cons, List.mem_singleton, List.not_mem_nil,
      or_false] at he
    rcases he with rfl | rfl | rfl <;> simp
  obtain ⟨s, h1, h2, -⟩ := pegs_strictly_decreasing firstMoveKeys hkeys
  exact ⟨hkeys, s, h1, h2⟩

/-- C29 fails on the code: `resetGame()` clears `memento` and does not store
the configuration it restored.  From the initial state the key 'l' leaves
`memento` empty with `move = 0`, so the second press of 'l' executes
`applyMemento(memento[0])` on an empty vector, whereas undo and redo test
`checkMementoMove` first. -/
theorem resetGame_reads_empty_memento :
    ∃ s1, onKeyboardPressedCallback Client.initial 'l' = some s1 ∧
      s1.memento = [] ∧ s1.move = 0 ∧ s1.gameWin = false ∧
      vectorAt s1.memento s1.move = none ∧
      resetGame s1 = none ∧
      onKeyboardPressedCallback s1 'l' = none ∧
      Client.initial.run [.keyboard 'l', .keyboard 'l'] = none := by
  refine ⟨_, rfl, rfl, rfl, rfl, rfl, rfl, rfl, ?_⟩
  rfl

end ClientClaims

end Eng
